import Mathlib

/-!
AMReX atomic read-modify-write primitives (`Src/Base/AMReX_GpuAtomic.H`).

A shallow embedding of the `amrex::Gpu::Atomic` operations.

* A call on a target `T* m` is a function of the content of `*m` before the call; it yields an
  `Outcome`: the value the call returns and the content of `*m` after the call.
* C++ templates over the operand type `T` are Lean functions polymorphic in `T`, using the
  operators the template body uses (`+`, `<`, `>`, `==`).
* `unsigned int`, `unsigned long long`, `int` and `Long` are bit patterns of a fixed width held in
  a `Nat`, every arithmetic result being reduced `% 2 ^ w` explicitly.
* `float` and `double` are IEEE 754 bit patterns held in a `Nat`; their `<` is false whenever an
  operand is a NaN.
-/

namespace amrex

/-! ## Machine integers -/

/-- An unsigned integer of `w` bits (`unsigned int` is `Unsigned 32`, `unsigned long long` is
`Unsigned 64`). -/
structure Unsigned (w : Nat) where
  val : Nat
  isLt : val < 2 ^ w
  deriving DecidableEq

namespace Unsigned

/-- Conversion of a natural number to `w` bits: reduction modulo `2 ^ w`. -/
def ofNat (w n : Nat) : Unsigned w := ⟨n % 2 ^ w, Nat.mod_lt n (Nat.two_pow_pos w)⟩

instance (w n : Nat) : OfNat (Unsigned w) n := ⟨ofNat w n⟩

/-- Unsigned addition wraps around modulo `2 ^ w`. -/
instance (w : Nat) : HAdd (Unsigned w) (Unsigned w) (Unsigned w) :=
  ⟨fun a b => ofNat w (a.val + b.val)⟩

/-- Unsigned subtraction wraps around modulo `2 ^ w`. -/
instance (w : Nat) : HSub (Unsigned w) (Unsigned w) (Unsigned w) :=
  ⟨fun a b => ofNat w (a.val + 2 ^ w - b.val)⟩

/-- Unsigned integers are ordered by their values. -/
instance (w : Nat) : LinearOrder (Unsigned w) :=
  LinearOrder.lift' Unsigned.val (fun a b h => by cases a; cases b; simp_all)

end Unsigned

/-- A two's complement signed integer of `w` bits, held as its bit pattern (`int` is `Signed 32`,
`Long` is `Signed 64`). -/
structure Signed (w : Nat) where
  bits : Nat
  isLt : bits < 2 ^ w
  deriving DecidableEq

namespace Signed

/-- The integer a bit pattern stands for: patterns from `2 ^ (w - 1)` on are negative. -/
def toInt {w : Nat} (a : Signed w) : Int :=
  if a.bits < 2 ^ (w - 1) then (a.bits : Int) else (a.bits : Int) - 2 ^ w

/-- The `w`-bit pattern of an integer. -/
def ofInt (w : Nat) (x : Int) : Signed w :=
  ⟨(x % 2 ^ w).toNat, by
    have h : (0 : Int) < 2 ^ w := by positivity
    have h1 := Int.emod_nonneg x h.ne'
    have h2 := Int.emod_lt_of_pos x h
    have h3 : (((x % 2 ^ w).toNat : Nat) : Int) < ((2 ^ w : Nat) : Int) := by
      rw [Int.toNat_of_nonneg h1]; push_cast; exact h2
    exact_mod_cast h3⟩

instance (w n : Nat) : OfNat (Signed w) n := ⟨ofInt w n⟩

/-- Two's complement addition: addition of the bit patterns modulo `2 ^ w`. (C++ leaves a signed
sum that does not fit undefined; the adders of the targets wrap around, which is what is
modelled.) -/
instance (w : Nat) : HAdd (Signed w) (Signed w) (Signed w) :=
  ⟨fun a b => ⟨(a.bits + b.bits) % 2 ^ w, Nat.mod_lt _ (Nat.two_pow_pos w)⟩⟩

/-- Signed integers are ordered by the integers they stand for. -/
instance (w : Nat) : LinearOrder (Signed w) :=
  LinearOrder.lift' Signed.toInt (fun a b h => by
    obtain ⟨x, hx⟩ := a
    obtain ⟨y, hy⟩ := b
    have hxy : x = y := by
      simp only [toInt] at h
      have hp : ((2 ^ w : Nat) : Int) = 2 ^ w := by push_cast; rfl
      generalize (2 : Int) ^ w = p at h hp
      generalize 2 ^ w = q at hx hy hp
      split_ifs at h <;> omega
    subst hxy
    rfl)

end Signed

/-- The operand type `unsigned int`. -/
abbrev UnsignedInt := Unsigned 32

/-- The operand type `unsigned long long`. -/
abbrev UnsignedLongLong := Unsigned 64

/-- The operand type `int`. -/
abbrev CInt := Signed 32

/-- The operand type `Long` (a 64-bit signed integer). -/
abbrev Long := Signed 64

/-! ## Floating-point operands -/

/-- An IEEE 754 binary floating-point value held as its bit pattern: from the top, one sign bit,
`e` exponent bits and `f` fraction bits (`float` is `Ieee 8 23`, `double` is `Ieee 11 52`). -/
structure Ieee (e f : Nat) where
  bits : Nat
  isLt : bits < 2 ^ (1 + e + f)
  deriving DecidableEq

namespace Ieee

/-- The bit pattern with the given sign bit, exponent field and fraction field. -/
def ofParts (e f : Nat) (sign exponent fraction : Nat) : Ieee e f :=
  ⟨(sign * 2 ^ (e + f) + exponent * 2 ^ f + fraction) % 2 ^ (1 + e + f),
    Nat.mod_lt _ (Nat.two_pow_pos _)⟩

/-- The sign bit. -/
def sign {e f : Nat} (a : Ieee e f) : Nat := a.bits / 2 ^ (e + f)

/-- The exponent field. -/
def exponent {e f : Nat} (a : Ieee e f) : Nat := a.bits / 2 ^ f % 2 ^ e

/-- The fraction field. -/
def fraction {e f : Nat} (a : Ieee e f) : Nat := a.bits % 2 ^ f

/-- A NaN has all exponent bits set and a fraction field that is not 0. -/
def isNaN {e f : Nat} (a : Ieee e f) : Bool := decide (a.exponent = 2 ^ e - 1 ∧ a.fraction ≠ 0)

/-- The bits below the sign bit. -/
def magnitude {e f : Nat} (a : Ieee e f) : Nat := a.bits % 2 ^ (e + f)

/-- The place of a pattern that is not a NaN in the order of the values: among the patterns of
one sign a larger exponent field, or the same exponent field and a larger fraction field, stands
for a value further from 0 (the infinities furthest), so the place is the magnitude, negated when
the sign bit is set. Both zeros have place 0. -/
def place {e f : Nat} (a : Ieee e f) : Int :=
  if a.sign = 1 then -(a.magnitude : Int) else (a.magnitude : Int)

/-- The number a pattern stands for, if it is finite: with the bias `2 ^ (e - 1) - 1`, the value
`(-1)^sign * (1 + fraction / 2^f) * 2^(exponent - bias)` of a normal pattern and
`(-1)^sign * (fraction / 2^f) * 2^(1 - bias)` of a zero or subnormal one. -/
def value {e f : Nat} (a : Ieee e f) : Option ℚ :=
  if a.exponent = 2 ^ e - 1 then none
  else if a.exponent = 0 then
    some ((-1) ^ a.sign * (a.fraction : ℚ) * 2 ^ ((2 : Int) - 2 ^ (e - 1) - f))
  else
    some ((-1) ^ a.sign * ((2 ^ f + a.fraction : Nat) : ℚ)
      * 2 ^ ((a.exponent : Int) + 1 - 2 ^ (e - 1) - f))

/-- The operator `<` of `float` and `double`: false when an operand is a NaN, the order of the
values otherwise. -/
instance {e f : Nat} : LT (Ieee e f) :=
  ⟨fun a b => a.isNaN = false ∧ b.isNaN = false ∧ a.place < b.place⟩

instance {e f : Nat} (a b : Ieee e f) : Decidable (a < b) :=
  inferInstanceAs (Decidable (a.isNaN = false ∧ b.isNaN = false ∧ a.place < b.place))

end Ieee

/-- The operand type `float`. -/
abbrev CFloat := Ieee 8 23

/-- The operand type `double`. -/
abbrev Double := Ieee 11 52

/-- What one call does: the value it returns and the content of the target after it. -/
structure Outcome (T : Type) where
  ret : T
  cell : T
  deriving DecidableEq

namespace Gpu.Atomic

/-! ## Host branches of the nine operations

Each definition takes the content of the target (named as the pointer is in the source) and the
operands, and follows the `#else` branch of the source line by line. -/

/-- Host branch of `Add`: `auto old = *sum; *sum += value; return old;` -/
def Add {T : Type} [HAdd T T T] (sum : T) (value : T) : Outcome T :=
  let old := sum
  let sum := sum + value
  ⟨old, sum⟩

/-- Host branch of `Min`: `auto old = *m; *m = (*m) < value ? (*m) : value; return old;` -/
def Min {T : Type} [LT T] [∀ a b : T, Decidable (a < b)] (m : T) (value : T) : Outcome T :=
  let old := m
  let m := if m < value then m else value
  ⟨old, m⟩

/-- Host branch of `Max`: `auto old = *m; *m = (*m) > value ? (*m) : value; return old;` -/
def Max {T : Type} [LT T] [∀ a b : T, Decidable (a < b)] (m : T) (value : T) : Outcome T :=
  let old := m
  let m := if m > value then m else value
  ⟨old, m⟩

/-- Host branch of `LogicalOr`: `int old = *m; *m = (*m) || value; return old;`
The `bool` result of `||` converts to the `int` 1 or 0. -/
def LogicalOr (m : CInt) (value : CInt) : Outcome CInt :=
  let old := m
  let m : CInt := if m ≠ 0 ∨ value ≠ 0 then 1 else 0
  ⟨old, m⟩

/-- Host branch of `LogicalAnd`: `int old = *m; *m = (*m) && value; return old;` -/
def LogicalAnd (m : CInt) (value : CInt) : Outcome CInt :=
  let old := m
  let m : CInt := if m ≠ 0 ∧ value ≠ 0 then 1 else 0
  ⟨old, m⟩

/-- Host branch of `Inc`: `auto old = *m; *m = (old >= value) ? 0u : (old+1u); return old;` -/
def Inc (m : UnsignedInt) (value : UnsignedInt) : Outcome UnsignedInt :=
  let old := m
  let m : UnsignedInt := if old ≥ value then 0 else old + 1
  ⟨old, m⟩

/-- Host branch of `Dec`:
`auto old = *m; *m = ((old == 0u) || (old > value)) ? value : (old-1u); return old;` -/
def Dec (m : UnsignedInt) (value : UnsignedInt) : Outcome UnsignedInt :=
  let old := m
  let m : UnsignedInt := if old = 0 ∨ old > value then value else old - 1
  ⟨old, m⟩

/-- Host branch of `Exch`: `auto old = *address; *address = val; return old;` -/
def Exch {T : Type} (address : T) (val : T) : Outcome T :=
  let old := address
  let address := val
  ⟨old, address⟩

/-- Host branch of `CAS`:
`auto old = *address; *address = (old == compare ? val : old); return old;` -/
def CAS {T : Type} [DecidableEq T] (address : T) (compare : T) (val : T) : Outcome T :=
  let old := address
  let address := if old = compare then val else old
  ⟨old, address⟩

end Gpu.Atomic

/-- Calls of one operation issued one after another on the same target, one call per operand of
the list: the values the calls return, in the order of the calls, and the final content. -/
def serial {T : Type} (op : T → T → Outcome T) : T → List T → List T × T
  | cell, [] => ([], cell)
  | cell, v :: vs =>
    let o := op cell v
    let rest := serial op o.cell vs
    (o.ret :: rest.1, rest.2)

/-- Modelled from the spec: amrex::Plus of AMReX_Functional.H, which is not among the sources;
the combining function "add" handed to the CAS-loop emulator, `lhs + rhs`. -/
def Plus {T : Type} [HAdd T T T] (lhs rhs : T) : T := lhs + rhs

namespace Gpu.Atomic.detail

/-! ## The CAS-loop emulator `detail::atomic_op` (CUDA/HIP version)

The call touches the target twice or more: the load `I old_I = *add_as_I` and one `atomicCAS` per
turn of the loop. Each access is one indivisible step; what a call computes between two accesses
is local to it and is folded into the step that follows. -/

/-- Modelled from the spec: the hardware compare-and-swap `atomicCAS(address, compare, val)`, an
intrinsic of the accelerator and no code of the sources; it "replaces a memory value with a new
one only if it still equals an expected value, reporting the value actually present at the check
instant". -/
def atomicCAS {I : Type} [DecidableEq I] (address : I) (compare : I) (val : I) : Outcome I :=
  let old := address
  ⟨old, if old = compare then val else old⟩

/-- Where a call of `atomic_op` stands between two accesses to the target. -/
inductive Call (R I : Type)
  /-- Entered, `I old_I = *add_as_I` not yet executed. -/
  | start
  /-- At the head of the `do` body, with the value of the local `old_I`. -/
  | loop (old_I : I)
  /-- Returned, with the value returned. -/
  | done (r : R)
  deriving DecidableEq

/-- The value a call has returned, if it has. -/
def Call.result {R I : Type} : Call R I → Option R
  | .done r => some r
  | _ => none

/-- One step of `atomic_op<R, I>(address, val, f)` on the content `mem` of `*add_as_I`: the new
position of the call and the new content. `asR` and `asI` are the two `reinterpret_cast`s.
```
I old_I = *add_as_I, assumed_I;
do {
    assumed_I = old_I;
    R const new_R = f(*(reinterpret_cast<R const*>(&assumed_I)), val);
    old_I = atomicCAS(add_as_I, assumed_I, *(reinterpret_cast<I const*>(&new_R)));
} while (assumed_I != old_I);
return *(reinterpret_cast<R const*>(&old_I));
``` -/
def atomic_op_step {R I : Type} [DecidableEq I] (asI : R → I) (asR : I → R) (f : R → R → R)
    (val : R) : Call R I → I → Call R I × I
  | .start, mem => (.loop mem, mem)
  | .loop old_I, mem =>
    let assumed_I := old_I
    let new_R := f (asR assumed_I) val
    let cas := atomicCAS mem assumed_I (asI new_R)
    let old_I := cas.ret
    if assumed_I ≠ old_I then (.loop old_I, cas.cell) else (.done (asR old_I), cas.cell)
  | .done r, mem => (.done r, mem)

/-- What happens to the target, in order of time: a write by another unit, or the next step of
the call under study. -/
inductive Event (I : Type)
  | write (x : I)
  | own

/-- One compare-and-swap of a call as it happened: the value the call had last observed
(`assumed_I`), and the content of the target immediately before and immediately after. -/
structure Attempt (I : Type) where
  assumed : I
  before : I
  after : I
  deriving DecidableEq

/-- A call of `atomic_op` in its environment: the position of the call, the content of the
target, and the compare-and-swaps the call has made so far, oldest first. -/
structure Run (R I : Type) where
  call : Call R I
  mem : I
  log : List (Attempt I)

/-- The run before the call has done anything, the target holding `mem`. -/
def Run.init {R I : Type} (mem : I) : Run R I := ⟨.start, mem, []⟩

/-- One event: a write by another unit replaces the content; a step of the call is
`atomic_op_step`, and is recorded when it is a compare-and-swap. -/
def Run.event {R I : Type} [DecidableEq I] (asI : R → I) (asR : I → R) (f : R → R → R) (val : R)
    (s : Run R I) : Event I → Run R I
  | .write x => ⟨s.call, x, s.log⟩
  | .own =>
    let next := atomic_op_step asI asR f val s.call s.mem
    match s.call with
    | .loop old_I => ⟨next.1, next.2, s.log ++ [⟨old_I, s.mem, next.2⟩]⟩
    | _ => ⟨next.1, next.2, s.log⟩

/-- A call of `atomic_op(address, val, f)` under a sequence of events, from the target
holding `mem`. -/
def Run.exec {R I : Type} [DecidableEq I] (asI : R → I) (asR : I → R) (f : R → R → R) (val : R)
    (mem : I) (events : List (Event I)) : Run R I :=
  events.foldl (Run.event asI asR f val) (Run.init mem)

/-- A compare-and-swap that failed: the content differed from the value the call had observed,
and is left as it was. -/
def Attempt.failed {I : Type} (a : Attempt I) : Prop :=
  a.before ≠ a.assumed ∧ a.after = a.before

/-- What the log of a run records, by the position of the call: nothing before the load, only
failed compare-and-swaps while the call loops, and after the return failed ones followed by one
that found the value the call had observed, which is the value returned, and stored the bits of
`f(returned, val)`. -/
def Run.consistent {R I : Type} (asI : R → I) (asR : I → R) (f : R → R → R) (val : R)
    (s : Run R I) : Prop :=
  match s.call with
  | .start => s.log = []
  | .loop _ => ∀ a ∈ s.log, a.failed
  | .done r => ∃ earlier last, s.log = earlier ++ [last] ∧ (∀ a ∈ earlier, a.failed) ∧
      last.before = last.assumed ∧ r = asR last.before ∧ last.after = asI (f r val)

/-- Several execution units, each in a call of `atomic_op` on the same target. -/
structure System (R I : Type) where
  mem : I
  calls : List (Call R I)

/-- The unit `i` takes its next step (no unit has that number: nothing happens). -/
def System.step {R I : Type} [DecidableEq I] (asI : R → I) (asR : I → R) (f : R → R → R)
    (val : R) (s : System R I) (i : Nat) : System R I :=
  match s.calls.get? i with
  | none => s
  | some c =>
    let next := atomic_op_step asI asR f val c s.mem
    ⟨next.2, s.calls.set i next.1⟩

/-- An interleaving: the units named by `schedule` step one after another. -/
def System.run {R I : Type} [DecidableEq I] (asI : R → I) (asR : I → R) (f : R → R → R)
    (val : R) (s : System R I) (schedule : List Nat) : System R I :=
  schedule.foldl (System.step asI asR f val) s

/-- The values returned by the calls that have returned, in the order of the units. -/
def System.returned {R I : Type} (s : System R I) : List R :=
  s.calls.filterMap Call.result

/-- Every call of the system has returned. -/
def System.allDone {R I : Type} (s : System R I) : Prop :=
  ∀ c ∈ s.calls, c.result.isSome = true

instance {R I : Type} (s : System R I) : Decidable s.allDone :=
  inferInstanceAs (Decidable (∀ c ∈ s.calls, c.result.isSome = true))

end Gpu.Atomic.detail

namespace Gpu.Atomic

/-- The cast `reinterpret_cast<unsigned long long*>` of a `Long*`: the same 64 bits. -/
def Long_as_ULL (x : Long) : UnsignedLongLong := ⟨x.bits, x.isLt⟩

/-- The cast `reinterpret_cast<Long const*>` of an `unsigned long long*`: the same 64 bits. -/
def ULL_as_Long (x : UnsignedLongLong) : Long := ⟨x.val, x.isLt⟩

/-- `N` units entering `Add_device(sum, value)` on a target that holds `init`. -/
def Add_device_start (N : Nat) (init : Long) : detail.System Long UnsignedLongLong :=
  ⟨Long_as_ULL init, List.replicate N .start⟩

/-- `N` concurrent calls `Add_device(Long* sum, Long value)`, each of which is
`detail::atomic_op<Long, unsigned long long>(sum, value, amrex::Plus<Long>())`, from
`*sum == init`, interleaved as `schedule` says. -/
def Add_device_run (N : Nat) (init value : Long) (schedule : List Nat) :
    detail.System Long UnsignedLongLong :=
  detail.System.run Long_as_ULL ULL_as_Long Plus value (Add_device_start N init) schedule

/-- The interleaving without contention: the units `0 .. n-1` one after another, each taking its
load and its compare-and-swap before the next unit starts. -/
def Add_device_in_turn : Nat → List Nat
  | 0 => []
  | n + 1 => Add_device_in_turn n ++ [n, n]

/-- The state of concurrent `Add_device(sum, 1)` calls from 0 keeps count: the target holds the
number of calls that have returned, and the bits of the values returned are `0 .. k-1`, each
once, `k` being that number. -/
def counted (N : Nat) (s : detail.System Long UnsignedLongLong) : Prop :=
  s.calls.length = N ∧ s.mem.val = s.returned.length ∧
    (s.returned.map Signed.bits).Perm (List.range s.returned.length)

end Gpu.Atomic

namespace Gpu.Atomic

/-! ## CUDA/HIP branches of `LogicalOr` and `LogicalAnd` -/

/-- Modelled from the spec: the intrinsic `atomicOr(address, val)` of the accelerator, no code of
the sources: it stores the bitwise or of the old content and `val` and returns the old content
("the uniform returns prior value contract"). -/
def atomicOr (address : CInt) (val : CInt) : Outcome CInt :=
  let old := address
  ⟨old, ⟨old.bits ||| val.bits, Nat.or_lt_two_pow old.isLt val.isLt⟩⟩

/-- Modelled from the spec: the intrinsic `atomicAnd(address, val)` of the accelerator, no code
of the sources: it stores the bitwise and of the old content and `val` and returns the old
content. -/
def atomicAnd (address : CInt) (val : CInt) : Outcome CInt :=
  let old := address
  ⟨old, ⟨old.bits &&& val.bits, Nat.and_lt_two_pow old.bits val.isLt⟩⟩

/-- The `int` value `~0x0`: the complement of the pattern of 0, all 32 bits set. -/
def not_zero : CInt := ⟨2 ^ 32 - 1 - (0 : CInt).bits, by decide⟩

/-- CUDA/HIP branch of `LogicalOr`: `return atomicOr(m, value);` -/
def LogicalOr_device (m : CInt) (value : CInt) : Outcome CInt :=
  atomicOr m value

/-- CUDA/HIP branch of `LogicalAnd`: `return atomicAnd(m, value ? ~0x0 : 0);` -/
def LogicalAnd_device (m : CInt) (value : CInt) : Outcome CInt :=
  atomicAnd m (if value ≠ 0 then not_zero else 0)

end Gpu.Atomic

namespace HostDevice.Atomic

/-- Host branch of `HostDevice::Atomic::Add`, a `void` function: `*sum += value;` (under
`#pragma omp atomic update` when OpenMP is on). The result is what the call returns, which is
nothing, and the content of the target after the call. -/
def Add {T : Type} [HAdd T T T] (sum : T) (value : T) : Unit × T :=
  let sum := sum + value
  ((), sum)

end HostDevice.Atomic

namespace Gpu.Atomic.detail

/-! ## The SYCL version of `detail::atomic_op` and its host branch -/

/-- The branch of `detail::atomic_op` taken outside device code (`#else` of
`__SYCL_DEVICE_ONLY__`): `R old = *address; *address = f(*address, val); return old;` -/
def atomic_op_host {R : Type} (f : R → R → R) (address : R) (val : R) : Outcome R :=
  let old := address
  let address := f address val
  ⟨old, address⟩

/-- What `compare_exchange_strong(expected, desired)` leaves: whether it swapped, the value of
the reference argument `expected`, and the content of the target. -/
structure Exchange (I : Type) where
  swapped : Bool
  expected : I
  mem : I
  deriving DecidableEq

/-- Modelled from the spec: `sycl::atomic::compare_exchange_strong(expected, desired, mo)`, a
library call and no code of the sources: it replaces the content by `desired` only if the
content equals `expected`, and on failure "overwrites the expected value with the observed
one". -/
def compare_exchange_strong {I : Type} [DecidableEq I] (mem : I) (expected : I) (desired : I) :
    Exchange I :=
  if mem = expected then ⟨true, expected, desired⟩ else ⟨false, mem, mem⟩

/-- One step of the SYCL version of `atomic_op<R, I>(address, val, f)` on the content `mem`:
```
I old_I = a.load(mo), new_I;
do {
    R const new_R = f(*(reinterpret_cast<R const*>(&old_I)), val);
    new_I = *(reinterpret_cast<I const*>(&new_R));
} while (not a.compare_exchange_strong(old_I, new_I, mo));
return *(reinterpret_cast<R const*>(&old_I));
``` -/
def atomic_op_step_sycl {R I : Type} [DecidableEq I] (asI : R → I) (asR : I → R)
    (f : R → R → R) (val : R) : Call R I → I → Call R I × I
  | .start, mem => (.loop mem, mem)
  | .loop old_I, mem =>
    let new_R := f (asR old_I) val
    let new_I := asI new_R
    let x := compare_exchange_strong mem old_I new_I
    let old_I := x.expected
    if !x.swapped then (.loop old_I, x.mem) else (.done (asR old_I), x.mem)
  | .done r, mem => (.done r, mem)

/-- One event of a run of any loop given by its step: as `Run.event`, with `step` in the place
of `atomic_op_step`. -/
def Run.eventWith {R I : Type} (step : Call R I → I → Call R I × I) (s : Run R I) :
    Event I → Run R I
  | .write x => ⟨s.call, x, s.log⟩
  | .own =>
    let next := step s.call s.mem
    match s.call with
    | .loop old_I => ⟨next.1, next.2, s.log ++ [⟨old_I, s.mem, next.2⟩]⟩
    | _ => ⟨next.1, next.2, s.log⟩

/-- A call of the loop given by `step` under a sequence of events, from the target holding
`mem`. -/
def Run.execWith {R I : Type} (step : Call R I → I → Call R I × I) (mem : I)
    (events : List (Event I)) : Run R I :=
  events.foldl (Run.eventWith step) (Run.init mem)

/-- The events of a call that loads undisturbed and then, at each compare-and-swap, finds the
next content of `seen` in the target, put there by other units. -/
def Event.attempts {I : Type} : List I → List (Event I)
  | [] => []
  | c :: cs => .write c :: .own :: Event.attempts cs

/-- The number of leading attempts at which the content found differs from the value the call
last observed: `observed` at first, then the content found at the attempt before. -/
def leadingFailures {I : Type} [DecidableEq I] (observed : I) : List I → Nat
  | [] => 0
  | c :: cs => if c = observed then 0 else leadingFailures c cs + 1

/-- Contents that make a call that has observed `observed` fail `n` times and then succeed: each
differs from the one before (it is `x` or `y`, two different values), the last repeats. -/
def stall {I : Type} [DecidableEq I] (x y : I) (observed : I) : Nat → List I
  | 0 => [observed]
  | n + 1 =>
    let c := if observed = x then y else x
    c :: stall x y c n

end Gpu.Atomic.detail

namespace Gpu.Atomic

/-! ## SYCL branches of `Inc` and `Dec` -/

/-- One step of the SYCL branch of `Inc(m, value)`:
```
unsigned int oldi = a.load(mo), newi;
do {
    newi = (oldi >= value) ? 0u : (oldi+1u);
} while (not a.compare_exchange_strong(oldi, newi, mo));
return oldi;
``` -/
def Inc_step_sycl (value : UnsignedInt) :
    detail.Call UnsignedInt UnsignedInt → UnsignedInt →
      detail.Call UnsignedInt UnsignedInt × UnsignedInt
  | .start, mem => (.loop mem, mem)
  | .loop oldi, mem =>
    let newi : UnsignedInt := if oldi ≥ value then 0 else oldi + 1
    let x := detail.compare_exchange_strong mem oldi newi
    let oldi := x.expected
    if !x.swapped then (.loop oldi, x.mem) else (.done oldi, x.mem)
  | .done r, mem => (.done r, mem)

/-- One step of the SYCL branch of `Dec(m, value)`:
```
unsigned int oldi = a.load(mo), newi;
do {
    newi = ((oldi == 0u) || (oldi > value)) ? value : (oldi-1u);
} while (not a.compare_exchange_strong(oldi, newi, mo));
return oldi;
``` -/
def Dec_step_sycl (value : UnsignedInt) :
    detail.Call UnsignedInt UnsignedInt → UnsignedInt →
      detail.Call UnsignedInt UnsignedInt × UnsignedInt
  | .start, mem => (.loop mem, mem)
  | .loop oldi, mem =>
    let newi : UnsignedInt := if oldi = 0 ∨ oldi > value then value else oldi - 1
    let x := detail.compare_exchange_strong mem oldi newi
    let oldi := x.expected
    if !x.swapped then (.loop oldi, x.mem) else (.done oldi, x.mem)
  | .done r, mem => (.done r, mem)

end Gpu.Atomic

namespace Gpu.Atomic

/-! ## Build-time selection of the branch of `Add`, `Min` and `Max`

The preprocessor conditions of the source, as functions of the configuration. -/

/-- A build configuration: which macros are defined, and the value of `AMREX_DEVICE_COMPILE`
(that macro is defined in AMReX_GpuQualifiers.H, which is not among the sources, so its value
is a free flag). -/
structure Config where
  AMREX_USE_GPU : Bool
  AMREX_USE_DPCPP : Bool
  AMREX_USE_CUDA : Bool
  AMREX_USE_HIP : Bool
  AMREX_DEVICE_COMPILE : Bool
  __CUDA_ARCH__ : Bool
  __HIP_DEVICE_COMPILE__ : Bool
  __SYCL_DEVICE_ONLY__ : Bool
  deriving DecidableEq

/-- The operand types of `Add`, `Min` and `Max`: "int, unsigned int, long, unsigned long long,
float and double". -/
inductive Operand
  | int
  | unsigned_int
  | Long
  | unsigned_long_long
  | float
  | double
  deriving DecidableEq

/-- The code a call compiles to. -/
inductive Branch
  /-- The `#else` of `Add`, `Min`, `Max`: `auto old = *m; *m = ...; return old;`. -/
  | host_update
  /-- A device atomic of the target: `atomicAdd`, `atomicMin`, `atomicMax` or
  `sycl::atomic_fetch_add`, `_min`, `_max`. -/
  | device_atomic
  /-- The compare-and-swap loop of `detail::atomic_op`. -/
  | cas_loop
  /-- The `#else` of the SYCL `detail::atomic_op`:
  `R old = *address; *address = f(*address, val); return old;`. -/
  | emulator_host_update
  /-- The placeholder `return T();` of `Add_device`, `Min_device`, `Max_device`. -/
  | placeholder
  /-- The call names a function that the configuration does not declare: there is no build. -/
  | undeclared
  deriving DecidableEq

/-- The branch of `detail::atomic_op`:
`#ifdef AMREX_USE_DPCPP` (`#if defined(__SYCL_DEVICE_ONLY__)` loop `#else` update)
`#elif defined(AMREX_USE_CUDA) || defined(AMREX_USE_HIP)` loop; otherwise not declared. -/
def atomic_op_branch (c : Config) : Branch :=
  if c.AMREX_USE_DPCPP then
    if c.__SYCL_DEVICE_ONLY__ then .cas_loop else .emulator_host_update
  else if c.AMREX_USE_CUDA || c.AMREX_USE_HIP then .cas_loop
  else .undeclared

/-- The branch of the templates `Add_device`, `Min_device`, `Max_device`:
`#if defined(__CUDA_ARCH__) || defined(__HIP_DEVICE_COMPILE__)` atomic
`#elif defined(__SYCL_DEVICE_ONLY__)` atomic `#else return T();`. -/
def device_template_branch (c : Config) : Branch :=
  if c.__CUDA_ARCH__ || c.__HIP_DEVICE_COMPILE__ then .device_atomic
  else if c.__SYCL_DEVICE_ONLY__ then .device_atomic
  else .placeholder

/-- The branch of a call `Add_device(sum, value)`: declared under `#ifdef AMREX_USE_GPU`; the
overloads for `float` and `double` under `#ifdef AMREX_USE_DPCPP`, the overload for `Long` under
`#elif defined(AMREX_USE_CUDA) || defined(AMREX_USE_HIP)`, the template otherwise. -/
def Add_device_branch (c : Config) (T : Operand) : Branch :=
  if !c.AMREX_USE_GPU then .undeclared
  else if c.AMREX_USE_DPCPP then
    match T with
    | .float => atomic_op_branch c
    | .double => atomic_op_branch c
    | _ => device_template_branch c
  else if c.AMREX_USE_CUDA || c.AMREX_USE_HIP then
    match T with
    | .Long => atomic_op_branch c
    | _ => device_template_branch c
  else device_template_branch c

/-- The branch of a call `Min_device(m, value)` or `Max_device(m, value)`: declared under
`#ifdef AMREX_USE_GPU`, with the overloads for `float` and `double`; the overload for `Long`
under `#if defined(AMREX_USE_CUDA) || defined(AMREX_USE_HIP)`, the template otherwise. -/
def Min_Max_device_branch (c : Config) (T : Operand) : Branch :=
  if !c.AMREX_USE_GPU then .undeclared
  else
    match T with
    | .float => atomic_op_branch c
    | .double => atomic_op_branch c
    | .Long =>
      if c.AMREX_USE_CUDA || c.AMREX_USE_HIP then atomic_op_branch c
      else device_template_branch c
    | _ => device_template_branch c

/-- The branch of a call `Add(sum, value)`:
`#if AMREX_DEVICE_COMPILE return Add_device(sum, value); #else` host update. -/
def Add_branch (c : Config) (T : Operand) : Branch :=
  if c.AMREX_DEVICE_COMPILE then Add_device_branch c T else .host_update

/-- The branch of a call `Min(m, value)`:
`#if AMREX_DEVICE_COMPILE return Min_device(m, value); #else` host update. -/
def Min_branch (c : Config) (T : Operand) : Branch :=
  if c.AMREX_DEVICE_COMPILE then Min_Max_device_branch c T else .host_update

/-- The branch of a call `Max(m, value)`:
`#if AMREX_DEVICE_COMPILE return Max_device(m, value); #else` host update. -/
def Max_branch (c : Config) (T : Operand) : Branch :=
  if c.AMREX_DEVICE_COMPILE then Min_Max_device_branch c T else .host_update

/-- A call that is compiled and does an update of the target: not the placeholder. -/
def Branch.updates : Branch → Bool
  | .host_update => true
  | .device_atomic => true
  | .cas_loop => true
  | .emulator_host_update => true
  | .placeholder => false
  | .undeclared => false

end Gpu.Atomic

/-! ## Interpolation kernels (`Src/AmrCore/AMReX_Interp_2D_C.H`) in exact arithmetic

* `Real` is the rationals: every operation is exact and there is no negative zero.
* An `Array4` is its entries `a(i,j,0,n)` and its index box.
* A loop nest over the cells of a box whose body assigns only entries of its own cell, reading
  from the array it writes only those, is the cell-wise assignment `assign`; the loops over the
  components and the loops that accumulate a minimum or a maximum are folds in the order of
  the source. -/

/-- The floating-point type `Real`, taken as the rationals. -/
abbrev Real := ℚ

/-- The type `Dim3`, of which the 2D kernels use `x` and `y`. -/
structure Dim3 where
  x : Int
  y : Int
  deriving DecidableEq

/-- An index box by its bounds `amrex::lbound` and `amrex::ubound`, both inclusive. -/
structure Box where
  lbound : Dim3
  ubound : Dim3
  deriving DecidableEq

/-- The cell `(i, j)` lies in the box: `lo.x <= i <= hi.x` and `lo.y <= j <= hi.y`. -/
def Box.contains (bx : Box) (i j : Int) : Prop :=
  bx.lbound.x ≤ i ∧ i ≤ bx.ubound.x ∧ bx.lbound.y ≤ j ∧ j ≤ bx.ubound.y

instance (bx : Box) (i j : Int) : Decidable (bx.contains i j) :=
  inferInstanceAs (Decidable (_ ∧ _ ∧ _ ∧ _))

/-- Modelled from the spec: `amrex::length(box)` of AMReX_Box.H, which is not among the sources
(the spec leaves "mesh/box index arithmetic" to its collaborators): the number of indices of the
box in each direction. -/
def Box.length (bx : Box) : Dim3 :=
  ⟨bx.ubound.x - bx.lbound.x + 1, bx.ubound.y - bx.lbound.y + 1⟩

/-- Modelled from the spec: `Box::refine(ratio)` of AMReX_Box.H, which is not among the sources,
for a cell-centred box: the fine cells of the cells of the box. -/
def Box.refine (bx : Box) (ratio : Nat → Int) : Box :=
  ⟨⟨bx.lbound.x * ratio 0, bx.lbound.y * ratio 1⟩,
    ⟨(bx.ubound.x + 1) * ratio 0 - 1, (bx.ubound.y + 1) * ratio 1 - 1⟩⟩

/-- Modelled from the spec: `amrex::coarsen(i, ratio)` of AMReX_IntVect.H, which is not among the
sources: the coarse index that holds fine index `i`,
`(i<0) ? -std::abs(i+1)/ratio-1 : i/ratio` with the truncating division of C++. -/
def coarsen (i : Int) (ratio : Int) : Int :=
  if i < 0 then (-|i + 1|).tdiv ratio - 1 else i.tdiv ratio

/-- The entries `a(i,j,0,n)` of an `Array4<Real>`, by `i`, `j` and `n`. -/
abbrev Data := Int → Int → Int → Real

/-- An `Array4<Real>`: its entries and its index box (`lbound(a)`, `ubound(a)`). -/
structure Array4 where
  data : Data
  box : Box

/-- A boundary condition record `BCRec`, whose type is declared outside the sources: the
boundary type `lo(dir)` and `hi(dir)` of each direction, of a type `B` given by the caller. -/
structure BCRec (B : Type) where
  lo : Nat → B
  hi : Nat → B

/-- A loop nest `for j = lo.y..hi.y, for i = lo.x..hi.x` with the one assignment
`a(i,j,0,n) = f(i,j)`: the entries of component `n` in the box get `f`, every other entry stays. -/
def assign (a : Data) (lo hi : Dim3) (n : Int) (f : Int → Int → Real) : Data :=
  fun i j m => if lo.x ≤ i ∧ i ≤ hi.x ∧ lo.y ≤ j ∧ j ≤ hi.y ∧ m = n then f i j else a i j m

/-- The loop `for (int n = 0; n < ncomp; ++n) body`. -/
def forComp (ncomp : Int) (body : Int → Data → Data) (s : Data) : Data :=
  (List.range ncomp.toNat).foldl (fun s (n : Nat) => body (n : Int) s) s

/-- Modelled from the spec: `amrex::Math::copysign(x, y)` of AMReX_Math.H, which is not among the
sources: the magnitude of `x` with the sign of `y` (zero counts as positive in exact
arithmetic). -/
def copysign (x y : Real) : Real := if y < 0 then -|x| else |x|

/-- The function `compute_slopes`: central differences of `u` in `x` (component `ns`) and `y`
(component `ns+ncomp`) on `lo..hi`, replaced by one-sided formulas on the first and last
index of the slope box (`slo`, `shi`) where the boundary type is `ext_dir` or `hoextrap`. -/
def compute_slopes {B : Type} [DecidableEq B] (ext_dir hoextrap : B) (lo hi : Dim3)
    (slopes : Data) (slo shi : Dim3) (ns : Int) (u : Data) (nu : Int) (bc : BCRec B)
    (ncomp : Int) : Data :=
  let s := assign slopes lo hi ns (fun i j => 1 / 2 * (u (i + 1) j nu - u (i - 1) j nu))
  let s := assign s lo hi (ns + ncomp) (fun i j => 1 / 2 * (u i (j + 1) nu - u i (j - 1) nu))
  let s :=
    if lo.x = slo.x ∧ (bc.lo 0 = ext_dir ∨ bc.lo 0 = hoextrap) then
      let i := slo.x
      if shi.x - slo.x ≥ 1 then
        assign s ⟨i, lo.y⟩ ⟨i, hi.y⟩ ns (fun i j =>
          -(16 / 15) * u (i - 1) j nu + 1 / 2 * u i j nu
            + 2 / 3 * u (i + 1) j nu - 1 / 10 * u (i + 2) j nu)
      else
        assign s ⟨i, lo.y⟩ ⟨i, hi.y⟩ ns (fun i j =>
          1 / 4 * (u (i + 1) j nu + 5 * u i j nu - 6 * u (i - 1) j nu))
    else s
  let s :=
    if hi.x = shi.x ∧ (bc.hi 0 = ext_dir ∨ bc.hi 0 = hoextrap) then
      let i := shi.x
      if shi.x - slo.x ≥ 1 then
        assign s ⟨i, lo.y⟩ ⟨i, hi.y⟩ ns (fun i j =>
          16 / 15 * u (i + 1) j nu - 1 / 2 * u i j nu
            - 2 / 3 * u (i - 1) j nu + 1 / 10 * u (i - 2) j nu)
      else
        assign s ⟨i, lo.y⟩ ⟨i, hi.y⟩ ns (fun i j =>
          -(1 / 4) * (u (i - 1) j nu + 5 * u i j nu - 6 * u (i + 1) j nu))
    else s
  let s :=
    if lo.y = slo.y ∧ (bc.lo 1 = ext_dir ∨ bc.lo 1 = hoextrap) then
      let j := slo.y
      if shi.y - slo.y ≥ 1 then
        assign s ⟨lo.x, j⟩ ⟨hi.x, j⟩ (ns + ncomp) (fun i j =>
          -(16 / 15) * u i (j - 1) nu + 1 / 2 * u i j nu
            + 2 / 3 * u i (j + 1) nu - 1 / 10 * u i (j + 2) nu)
      else
        assign s ⟨lo.x, j⟩ ⟨hi.x, j⟩ (ns + ncomp) (fun i j =>
          1 / 4 * (u i (j + 1) nu + 5 * u i j nu - 6 * u i (j - 1) nu))
    else s
  let s :=
    if hi.y = shi.y ∧ (bc.hi 1 = ext_dir ∨ bc.hi 1 = hoextrap) then
      let j := shi.y
      if shi.y - slo.y ≥ 1 then
        assign s ⟨lo.x, j⟩ ⟨hi.x, j⟩ (ns + ncomp) (fun i j =>
          16 / 15 * u i (j + 1) nu - 1 / 2 * u i j nu
            - 2 / 3 * u i (j - 1) nu + 1 / 10 * u i (j - 2) nu)
      else
        assign s ⟨lo.x, j⟩ ⟨hi.x, j⟩ (ns + ncomp) (fun i j =>
          -(1 / 4) * (u i (j - 1) nu + 5 * u i j nu - 6 * u i (j + 1) nu))
    else s
  s

/-- The limiting step shared by `cellconslin_slopes_linlim` and `cellconslin_slopes_mclim`:
```
Real slp = (forw*back >= Real(0.)) ? amrex::min(amrex::Math::abs(forw),amrex::Math::abs(back)) : Real(0.);
slopes(i,j,0,n) = amrex::Math::copysign(Real(1.),cen)*amrex::min(slp,amrex::Math::abs(cen));
``` -/
def limited_slope (cen forw back : Real) : Real :=
  let slp := if forw * back ≥ 0 then min |forw| |back| else 0
  copysign 1 cen * min slp |cen|

/-- The local `cmn` of `cellconslin_slopes_mclim` after its two loops over `joff` and `ioff`:
the minimum of `u` over the 3x3 cells around `(i, j)`. -/
def cmn (u : Data) (i j nu : Int) : Real :=
  ([-1, 0, 1] : List Int).foldl (fun cmn joff =>
    ([-1, 0, 1] : List Int).foldl (fun cmn ioff => min cmn (u (i + ioff) (j + joff) nu)) cmn)
    (u i j nu)

/-- The local `cmx` of `cellconslin_slopes_mclim` after its two loops over `joff` and `ioff`:
the maximum of `u` over the 3x3 cells around `(i, j)`. -/
def cmx (u : Data) (i j nu : Int) : Real :=
  ([-1, 0, 1] : List Int).foldl (fun cmx joff =>
    ([-1, 0, 1] : List Int).foldl (fun cmx ioff => max cmx (u (i + ioff) (j + joff) nu)) cmx)
    (u i j nu)

/-- The function `cellconslin_slopes_mclim`: for each component, the distances `mm` from the
cell value to the minimum and the maximum of its 3x3 neighbourhood (stored behind the slopes,
`mm(slopes, ncomp*AMREX_SPACEDIM)`), the slopes of `compute_slopes`, and their limiting. -/
def cellconslin_slopes_mclim {B : Type} [DecidableEq B] (ext_dir hoextrap : B) (bx : Box)
    (slopes : Array4) (u : Array4) (icomp ncomp : Int) (bcr : Int → BCRec B) : Data :=
  let lo := bx.lbound
  let hi := bx.ubound
  let slo := slopes.box.lbound
  let shi := slopes.box.ubound
  let mm := fun n : Int => n + ncomp * 2
  forComp ncomp (fun n s =>
    let nu := n + icomp
    let s := assign s lo hi (mm n) (fun i j => cmn u.data i j nu - u.data i j nu)
    let s := assign s lo hi (mm (n + ncomp)) (fun i j => cmx u.data i j nu - u.data i j nu)
    let s := compute_slopes ext_dir hoextrap lo hi s slo shi n u.data nu (bcr n) ncomp
    let s := assign s lo hi n (fun i j =>
      limited_slope (s i j n) (2 * (u.data (i + 1) j nu - u.data i j nu))
        (2 * (u.data i j nu - u.data (i - 1) j nu)))
    let s := assign s lo hi (n + ncomp) (fun i j =>
      limited_slope (s i j (n + ncomp)) (2 * (u.data i (j + 1) nu - u.data i j nu))
        (2 * (u.data i j nu - u.data i (j - 1) nu)))
    s) slopes.data

/-- The body of the first loop over the components of `cellconslin_slopes_linlim`, for
component `n`: the slopes of `compute_slopes` are limited, and the factor `sf` of each direction
is lowered to the ratio of the limited to the central slope, or set to 0 when the central slope
is 0. -/
def linlim_limit {B : Type} [DecidableEq B] (ext_dir hoextrap : B) (lo hi slo shi : Dim3)
    (u : Data) (icomp ncomp : Int) (bcr : Int → BCRec B) (n : Int) (s : Data) : Data :=
  let sf := fun n : Int => n + ncomp * 2
  let nu := n + icomp
  let s0 := compute_slopes ext_dir hoextrap lo hi s slo shi n u nu (bcr n) ncomp
  let s1 := assign s0 lo hi n (fun i j =>
    limited_slope (s0 i j n) (2 * (u (i + 1) j nu - u i j nu)) (2 * (u i j nu - u (i - 1) j nu)))
  let s2 := assign s1 lo hi (sf 0) (fun i j =>
    if s0 i j n ≠ 0 then min (s1 i j (sf 0)) (s1 i j n / s0 i j n) else 0)
  let s3 := assign s2 lo hi (n + ncomp) (fun i j =>
    limited_slope (s2 i j (n + ncomp)) (2 * (u i (j + 1) nu - u i j nu))
      (2 * (u i j nu - u i (j - 1) nu)))
  let s4 := assign s3 lo hi (sf 1) (fun i j =>
    if s2 i j (n + ncomp) ≠ 0 then
      min (s3 i j (sf 1)) (s3 i j (n + ncomp) / s2 i j (n + ncomp))
    else 0)
  s4

/-- The body of the second loop over the components of `cellconslin_slopes_linlim`, for
component `n`: `slopes(i,j,0,n) *= sf(i,j,0,0); slopes(i,j,0,n+ncomp) *= sf(i,j,0,1);` -/
def linlim_scale (lo hi : Dim3) (ncomp : Int) (n : Int) (s : Data) : Data :=
  let sf := fun n : Int => n + ncomp * 2
  let s := assign s lo hi n (fun i j => s i j n * s i j (sf 0))
  let s := assign s lo hi (n + ncomp) (fun i j => s i j (n + ncomp) * s i j (sf 1))
  s

/-- The function `cellconslin_slopes_linlim`: the slope factors `sf` (stored behind the slopes,
`sf(slopes, ncomp*AMREX_SPACEDIM)`) start at 1; the first loop over the components limits the
slopes and lowers the factors; the second multiplies every slope by the factor of its
direction. -/
def cellconslin_slopes_linlim {B : Type} [DecidableEq B] (ext_dir hoextrap : B) (bx : Box)
    (slopes : Array4) (u : Array4) (icomp ncomp : Int) (bcr : Int → BCRec B) : Data :=
  let lo := bx.lbound
  let hi := bx.ubound
  let slo := slopes.box.lbound
  let shi := slopes.box.ubound
  let sf := fun n : Int => n + ncomp * 2
  let s := assign slopes.data lo hi (sf 0) (fun _ _ => 1)
  let s := assign s lo hi (sf 1) (fun _ _ => 1)
  let s := forComp ncomp (linlim_limit ext_dir hoextrap lo hi slo shi u.data icomp ncomp bcr) s
  forComp ncomp (linlim_scale lo hi ncomp) s

/-- The factor `sf` of one cell and direction after the turns for the components `0 .. k-1` of
the first loop of `cellconslin_slopes_linlim`, from the central slopes `cen` and the limited
slopes `lim` of the components. -/
def slope_factor (cen lim : Int → Real) (k : Nat) : Real :=
  (List.range k).foldl (fun sf (n : Nat) =>
    if cen n ≠ 0 then min sf (lim n / cen n) else 0) 1

/-- The local `cen` of the x direction in the first loop of `cellconslin_slopes_linlim`, for
component `n` and cell `(i, j)`: the slope `slopes(i,j,0,n)` that `compute_slopes` stored. -/
def cen_x {B : Type} [DecidableEq B] (ext_dir hoextrap : B) (bx : Box) (slopes : Array4)
    (u : Array4) (icomp ncomp : Int) (bcr : Int → BCRec B) (i j n : Int) : Real :=
  compute_slopes ext_dir hoextrap bx.lbound bx.ubound slopes.data slopes.box.lbound
    slopes.box.ubound n u.data (n + icomp) (bcr n) ncomp i j n

/-- The local `cen` of the y direction in the first loop of `cellconslin_slopes_linlim`, for
component `n` and cell `(i, j)`: the slope `slopes(i,j,0,n+ncomp)` that `compute_slopes`
stored. -/
def cen_y {B : Type} [DecidableEq B] (ext_dir hoextrap : B) (bx : Box) (slopes : Array4)
    (u : Array4) (icomp ncomp : Int) (bcr : Int → BCRec B) (i j n : Int) : Real :=
  compute_slopes ext_dir hoextrap bx.lbound bx.ubound slopes.data slopes.box.lbound
    slopes.box.ubound n u.data (n + icomp) (bcr n) ncomp i j (n + ncomp)

/-- The limited slope of the x direction that the first loop of `cellconslin_slopes_linlim`
stores in `slopes(i,j,0,n)`. -/
def limited_x {B : Type} [DecidableEq B] (ext_dir hoextrap : B) (bx : Box) (slopes : Array4)
    (u : Array4) (icomp ncomp : Int) (bcr : Int → BCRec B) (i j n : Int) : Real :=
  limited_slope (cen_x ext_dir hoextrap bx slopes u icomp ncomp bcr i j n)
    (2 * (u.data (i + 1) j (n + icomp) - u.data i j (n + icomp)))
    (2 * (u.data i j (n + icomp) - u.data (i - 1) j (n + icomp)))

/-- The limited slope of the y direction that the first loop of `cellconslin_slopes_linlim`
stores in `slopes(i,j,0,n+ncomp)`. -/
def limited_y {B : Type} [DecidableEq B] (ext_dir hoextrap : B) (bx : Box) (slopes : Array4)
    (u : Array4) (icomp ncomp : Int) (bcr : Int → BCRec B) (i j n : Int) : Real :=
  limited_slope (cen_y ext_dir hoextrap bx slopes u icomp ncomp bcr i j n)
    (2 * (u.data i (j + 1) (n + icomp) - u.data i j (n + icomp)))
    (2 * (u.data i j (n + icomp) - u.data i (j - 1) (n + icomp)))

/-- The function `cellconslin_fine_alpha`: for each fine cell the factor that brings the
increment `dummy_fine` of the linear profile back to the bound `mm` it exceeds, 1 when it
exceeds none. The offsets are read from `voff` relative to the box of `alpha`. -/
def cellconslin_fine_alpha (bx : Box) (alpha : Array4) (slopes : Array4) (ncomp : Int)
    (voff : Int → Real) (ratio : Nat → Int) : Data :=
  let lo := bx.lbound
  let hi := bx.ubound
  let mm : Data := fun i j n => slopes.data i j (n + ncomp * 2)
  let vlo := alpha.box.lbound
  let vlen := alpha.box.length
  let xoff := fun k : Int => voff k
  let yoff := fun k : Int => voff (k + vlen.x)
  forComp ncomp (fun n a =>
    assign a lo hi n (fun i j =>
      let jc := coarsen j (ratio 1)
      let ic := coarsen i (ratio 0)
      let dummy_fine := xoff (i - vlo.x) * slopes.data ic jc n
        + yoff (j - vlo.y) * slopes.data ic jc (n + ncomp)
      if dummy_fine > mm ic jc (n + ncomp) ∧ dummy_fine ≠ 0 then
        mm ic jc (n + ncomp) / dummy_fine
      else if dummy_fine < mm ic jc n ∧ dummy_fine ≠ 0 then
        mm ic jc n / dummy_fine
      else 1)) alpha.data

/-- The local `a` of `cellconslin_slopes_mmlim` after its two loops over `joff` and `ioff`: the
minimum of 1 and of `alpha` over the fine cells of the coarse cell `(i, j)`. -/
def mmlim_factor (alpha : Data) (ratio : Nat → Int) (i j n : Int) : Real :=
  let jj := j * ratio 1
  let ii := i * ratio 0
  (List.range (ratio 1).toNat).foldl (fun a (joff : Nat) =>
    (List.range (ratio 0).toNat).foldl (fun a (ioff : Nat) =>
      min a (alpha (ii + (ioff : Int)) (jj + (joff : Int)) n)) a) 1

/-- The function `cellconslin_slopes_mmlim`: both slopes of each coarse cell are multiplied by
the smallest `alpha` of its fine cells (at most 1). -/
def cellconslin_slopes_mmlim (bx : Box) (slopes : Array4) (alpha : Array4) (ncomp : Int)
    (ratio : Nat → Int) : Data :=
  let lo := bx.lbound
  let hi := bx.ubound
  forComp ncomp (fun n s =>
    let s := assign s lo hi n (fun i j => s i j n * mmlim_factor alpha.data ratio i j n)
    let s := assign s lo hi (n + ncomp) (fun i j =>
      s i j (n + ncomp) * mmlim_factor alpha.data ratio i j n)
    s) slopes.data

/-- The function `cellconslin_interp`: the fine value is the coarse value plus the linear
profile of the slopes. The offsets are read from `voff` relative to the refined box of
`slopes`. -/
def cellconslin_interp (bx : Box) (fine : Array4) (fcomp ncomp : Int) (slopes : Array4)
    (crse : Array4) (ccomp : Int) (voff : Int → Real) (ratio : Nat → Int) : Data :=
  let lo := bx.lbound
  let hi := bx.ubound
  let vbox := slopes.box.refine ratio
  let vlo := vbox.lbound
  let vlen := vbox.length
  let xoff := fun k : Int => voff k
  let yoff := fun k : Int => voff (k + vlen.x)
  forComp ncomp (fun n f =>
    assign f lo hi (n + fcomp) (fun i j =>
      let jc := coarsen j (ratio 1)
      let ic := coarsen i (ratio 0)
      crse.data ic jc (n + ccomp)
        + xoff (i - vlo.x) * slopes.data ic jc n
        + yoff (j - vlo.y) * slopes.data ic jc (n + ncomp))) fine.data

/-- The constant `ix`. -/
def ix : Int := 0

/-- The constant `iy`. -/
def iy : Int := 1

/-- The constant `ixy`. -/
def ixy : Int := 2

/-- The function `nodebilin_slopes` (with `T = Real`): the differences of the nodal data along
`x`, along `y` and across, divided by the refinement ratio. -/
def nodebilin_slopes (bx : Box) (slope : Array4) (u : Array4) (icomp ncomp : Int)
    (ratio : Nat → Int) : Data :=
  let lo := bx.lbound
  let hi := bx.ubound
  let rx : Real := 1 / (ratio 0 : Real)
  let ry : Real := 1 / (ratio 1 : Real)
  forComp ncomp (fun n s =>
    let dx0 := fun i j : Int => u.data (i + 1) j (n + icomp) - u.data i j (n + icomp)
    let d0x := fun i j : Int => u.data i (j + 1) (n + icomp) - u.data i j (n + icomp)
    let dx1 := fun i j : Int => u.data (i + 1) (j + 1) (n + icomp) - u.data i (j + 1) (n + icomp)
    let s := assign s lo hi (n + ncomp * ix) (fun i j => rx * dx0 i j)
    let s := assign s lo hi (n + ncomp * iy) (fun i j => ry * d0x i j)
    let s := assign s lo hi (n + ncomp * ixy) (fun i j => rx * ry * (dx1 i j - dx0 i j))
    s) slope.data

/-- The function `nodebilin_interp` (with `T = Real`): the fine nodal value from the coarse node
below and to the left, clamped to the upper bound of the slope box, and its three slopes. -/
def nodebilin_interp (bx : Box) (fine : Array4) (fcomp ncomp : Int) (slope : Array4)
    (crse : Array4) (ccomp : Int) (ratio : Nat → Int) : Data :=
  let lo := bx.lbound
  let hi := bx.ubound
  let chi := slope.box.ubound
  forComp ncomp (fun n f =>
    assign f lo hi (n + fcomp) (fun i j =>
      let jc := min (coarsen j (ratio 1)) chi.y
      let fy : Real := ((j - jc * ratio 1 : Int) : Real)
      let ic := min (coarsen i (ratio 0)) chi.x
      let fx : Real := ((i - ic * ratio 0 : Int) : Real)
      crse.data ic jc (n + ccomp)
        + fx * slope.data ic jc (n + ncomp * ix)
        + fy * slope.data ic jc (n + ncomp * iy)
        + fx * fy * slope.data ic jc (n + ncomp * ixy))) fine.data

/-! ## Theorems -/

/-! ### Machine integers -/

theorem Unsigned.val_ofNat (w n : Nat) : (Unsigned.ofNat w n).val = n % 2 ^ w := rfl

theorem Unsigned.val_add {w : Nat} (a b : Unsigned w) : (a + b).val = (a.val + b.val) % 2 ^ w :=
  rfl

theorem Unsigned.val_sub {w : Nat} (a b : Unsigned w) :
    (a - b).val = (a.val + 2 ^ w - b.val) % 2 ^ w := rfl

theorem Unsigned.val_lit (w n : Nat) : (OfNat.ofNat n : Unsigned w).val = n % 2 ^ w := rfl

theorem Unsigned.lt_iff {w : Nat} (a b : Unsigned w) : a < b ↔ a.val < b.val := Iff.rfl

theorem Unsigned.le_iff {w : Nat} (a b : Unsigned w) : a ≤ b ↔ a.val ≤ b.val := Iff.rfl

theorem Unsigned.eq_iff {w : Nat} (a b : Unsigned w) : a = b ↔ a.val = b.val := by
  constructor
  · intro h; rw [h]
  · intro h; cases a; cases b; simp_all

/-! ### The host branches, one call -/

/-- Claim C1. For every operand type, a host-path call `Add(sum, v)` on a target holding `old`
returns `old` and leaves `old + v` in the target, the sum being taken in the arithmetic of the
operand type; for the unsigned integer types of `w` bits that sum is `(old + v) % 2 ^ w`. -/
theorem Gpu.Atomic.Add_returns_old_and_stores_sum :
    (∀ (T : Type) [HAdd T T T] (old v : T),
        (Gpu.Atomic.Add old v).ret = old ∧ (Gpu.Atomic.Add old v).cell = old + v) ∧
    (∀ (w : Nat) (old v : Unsigned w),
        (Gpu.Atomic.Add old v).ret = old ∧
        (Gpu.Atomic.Add old v).cell.val = (old.val + v.val) % 2 ^ w) :=
  ⟨fun _ _ _ _ => ⟨rfl, rfl⟩, fun _ _ _ => ⟨rfl, rfl⟩⟩

/-- Claim C2. Each of the nine host-path operations (Add, Min, Max, LogicalOr, LogicalAnd, Inc,
Dec, Exch, CAS) returns the content the target had immediately before the call, whatever that
content and the operands are. -/
theorem Gpu.Atomic.host_returns_previous_content :
    (∀ (T : Type) [HAdd T T T] (old v : T), (Gpu.Atomic.Add old v).ret = old) ∧
    (∀ (T : Type) [LT T] [∀ a b : T, Decidable (a < b)] (old v : T),
        (Gpu.Atomic.Min old v).ret = old) ∧
    (∀ (T : Type) [LT T] [∀ a b : T, Decidable (a < b)] (old v : T),
        (Gpu.Atomic.Max old v).ret = old) ∧
    (∀ old v : CInt, (Gpu.Atomic.LogicalOr old v).ret = old) ∧
    (∀ old v : CInt, (Gpu.Atomic.LogicalAnd old v).ret = old) ∧
    (∀ old bound : UnsignedInt, (Gpu.Atomic.Inc old bound).ret = old) ∧
    (∀ old bound : UnsignedInt, (Gpu.Atomic.Dec old bound).ret = old) ∧
    (∀ (T : Type) (old val : T), (Gpu.Atomic.Exch old val).ret = old) ∧
    (∀ (T : Type) [DecidableEq T] (old compare val : T),
        (Gpu.Atomic.CAS old compare val).ret = old) :=
  ⟨fun _ _ _ _ => rfl, fun _ _ _ _ _ => rfl, fun _ _ _ _ _ => rfl, fun _ _ => rfl,
    fun _ _ => rfl, fun _ _ => rfl, fun _ _ => rfl, fun _ _ _ => rfl, fun _ _ _ _ _ => rfl⟩

/-- Claim C8. Host-path `Inc(m, bound)` on an `unsigned int` target holding `old` leaves 0 when
`old == bound`, and whenever `old >= bound`; it leaves `old + 1` when `old < bound`, a sum that
does not wrap around 32 bits. With bound 3, content 3 becomes 0 and content 1 becomes 2. -/
theorem Gpu.Atomic.Inc_wraps_at_bound (old bound : UnsignedInt) :
    (old = bound → (Gpu.Atomic.Inc old bound).cell.val = 0) ∧
    (old.val ≥ bound.val → (Gpu.Atomic.Inc old bound).cell.val = 0) ∧
    (old.val < bound.val →
      (Gpu.Atomic.Inc old bound).cell.val = old.val + 1 ∧ old.val + 1 < 2 ^ 32) ∧
    (Gpu.Atomic.Inc 3 3).cell = 0 ∧ (Gpu.Atomic.Inc 1 3).cell = 2 := by
  have hge : old.val ≥ bound.val → (Gpu.Atomic.Inc old bound).cell.val = 0 := by
    intro h
    have h' : old ≥ bound := (Unsigned.le_iff bound old).2 h
    simp only [Gpu.Atomic.Inc, if_pos h']
    rfl
  refine ⟨fun h => hge (by rw [h]), hge, fun h => ?_, by decide, by decide⟩
  have h' : ¬ old ≥ bound := fun hc => absurd ((Unsigned.le_iff bound old).1 hc) (by omega)
  have hb := bound.isLt
  have h1 : old.val + 1 < 2 ^ 32 := by omega
  refine ⟨?_, h1⟩
  have one : (1 : UnsignedInt).val = 1 := rfl
  simp only [Gpu.Atomic.Inc, if_neg h', Unsigned.val_add, one]
  exact Nat.mod_eq_of_lt h1

/-- Claim C9. Host-path `Dec(m, bound)` on an `unsigned int` target holding `old` leaves `bound`
when `old == 0` or `old > bound`, and leaves `old - 1` otherwise, that is for
`1 <= old <= bound`, a difference that does not go below zero. -/
theorem Gpu.Atomic.Dec_resets_to_bound (old bound : UnsignedInt) :
    (old.val = 0 ∨ old.val > bound.val → (Gpu.Atomic.Dec old bound).cell = bound) ∧
    (1 ≤ old.val ∧ old.val ≤ bound.val →
      (Gpu.Atomic.Dec old bound).cell.val = old.val - 1 ∧
      (Gpu.Atomic.Dec old bound).cell.val + 1 = old.val) := by
  have h0 : old = 0 ↔ old.val = 0 := by
    rw [Unsigned.eq_iff, Unsigned.val_lit]; rfl
  constructor
  · intro h
    have h' : old = 0 ∨ old > bound := h.imp h0.2 (Unsigned.lt_iff bound old).2
    simp only [Gpu.Atomic.Dec, if_pos h']
  · intro h
    have h' : ¬ (old = 0 ∨ old > bound) := by
      rintro (hc | hc)
      · have := h0.1 hc; omega
      · have := (Unsigned.lt_iff bound old).1 hc; omega
    have hb := old.isLt
    have h1 : (Gpu.Atomic.Dec old bound).cell.val = old.val - 1 := by
      have one : (1 : UnsignedInt).val = 1 := rfl
      simp only [Gpu.Atomic.Dec, if_neg h', Unsigned.val_sub, one]
      have e : old.val + 2 ^ 32 - 1 = (old.val - 1) + 2 ^ 32 := by omega
      rw [e, Nat.add_mod_right, Nat.mod_eq_of_lt (by omega)]
    exact ⟨h1, by omega⟩

/-- Claim C10. For every type `T`, host-path `Exch(address, val)` on a target holding `old`
leaves `val` in the target, whatever `old` is, and returns `old`. -/
theorem Gpu.Atomic.Exch_stores_val_returns_old (T : Type) (old val : T) :
    (Gpu.Atomic.Exch old val).cell = val ∧ (Gpu.Atomic.Exch old val).ret = old :=
  ⟨rfl, rfl⟩

/-! ### The host branches, calls one after another -/

theorem serial_nil {T : Type} (op : T → T → Outcome T) (cell : T) :
    serial op cell [] = ([], cell) := rfl

theorem serial_cons {T : Type} (op : T → T → Outcome T) (cell v : T) (vs : List T) :
    serial op cell (v :: vs) =
      ((op cell v).ret :: (serial op (op cell v).cell vs).1, (serial op (op cell v).cell vs).2) :=
  rfl

/-- The final content after a series of calls is the fold of the single updates. -/
theorem serial_snd_eq_foldl {T : Type} (op : T → T → Outcome T) (cell : T) (vs : List T) :
    (serial op cell vs).2 = vs.foldl (fun c v => (op c v).cell) cell := by
  induction vs generalizing cell with
  | nil => rfl
  | cons v vs ih => rw [serial_cons, List.foldl_cons]; exact ih _

theorem Gpu.Atomic.Min_cell_eq_min {T : Type} [LinearOrder T] (m v : T) :
    (Gpu.Atomic.Min m v).cell = min m v := by
  show (if m < v then m else v) = min m v
  rcases lt_or_le m v with h | h
  · rw [if_pos h, min_eq_left h.le]
  · rw [if_neg (not_lt.2 h), min_eq_right h]

theorem Gpu.Atomic.Max_cell_eq_max {T : Type} [LinearOrder T] (m v : T) :
    (Gpu.Atomic.Max m v).cell = max m v := by
  show (if m > v then m else v) = max m v
  rcases lt_or_le v m with h | h
  · rw [if_pos h, max_eq_left h.le]
  · rw [if_neg (not_lt.2 h), max_eq_right h]

theorem Gpu.Atomic.Min_serial_mem_le {T : Type} [LinearOrder T] (a : T) (l : List T) :
    (serial Gpu.Atomic.Min a l).2 ∈ a :: l ∧ ∀ x ∈ a :: l, (serial Gpu.Atomic.Min a l).2 ≤ x := by
  induction l generalizing a with
  | nil => simp [serial_nil]
  | cons v vs ih =>
    rw [serial_cons, Gpu.Atomic.Min_cell_eq_min]
    obtain ⟨hm, hle⟩ := ih (min a v)
    constructor
    · rcases List.mem_cons.1 hm with h | h
      · rw [h]
        rcases min_choice a v with e | e <;> rw [e] <;> simp
      · exact List.mem_cons_of_mem _ (List.mem_cons_of_mem _ h)
    · intro x hx
      have h0 := hle (min a v) (List.mem_cons_self _ _)
      rcases List.mem_cons.1 hx with h | h
      · rw [h]; exact h0.trans (min_le_left a v)
      · rcases List.mem_cons.1 h with h | h
        · rw [h]; exact h0.trans (min_le_right a v)
        · exact hle x (List.mem_cons_of_mem _ h)

theorem Gpu.Atomic.Max_serial_mem_ge {T : Type} [LinearOrder T] (a : T) (l : List T) :
    (serial Gpu.Atomic.Max a l).2 ∈ a :: l ∧ ∀ x ∈ a :: l, x ≤ (serial Gpu.Atomic.Max a l).2 := by
  induction l generalizing a with
  | nil => simp [serial_nil]
  | cons v vs ih =>
    rw [serial_cons, Gpu.Atomic.Max_cell_eq_max]
    obtain ⟨hm, hle⟩ := ih (max a v)
    constructor
    · rcases List.mem_cons.1 hm with h | h
      · rw [h]
        rcases max_choice a v with e | e <;> rw [e] <;> simp
      · exact List.mem_cons_of_mem _ (List.mem_cons_of_mem _ h)
    · intro x hx
      have h0 := hle (max a v) (List.mem_cons_self _ _)
      rcases List.mem_cons.1 hx with h | h
      · rw [h]; exact (le_max_left a v).trans h0
      · rcases List.mem_cons.1 h with h | h
        · rw [h]; exact (le_max_right a v).trans h0
        · exact hle x (List.mem_cons_of_mem _ h)

/-! ### `Min` and `Max` on floating-point operands -/

theorem Ieee.parts {e f : Nat} (a : Ieee e f) :
    a.sign ≤ 1 ∧ a.fraction < 2 ^ f ∧ a.magnitude / 2 ^ f = a.exponent ∧
    a.magnitude % 2 ^ f = a.fraction := by
  unfold Ieee.sign Ieee.fraction Ieee.magnitude Ieee.exponent
  have hlt := a.isLt
  have hp : 2 ^ (1 + e + f) = 2 * 2 ^ (e + f) := by rw [Nat.add_assoc, Nat.pow_add, Nat.pow_one]
  have hq : 2 ^ (e + f) = 2 ^ f * 2 ^ e := by rw [Nat.pow_add, Nat.mul_comm]
  refine ⟨?_, Nat.mod_lt _ (Nat.two_pow_pos f), ?_, ?_⟩
  · rw [hp] at hlt
    have := (Nat.div_lt_iff_lt_mul (Nat.two_pow_pos (e + f))).2 hlt
    omega
  · rw [hq, Nat.mod_mul_right_div_self]
  · rw [hq]
    exact Nat.mod_mul_right_mod _ _ _

/-- The size of a finite value in units of the least subnormal value grows with the
magnitude. -/
theorem Ieee.units_strictMono (f : Nat) :
    StrictMono (fun m : Nat =>
      if m / 2 ^ f = 0 then m % 2 ^ f else (2 ^ f + m % 2 ^ f) * 2 ^ (m / 2 ^ f - 1)) := by
  apply strictMono_nat_of_lt_succ
  intro m
  have hP : 0 < 2 ^ f := Nat.two_pow_pos f
  generalize hPd : 2 ^ f = P at hP
  have hm : m % P + P * (m / P) = m := Nat.mod_add_div m P
  have hF : m % P < P := Nat.mod_lt m hP
  generalize m / P = E at hm
  generalize m % P = F at hm hF
  have hm1 : m + 1 = (F + 1) + P * E := by omega
  by_cases hc : F + 1 < P
  · have d1 : (m + 1) / P = E := by
      rw [hm1, Nat.add_mul_div_left _ _ hP, Nat.div_eq_of_lt hc, Nat.zero_add]
    have d2 : (m + 1) % P = F + 1 := by
      rw [hm1, Nat.add_mul_mod_self_left, Nat.mod_eq_of_lt hc]
    have d3 : m / P = E := by
      rw [← hm, Nat.add_mul_div_left _ _ hP, Nat.div_eq_of_lt hF, Nat.zero_add]
    have d4 : m % P = F := by
      rw [← hm, Nat.add_mul_mod_self_left, Nat.mod_eq_of_lt hF]
    simp only [d1, d2, d3, d4]
    split_ifs
    · omega
    · have : 0 < 2 ^ (E - 1) := Nat.two_pow_pos _
      nlinarith
  · have hFP : F + 1 = P := by omega
    have d1 : (m + 1) / P = E + 1 := by
      rw [hm1, Nat.add_mul_div_left _ _ hP, hFP, Nat.div_self hP, Nat.add_comm]
    have d2 : (m + 1) % P = 0 := by
      rw [hm1, Nat.add_mul_mod_self_left, hFP, Nat.mod_self]
    have d3 : m / P = E := by
      rw [← hm, Nat.add_mul_div_left _ _ hP, Nat.div_eq_of_lt hF, Nat.zero_add]
    have d4 : m % P = F := by
      rw [← hm, Nat.add_mul_mod_self_left, Nat.mod_eq_of_lt hF]
    simp only [d1, d2, d3, d4]
    rw [if_neg (Nat.succ_ne_zero E), Nat.add_zero, Nat.add_sub_cancel]
    split_ifs with h0
    · subst h0
      rw [Nat.pow_zero, Nat.mul_one]
      omega
    · have hE : E = (E - 1) + 1 := by omega
      have h2 : 2 ^ E = 2 * 2 ^ (E - 1) := by
        conv_lhs => rw [hE]
        rw [Nat.pow_succ, Nat.mul_comm]
      have : 0 < 2 ^ (E - 1) := Nat.two_pow_pos _
      rw [h2]
      nlinarith

/-- The number a finite pattern stands for, in units of the least subnormal value. -/
theorem Ieee.value_eq_units {e f : Nat} (a : Ieee e f) (x : ℚ) (h : a.value = some x) :
    a.isNaN = false ∧
    x = (-1) ^ a.sign
      * (((fun m : Nat =>
          if m / 2 ^ f = 0 then m % 2 ^ f else (2 ^ f + m % 2 ^ f) * 2 ^ (m / 2 ^ f - 1))
          a.magnitude : Nat) : ℚ)
      * 2 ^ ((2 : Int) - 2 ^ (e - 1) - f) := by
  obtain ⟨_, _, p1, p2⟩ := a.parts
  unfold Ieee.value at h
  unfold Ieee.isNaN
  simp only [p1, p2]
  by_cases hinf : a.exponent = 2 ^ e - 1
  · rw [if_pos hinf] at h
    exact absurd h (by simp)
  · rw [if_neg hinf] at h
    refine ⟨by simp [hinf], ?_⟩
    by_cases h0 : a.exponent = 0
    · rw [if_pos h0] at h
      rw [if_pos h0]
      exact (Option.some.inj h).symm
    · rw [if_neg h0] at h
      rw [if_neg h0, ← Option.some.inj h]
      have hE : (a.exponent : Int) + 1 - 2 ^ (e - 1) - f
          = ((a.exponent - 1 : Nat) : Int) + ((2 : Int) - 2 ^ (e - 1) - f) := by
        have : ((a.exponent - 1 : Nat) : Int) = (a.exponent : Int) - 1 := by omega
        rw [this]
        ring
      rw [hE, zpow_add₀ (by norm_num : (2 : ℚ) ≠ 0), zpow_natCast]
      push_cast
      ring

/-- On finite values the operator `<` is the order of the numbers they stand for. -/
theorem Ieee.lt_iff_value_lt {e f : Nat} (a b : Ieee e f) (x y : ℚ)
    (ha : a.value = some x) (hb : b.value = some y) : a < b ↔ x < y := by
  obtain ⟨na, hx⟩ := a.value_eq_units x ha
  obtain ⟨nb, hy⟩ := b.value_eq_units y hb
  have hmono := Ieee.units_strictMono f
  have hK : (0 : ℚ) < 2 ^ ((2 : Int) - 2 ^ (e - 1) - f) := zpow_pos (by norm_num) _
  have hzero : (fun m : Nat =>
      if m / 2 ^ f = 0 then m % 2 ^ f else (2 ^ f + m % 2 ^ f) * 2 ^ (m / 2 ^ f - 1)) 0 = 0 := by
    simp
  generalize hU : (fun m : Nat =>
      if m / 2 ^ f = 0 then m % 2 ^ f else (2 ^ f + m % 2 ^ f) * 2 ^ (m / 2 ^ f - 1)) = U
    at hx hy hmono hzero
  generalize (2 : ℚ) ^ ((2 : Int) - 2 ^ (e - 1) - f) = K at hx hy hK
  have hsa := a.parts.1
  have hsb := b.parts.1
  show (a.isNaN = false ∧ b.isNaN = false ∧ a.place < b.place) ↔ x < y
  rw [hx, hy]
  unfold Ieee.place
  have hpos : ∀ m : Nat, 0 < m → 0 < U m := fun m hm => by
    have := hmono hm
    omega
  have key : ∀ m n : Nat, ((U m : ℚ) < U n ↔ m < n) := fun m n => by
    rw [Nat.cast_lt]
    exact hmono.lt_iff_lt
  have hUa : (0 : ℚ) ≤ U a.magnitude := Nat.cast_nonneg _
  have hUb : (0 : ℚ) ≤ U b.magnitude := Nat.cast_nonneg _
  have e0 : ∀ m : Nat, (U m : ℚ) = 0 ↔ m = 0 := fun m => by
    constructor
    · intro h
      by_contra hne
      have := hpos m (Nat.pos_of_ne_zero hne)
      have : (0 : ℚ) < U m := by exact_mod_cast this
      linarith
    · intro h
      rw [h, hzero]
      rfl
  constructor
  · rintro ⟨_, _, hlt⟩
    by_cases h1 : a.sign = 1 <;> by_cases h2 : b.sign = 1
    · rw [if_pos h1, if_pos h2] at hlt
      rw [h1, h2]
      have : b.magnitude < a.magnitude := by omega
      have := (key _ _).2 this
      nlinarith
    · rw [if_pos h1, if_neg h2] at hlt
      have h2' : b.sign = 0 := by omega
      rw [h1, h2']
      have : a.magnitude ≠ 0 ∨ b.magnitude ≠ 0 := by omega
      rcases this with h | h
      · have := hpos _ (Nat.pos_of_ne_zero h)
        have : (0 : ℚ) < U a.magnitude := by exact_mod_cast this
        nlinarith
      · have := hpos _ (Nat.pos_of_ne_zero h)
        have : (0 : ℚ) < U b.magnitude := by exact_mod_cast this
        nlinarith
    · rw [if_neg h1, if_pos h2] at hlt
      omega
    · rw [if_neg h1, if_neg h2] at hlt
      have h1' : a.sign = 0 := by omega
      have h2' : b.sign = 0 := by omega
      rw [h1', h2']
      have : a.magnitude < b.magnitude := by omega
      have := (key _ _).2 this
      nlinarith
  · intro hlt
    refine ⟨na, nb, ?_⟩
    by_cases h1 : a.sign = 1 <;> by_cases h2 : b.sign = 1
    · rw [if_pos h1, if_pos h2]
      rw [h1, h2] at hlt
      have : (U b.magnitude : ℚ) < U a.magnitude := by nlinarith
      have := (key _ _).1 this
      omega
    · rw [if_pos h1, if_neg h2]
      have h2' : b.sign = 0 := by omega
      rw [h1, h2'] at hlt
      have : ¬ (a.magnitude = 0 ∧ b.magnitude = 0) := by
        rintro ⟨z1, z2⟩
        rw [z1, z2, hzero] at hlt
        simp at hlt
      omega
    · rw [if_neg h1, if_pos h2]
      have h1' : a.sign = 0 := by omega
      rw [h1', h2] at hlt
      exfalso
      nlinarith
    · rw [if_neg h1, if_neg h2]
      have h1' : a.sign = 0 := by omega
      have h2' : b.sign = 0 := by omega
      rw [h1', h2'] at hlt
      have : (U a.magnitude : ℚ) < U b.magnitude := by nlinarith
      have := (key _ _).1 this
      omega

/-- Two patterns at the same place are the same pattern, or the two zeros. -/
theorem Ieee.eq_or_zeros_of_place_eq {e f : Nat} (a b : Ieee e f) (h : a.place = b.place) :
    a = b ∨ (a.magnitude = 0 ∧ b.magnitude = 0) := by
  have hsa := a.parts.1
  have hsb := b.parts.1
  have ha : 2 ^ (e + f) * a.sign + a.magnitude = a.bits := Nat.div_add_mod _ _
  have hb : 2 ^ (e + f) * b.sign + b.magnitude = b.bits := Nat.div_add_mod _ _
  unfold Ieee.place at h
  by_cases hz : a.magnitude = 0 ∧ b.magnitude = 0
  · exact Or.inr hz
  · left
    have hs : a.sign = b.sign ∧ a.magnitude = b.magnitude := by
      split_ifs at h <;> omega
    have hbits : a.bits = b.bits := by rw [← ha, ← hb, hs.1, hs.2]
    obtain ⟨x, hx⟩ := a
    obtain ⟨y, hy⟩ := b
    simp only at hbits
    subst hbits
    rfl

/-- The number that a positive normal `double` stands for. -/
theorem Ieee.double_value (a : Double) (x fr : Nat) (h1 : a.exponent = x)
    (h2 : a.fraction = fr) (h3 : a.sign = 0) (h4 : x ≠ 2047) (h5 : x ≠ 0) :
    a.value = some (((2 ^ 52 + fr : Nat) : ℚ) * 2 ^ ((x : Int) + 1 - 2 ^ 10 - 52)) := by
  unfold Ieee.value
  rw [h1, h2, h3, if_neg (by omega), if_neg h5]
  norm_num

/-- Without a NaN the content that host-path `Min` leaves is one of the old content and the
operand, at the lower of their two places. -/
theorem Gpu.Atomic.Min_cell_without_NaN {e f : Nat} (a v : Ieee e f)
    (ha : a.isNaN = false) (hv : v.isNaN = false) :
    ((Gpu.Atomic.Min a v).cell = a ∨ (Gpu.Atomic.Min a v).cell = v) ∧
    (Gpu.Atomic.Min a v).cell.place = min a.place v.place := by
  show ((if a < v then a else v) = a ∨ (if a < v then a else v) = v) ∧
    (if a < v then a else v).place = min a.place v.place
  by_cases h : a < v
  · rw [if_pos h]
    exact ⟨Or.inl rfl, (min_eq_left h.2.2.le).symm⟩
  · rw [if_neg h]
    have hle : v.place ≤ a.place := not_lt.1 (fun hc => h ⟨ha, hv, hc⟩)
    exact ⟨Or.inr rfl, (min_eq_right hle).symm⟩

/-- Without a NaN the content that host-path `Max` leaves is one of the old content and the
operand, at the higher of their two places. -/
theorem Gpu.Atomic.Max_cell_without_NaN {e f : Nat} (a v : Ieee e f)
    (ha : a.isNaN = false) (hv : v.isNaN = false) :
    ((Gpu.Atomic.Max a v).cell = a ∨ (Gpu.Atomic.Max a v).cell = v) ∧
    (Gpu.Atomic.Max a v).cell.place = max a.place v.place := by
  show ((if a > v then a else v) = a ∨ (if a > v then a else v) = v) ∧
    (if a > v then a else v).place = max a.place v.place
  by_cases h : a > v
  · rw [if_pos h]
    exact ⟨Or.inl rfl, (max_eq_left h.2.2.le).symm⟩
  · rw [if_neg h]
    have hle : a.place ≤ v.place := not_lt.1 (fun hc => h ⟨hv, ha, hc⟩)
    exact ⟨Or.inr rfl, (max_eq_right hle).symm⟩

theorem Gpu.Atomic.Min_serial_without_NaN {e f : Nat} (a : Ieee e f) (l : List (Ieee e f))
    (h : ∀ x ∈ a :: l, x.isNaN = false) :
    (serial Gpu.Atomic.Min a l).2 ∈ a :: l ∧
    ∀ x ∈ a :: l, (serial Gpu.Atomic.Min a l).2.place ≤ x.place := by
  induction l generalizing a with
  | nil =>
    refine ⟨List.mem_singleton.2 rfl, fun x hx => ?_⟩
    rw [List.mem_singleton.1 hx]
    exact le_refl _
  | cons v l ih =>
    rw [serial_cons]
    have ha := h a (List.mem_cons_self _ _)
    have hv := h v (List.mem_cons_of_mem _ (List.mem_cons_self _ _))
    obtain ⟨hc, hp⟩ := Gpu.Atomic.Min_cell_without_NaN a v ha hv
    have hcn : (Gpu.Atomic.Min a v).cell.isNaN = false := by
      rcases hc with hc | hc <;> rw [hc] <;> assumption
    obtain ⟨hm, hle⟩ := ih (Gpu.Atomic.Min a v).cell (fun x hx => by
      rcases List.mem_cons.1 hx with hx | hx
      · rw [hx]; exact hcn
      · exact h x (List.mem_cons_of_mem _ (List.mem_cons_of_mem _ hx)))
    have h0 := hle _ (List.mem_cons_self _ _)
    rw [hp] at h0
    constructor
    · rcases List.mem_cons.1 hm with hm | hm
      · rcases hc with hc | hc
        · rw [hm, hc]; exact List.mem_cons_self _ _
        · rw [hm, hc]; exact List.mem_cons_of_mem _ (List.mem_cons_self _ _)
      · exact List.mem_cons_of_mem _ (List.mem_cons_of_mem _ hm)
    · intro x hx
      rcases List.mem_cons.1 hx with hx | hx
      · rw [hx]; exact h0.trans (min_le_left _ _)
      · rcases List.mem_cons.1 hx with hx | hx
        · rw [hx]; exact h0.trans (min_le_right _ _)
        · exact hle x (List.mem_cons_of_mem _ hx)

theorem Gpu.Atomic.Max_serial_without_NaN {e f : Nat} (a : Ieee e f) (l : List (Ieee e f))
    (h : ∀ x ∈ a :: l, x.isNaN = false) :
    (serial Gpu.Atomic.Max a l).2 ∈ a :: l ∧
    ∀ x ∈ a :: l, x.place ≤ (serial Gpu.Atomic.Max a l).2.place := by
  induction l generalizing a with
  | nil =>
    refine ⟨List.mem_singleton.2 rfl, fun x hx => ?_⟩
    rw [List.mem_singleton.1 hx]
    exact le_refl _
  | cons v l ih =>
    rw [serial_cons]
    have ha := h a (List.mem_cons_self _ _)
    have hv := h v (List.mem_cons_of_mem _ (List.mem_cons_self _ _))
    obtain ⟨hc, hp⟩ := Gpu.Atomic.Max_cell_without_NaN a v ha hv
    have hcn : (Gpu.Atomic.Max a v).cell.isNaN = false := by
      rcases hc with hc | hc <;> rw [hc] <;> assumption
    obtain ⟨hm, hle⟩ := ih (Gpu.Atomic.Max a v).cell (fun x hx => by
      rcases List.mem_cons.1 hx with hx | hx
      · rw [hx]; exact hcn
      · exact h x (List.mem_cons_of_mem _ (List.mem_cons_of_mem _ hx)))
    have h0 := hle _ (List.mem_cons_self _ _)
    rw [hp] at h0
    constructor
    · rcases List.mem_cons.1 hm with hm | hm
      · rcases hc with hc | hc
        · rw [hm, hc]; exact List.mem_cons_self _ _
        · rw [hm, hc]; exact List.mem_cons_of_mem _ (List.mem_cons_self _ _)
      · exact List.mem_cons_of_mem _ (List.mem_cons_of_mem _ hm)
    · intro x hx
      rcases List.mem_cons.1 hx with hx | hx
      · rw [hx]; exact (le_max_left _ _).trans h0
      · rcases List.mem_cons.1 hx with hx | hx
        · rw [hx]; exact (le_max_right _ _).trans h0
        · exact hle x (List.mem_cons_of_mem _ hx)

/-- Claim C7 fails as stated: `double` is an operand type of `Min` and `Max`, and with a NaN
among the operands the content left depends on the order of the calls. With the `double` values
5 (exponent field 1025, fraction 1/4), 1 (exponent field 1023, fraction 0), 7 (exponent field
1025, fraction 3/4) and a NaN (exponent field 2047, fraction 1/2): from 5, host-path `Min` with
the operands NaN, 1 leaves 1, and with the same operands in the order 1, NaN leaves the NaN,
although 1 is smaller than 5; from 5, `Max` with NaN, 7 leaves 7 and with 7, NaN leaves the
NaN. -/
theorem Gpu.Atomic.Min_Max_depend_on_order_with_NaN :
    (Ieee.ofParts 11 52 0 1025 (2 ^ 50) : Double).value = some 5 ∧
    (Ieee.ofParts 11 52 0 1023 0 : Double).value = some 1 ∧
    (Ieee.ofParts 11 52 0 1025 (3 * 2 ^ 50) : Double).value = some 7 ∧
    (Ieee.ofParts 11 52 0 2047 (2 ^ 51) : Double).isNaN = true ∧
    (Ieee.ofParts 11 52 0 1023 0 : Double) < Ieee.ofParts 11 52 0 1025 (2 ^ 50) ∧
    [Ieee.ofParts 11 52 0 2047 (2 ^ 51), (Ieee.ofParts 11 52 0 1023 0 : Double)].Perm
      [Ieee.ofParts 11 52 0 1023 0, Ieee.ofParts 11 52 0 2047 (2 ^ 51)] ∧
    (serial Gpu.Atomic.Min (Ieee.ofParts 11 52 0 1025 (2 ^ 50) : Double)
        [Ieee.ofParts 11 52 0 2047 (2 ^ 51), Ieee.ofParts 11 52 0 1023 0]).2
      = Ieee.ofParts 11 52 0 1023 0 ∧
    (serial Gpu.Atomic.Min (Ieee.ofParts 11 52 0 1025 (2 ^ 50) : Double)
        [Ieee.ofParts 11 52 0 1023 0, Ieee.ofParts 11 52 0 2047 (2 ^ 51)]).2
      = Ieee.ofParts 11 52 0 2047 (2 ^ 51) ∧
    (serial Gpu.Atomic.Min (Ieee.ofParts 11 52 0 1025 (2 ^ 50) : Double)
        [Ieee.ofParts 11 52 0 2047 (2 ^ 51), Ieee.ofParts 11 52 0 1023 0]).2
      ≠ (serial Gpu.Atomic.Min (Ieee.ofParts 11 52 0 1025 (2 ^ 50) : Double)
        [Ieee.ofParts 11 52 0 1023 0, Ieee.ofParts 11 52 0 2047 (2 ^ 51)]).2 ∧
    (serial Gpu.Atomic.Max (Ieee.ofParts 11 52 0 1025 (2 ^ 50) : Double)
        [Ieee.ofParts 11 52 0 2047 (2 ^ 51), Ieee.ofParts 11 52 0 1025 (3 * 2 ^ 50)]).2
      = Ieee.ofParts 11 52 0 1025 (3 * 2 ^ 50) ∧
    (serial Gpu.Atomic.Max (Ieee.ofParts 11 52 0 1025 (2 ^ 50) : Double)
        [Ieee.ofParts 11 52 0 1025 (3 * 2 ^ 50), Ieee.ofParts 11 52 0 2047 (2 ^ 51)]).2
      = Ieee.ofParts 11 52 0 2047 (2 ^ 51) ∧
    (serial Gpu.Atomic.Max (Ieee.ofParts 11 52 0 1025 (2 ^ 50) : Double)
        [Ieee.ofParts 11 52 0 2047 (2 ^ 51), Ieee.ofParts 11 52 0 1025 (3 * 2 ^ 50)]).2
      ≠ (serial Gpu.Atomic.Max (Ieee.ofParts 11 52 0 1025 (2 ^ 50) : Double)
        [Ieee.ofParts 11 52 0 1025 (3 * 2 ^ 50), Ieee.ofParts 11 52 0 2047 (2 ^ 51)]).2 := by
  refine ⟨?_, ?_, ?_, by decide, by decide, List.Perm.swap _ _ _, by decide, by decide,
    by decide, by decide, by decide, by decide⟩
  · rw [Ieee.double_value _ 1025 (2 ^ 50) (by decide) (by decide) (by decide) (by decide)
      (by decide)]
    norm_num
  · rw [Ieee.double_value _ 1023 0 (by decide) (by decide) (by decide) (by decide) (by decide)]
    norm_num
  · rw [Ieee.double_value _ 1025 (3 * 2 ^ 50) (by decide) (by decide) (by decide) (by decide)
      (by decide)]
    norm_num

/-- Claim C7, as amended. After host-path `Min` calls with the operands of a finite list, issued
one after another on a target holding `a`: over a totally ordered operand type (`int`,
`unsigned int`, `long`, `unsigned long long`) the target holds the minimum of `a` and all
operands, one of them and below each of them, so it is the same for every order of the calls;
over `float` and `double`, when neither `a` nor an operand is a NaN, the target holds one of `a`
and the operands than which none is smaller, so the contents left by two orders of the calls are
neither smaller than the other: they are the same, or the two zeros. `Max` leaves the maximum in
the same way. From 5, `Min` with the operands 7, 3, 9, 1 leaves 1, on `int` and on `double`. -/
theorem Gpu.Atomic.Min_Max_serial_converge :
    (∀ (T : Type) [LinearOrder T] (a : T) (l : List T),
        (serial Gpu.Atomic.Min a l).2 ∈ a :: l ∧
        (∀ x ∈ a :: l, (serial Gpu.Atomic.Min a l).2 ≤ x) ∧
        (serial Gpu.Atomic.Min a l).2 = l.foldl min a ∧
        ∀ l' : List T, l'.Perm l → (serial Gpu.Atomic.Min a l').2 = (serial Gpu.Atomic.Min a l).2) ∧
    (∀ (T : Type) [LinearOrder T] (a : T) (l : List T),
        (serial Gpu.Atomic.Max a l).2 ∈ a :: l ∧
        (∀ x ∈ a :: l, x ≤ (serial Gpu.Atomic.Max a l).2) ∧
        (serial Gpu.Atomic.Max a l).2 = l.foldl max a ∧
        ∀ l' : List T, l'.Perm l → (serial Gpu.Atomic.Max a l').2 = (serial Gpu.Atomic.Max a l).2) ∧
    (∀ (e f : Nat) (a : Ieee e f) (l : List (Ieee e f)), (∀ x ∈ a :: l, x.isNaN = false) →
        (serial Gpu.Atomic.Min a l).2 ∈ a :: l ∧
        (∀ x ∈ a :: l, ¬ x < (serial Gpu.Atomic.Min a l).2) ∧
        ∀ l' : List (Ieee e f), l'.Perm l →
          ¬ (serial Gpu.Atomic.Min a l').2 < (serial Gpu.Atomic.Min a l).2 ∧
          ¬ (serial Gpu.Atomic.Min a l).2 < (serial Gpu.Atomic.Min a l').2 ∧
          ((serial Gpu.Atomic.Min a l').2 = (serial Gpu.Atomic.Min a l).2 ∨
            ((serial Gpu.Atomic.Min a l').2.magnitude = 0 ∧
              (serial Gpu.Atomic.Min a l).2.magnitude = 0))) ∧
    (∀ (e f : Nat) (a : Ieee e f) (l : List (Ieee e f)), (∀ x ∈ a :: l, x.isNaN = false) →
        (serial Gpu.Atomic.Max a l).2 ∈ a :: l ∧
        (∀ x ∈ a :: l, ¬ (serial Gpu.Atomic.Max a l).2 < x) ∧
        ∀ l' : List (Ieee e f), l'.Perm l →
          ¬ (serial Gpu.Atomic.Max a l').2 < (serial Gpu.Atomic.Max a l).2 ∧
          ¬ (serial Gpu.Atomic.Max a l).2 < (serial Gpu.Atomic.Max a l').2 ∧
          ((serial Gpu.Atomic.Max a l').2 = (serial Gpu.Atomic.Max a l).2 ∨
            ((serial Gpu.Atomic.Max a l').2.magnitude = 0 ∧
              (serial Gpu.Atomic.Max a l).2.magnitude = 0))) ∧
    (serial Gpu.Atomic.Min (5 : CInt) [7, 3, 9, 1]).2 = 1 ∧
    (serial Gpu.Atomic.Min (5 : CInt) [1, 9, 3, 7]).2 = 1 ∧
    ((Ieee.ofParts 11 52 0 1025 (2 ^ 50) : Double).value = some 5 ∧
      (Ieee.ofParts 11 52 0 1025 (3 * 2 ^ 50) : Double).value = some 7 ∧
      (Ieee.ofParts 11 52 0 1024 (2 ^ 51) : Double).value = some 3 ∧
      (Ieee.ofParts 11 52 0 1026 (2 ^ 49) : Double).value = some 9 ∧
      (Ieee.ofParts 11 52 0 1023 0 : Double).value = some 1 ∧
      (serial Gpu.Atomic.Min (Ieee.ofParts 11 52 0 1025 (2 ^ 50) : Double)
          [Ieee.ofParts 11 52 0 1025 (3 * 2 ^ 50), Ieee.ofParts 11 52 0 1024 (2 ^ 51),
            Ieee.ofParts 11 52 0 1026 (2 ^ 49), Ieee.ofParts 11 52 0 1023 0]).2
        = Ieee.ofParts 11 52 0 1023 0) := by
  refine ⟨fun T _ a l => ?_, fun T _ a l => ?_, fun e f a l h => ?_, fun e f a l h => ?_,
    by decide, by decide, ?_, ?_, ?_, ?_, ?_, by decide⟩
  rotate_left 4
  · rw [Ieee.double_value _ 1025 (2 ^ 50) (by decide) (by decide) (by decide) (by decide)
      (by decide)]
    norm_num
  · rw [Ieee.double_value _ 1025 (3 * 2 ^ 50) (by decide) (by decide) (by decide) (by decide)
      (by decide)]
    norm_num
  · rw [Ieee.double_value _ 1024 (2 ^ 51) (by decide) (by decide) (by decide) (by decide)
      (by decide)]
    norm_num
  · rw [Ieee.double_value _ 1026 (2 ^ 49) (by decide) (by decide) (by decide) (by decide)
      (by decide)]
    norm_num
  · rw [Ieee.double_value _ 1023 0 (by decide) (by decide) (by decide) (by decide) (by decide)]
    norm_num
  · obtain ⟨hm, hle⟩ := Gpu.Atomic.Min_serial_mem_le a l
    refine ⟨hm, hle, ?_, fun l' hp => ?_⟩
    · rw [serial_snd_eq_foldl]
      simp only [Gpu.Atomic.Min_cell_eq_min]
    · obtain ⟨hm', hle'⟩ := Gpu.Atomic.Min_serial_mem_le a l'
      have hp' : (a :: l').Perm (a :: l) := hp.cons a
      exact le_antisymm (hle' _ (hp'.mem_iff.2 hm)) (hle _ (hp'.mem_iff.1 hm'))
  · obtain ⟨hm, hle⟩ := Gpu.Atomic.Max_serial_mem_ge a l
    refine ⟨hm, hle, ?_, fun l' hp => ?_⟩
    · rw [serial_snd_eq_foldl]
      simp only [Gpu.Atomic.Max_cell_eq_max]
    · obtain ⟨hm', hle'⟩ := Gpu.Atomic.Max_serial_mem_ge a l'
      have hp' : (a :: l').Perm (a :: l) := hp.cons a
      exact le_antisymm (hle _ (hp'.mem_iff.1 hm')) (hle' _ (hp'.mem_iff.2 hm))
  · obtain ⟨hm, hle⟩ := Gpu.Atomic.Min_serial_without_NaN a l h
    refine ⟨hm, fun x hx hc => absurd hc.2.2 (not_lt.2 (hle x hx)), fun l' hp => ?_⟩
    have hp' : (a :: l').Perm (a :: l) := hp.cons a
    obtain ⟨hm', hle'⟩ := Gpu.Atomic.Min_serial_without_NaN a l'
      (fun x hx => h x (hp'.mem_iff.1 hx))
    exact ⟨fun hc => absurd hc.2.2 (not_lt.2 (hle _ (hp'.mem_iff.1 hm'))),
      fun hc => absurd hc.2.2 (not_lt.2 (hle' _ (hp'.mem_iff.2 hm))),
      Ieee.eq_or_zeros_of_place_eq _ _
        (le_antisymm (hle' _ (hp'.mem_iff.2 hm)) (hle _ (hp'.mem_iff.1 hm')))⟩
  · obtain ⟨hm, hle⟩ := Gpu.Atomic.Max_serial_without_NaN a l h
    refine ⟨hm, fun x hx hc => absurd hc.2.2 (not_lt.2 (hle x hx)), fun l' hp => ?_⟩
    have hp' : (a :: l').Perm (a :: l) := hp.cons a
    obtain ⟨hm', hle'⟩ := Gpu.Atomic.Max_serial_without_NaN a l'
      (fun x hx => h x (hp'.mem_iff.1 hx))
    exact ⟨fun hc => absurd hc.2.2 (not_lt.2 (hle' _ (hp'.mem_iff.2 hm))),
      fun hc => absurd hc.2.2 (not_lt.2 (hle _ (hp'.mem_iff.1 hm'))),
      Ieee.eq_or_zeros_of_place_eq _ _
        (le_antisymm (hle _ (hp'.mem_iff.1 hm')) (hle' _ (hp'.mem_iff.2 hm)))⟩

/-! ### The CAS-loop emulator under interference -/

theorem Gpu.Atomic.detail.Run.consistent_event {R I : Type} [DecidableEq I] (asI : R → I)
    (asR : I → R) (f : R → R → R) (val : R) (s : Run R I) (e : Event I)
    (h : s.consistent asI asR f val) : (s.event asI asR f val e).consistent asI asR f val := by
  obtain ⟨call, mem, log⟩ := s
  cases e with
  | write x => cases call <;> exact h
  | own =>
    cases call with
    | start =>
      simp only [Run.consistent] at h
      simp [Run.event, atomic_op_step, Run.consistent, h]
    | done r => exact h
    | loop old_I =>
      simp only [Run.consistent] at h
      by_cases hm : old_I = mem
      · subst hm
        simp only [Run.event, atomic_op_step, atomicCAS, ne_eq, not_true_eq_false, if_false,
          if_true, Run.consistent]
        exact ⟨log, _, rfl, h, rfl, rfl, rfl⟩
      · have hm' : ¬ mem = old_I := fun hc => hm hc.symm
        simp only [Run.event, atomic_op_step, atomicCAS, ne_eq, hm, hm', not_false_eq_true,
          if_true, if_false, Run.consistent]
        intro a ha
        rcases List.mem_append.1 ha with ha | ha
        · exact h a ha
        · rw [List.mem_singleton.1 ha]
          exact ⟨hm', rfl⟩

theorem Gpu.Atomic.detail.Run.consistent_foldl {R I : Type} [DecidableEq I] (asI : R → I)
    (asR : I → R) (f : R → R → R) (val : R) (events : List (Event I)) (s : Run R I)
    (h : s.consistent asI asR f val) :
    (events.foldl (Run.event asI asR f val) s).consistent asI asR f val := by
  induction events generalizing s with
  | nil => exact h
  | cons e es ih => exact ih _ (Run.consistent_event asI asR f val s e h)

/-- Claim C4. Whenever a call `atomic_op(address, val, f)` has returned, under any writes of other
units between its steps: its last compare-and-swap found in the target the value the call had
last observed, the call returns that content (read as `R`), the content right after that swap is
`f(returned, val)` (as bits), every earlier compare-and-swap of the call failed and left the
target as it was, and so no compare-and-swap of the call changed a content other than the one
the call had observed. -/
theorem Gpu.Atomic.detail.atomic_op_swaps_only_observed {R I : Type} [DecidableEq I]
    (asI : R → I) (asR : I → R) (f : R → R → R) (val : R) (mem : I) (events : List (Event I))
    (ret : R) (h : (Run.exec asI asR f val mem events).call = .done ret) :
    ∃ earlier last, (Run.exec asI asR f val mem events).log = earlier ++ [last] ∧
      ret = asR last.before ∧
      last.before = last.assumed ∧
      last.after = asI (f ret val) ∧
      (∀ a ∈ earlier, a.before ≠ a.assumed ∧ a.after = a.before) ∧
      (∀ a ∈ (Run.exec asI asR f val mem events).log, a.after ≠ a.before →
        a.before = a.assumed) := by
  have hc := Run.consistent_foldl asI asR f val events (Run.init mem) rfl
  change (Run.exec asI asR f val mem events).consistent asI asR f val at hc
  unfold Run.consistent at hc
  rw [h] at hc
  obtain ⟨earlier, last, hlog, hfail, hobs, hret, hafter⟩ := hc
  refine ⟨earlier, last, hlog, hret, hobs, hafter, hfail, ?_⟩
  intro a ha hne
  rw [hlog] at ha
  rcases List.mem_append.1 ha with ha | ha
  · exact absurd (hfail a ha).2 hne
  · rw [List.mem_singleton.1 ha]; exact hobs

/-- The emulated `Add` of 5 to a `Long` target holding 10, another unit writing 20 between the
load and the first compare-and-swap: the call returns 20 after one failed attempt. -/
theorem Gpu.Atomic.detail.atomic_op_swaps_only_observed_witness :
    ∃ earlier last,
      (Run.exec Long_as_ULL ULL_as_Long Plus 5 10 [.own, .write 20, .own, .own]).log
        = earlier ++ [last] ∧
      (20 : Long) = ULL_as_Long last.before ∧
      last.before = last.assumed ∧
      last.after = Long_as_ULL (Plus 20 5) ∧
      (∀ a ∈ earlier, a.before ≠ a.assumed ∧ a.after = a.before) ∧
      (∀ a ∈ (Run.exec Long_as_ULL ULL_as_Long Plus 5 10 [.own, .write 20, .own, .own]).log,
        a.after ≠ a.before → a.before = a.assumed) :=
  Gpu.Atomic.detail.atomic_op_swaps_only_observed Long_as_ULL ULL_as_Long Plus 5 10
    [.own, .write 20, .own, .own] 20 (by decide)

/-! ### Concurrent emulated `Add` -/

theorem List.filterMap_set_perm {α β : Type} (g : α → Option β) (l : List α) (i : Nat)
    (c c' : α) (hget : l.get? i = some c) (hc : g c = none) :
    ((l.set i c').filterMap g).Perm ((g c').toList ++ l.filterMap g) := by
  induction l generalizing i with
  | nil => simp at hget
  | cons a l ih =>
    cases i with
    | zero =>
      simp only [List.get?_cons_zero, Option.some.injEq] at hget
      subst hget
      rw [List.set_cons_zero, List.filterMap_cons, List.filterMap_cons, hc]
      cases g c' <;> simp
    | succ i =>
      simp only [List.get?_cons_succ] at hget
      rw [List.set_cons_succ, List.filterMap_cons, List.filterMap_cons]
      cases g a with
      | none => exact ih i hget
      | some b => exact ((ih i hget).cons b).trans List.perm_middle.symm

theorem List.set_get?_same {α : Type} (l : List α) (i : Nat) (c : α)
    (hget : l.get? i = some c) : l.set i c = l := by
  induction l generalizing i with
  | nil => rfl
  | cons a l ih =>
    cases i with
    | zero =>
      simp only [List.get?_cons_zero, Option.some.injEq] at hget
      rw [List.set_cons_zero, hget]
    | succ i =>
      simp only [List.get?_cons_succ] at hget
      rw [List.set_cons_succ, ih i hget]

theorem List.get?_append_length {α : Type} (ds : List α) (c : α) (t : List α) :
    (ds ++ c :: t).get? ds.length = some c := by
  induction ds with
  | nil => rfl
  | cons d ds ih => simpa using ih

theorem List.set_append_length {α : Type} (ds : List α) (c c' : α) (t : List α) :
    (ds ++ c :: t).set ds.length c' = ds ++ c' :: t := by
  induction ds with
  | nil => rfl
  | cons d ds ih => simp [ih]

theorem Signed.toInt_of_small (x : Long) (h : x.bits < 2 ^ 63) : x.toInt = (x.bits : Int) := by
  unfold Signed.toInt
  rw [if_pos (by simpa using h)]

theorem Gpu.Atomic.toInt_of_min (m : UnsignedLongLong) (h : m.val = 2 ^ 63) :
    (ULL_as_Long m).toInt = -(2 ^ 63) := by
  have hb : (ULL_as_Long m).bits = 2 ^ 63 := h
  unfold Signed.toInt
  rw [hb]
  norm_num

theorem Gpu.Atomic.Long_one_bits : (1 : Long).bits = 1 := by decide

theorem Gpu.Atomic.returned_start (N : Nat) (init : Long) :
    (Add_device_start N init).returned = [] := by
  unfold Add_device_start detail.System.returned
  induction N with
  | zero => rfl
  | succ n ih => rw [List.replicate_succ, List.filterMap_cons]; exact ih

theorem Gpu.Atomic.counted_start (N : Nat) : counted N (Add_device_start N 0) := by
  refine ⟨by simp [Add_device_start], ?_, ?_⟩
  · rw [returned_start]; rfl
  · rw [returned_start]; exact List.Perm.refl _

theorem Gpu.Atomic.counted_step (N : Nat) (hN : N < 2 ^ 64)
    (s : detail.System Long UnsignedLongLong) (i : Nat) (h : counted N s) :
    counted N (detail.System.step Long_as_ULL ULL_as_Long Plus 1 s i) := by
  obtain ⟨hlen, hmem, hperm⟩ := h
  unfold detail.System.step
  cases hget : s.calls.get? i with
  | none => exact ⟨hlen, hmem, hperm⟩
  | some c =>
    -- a step that leaves the target and the returned values as they are
    have same : ∀ c' : detail.Call Long UnsignedLongLong, c.result = none → c'.result = none →
        counted N ⟨s.mem, s.calls.set i c'⟩ := by
      intro c' hc hc'
      have hp := List.filterMap_set_perm detail.Call.result s.calls i c c' hget hc
      rw [hc'] at hp
      have hp' : (detail.System.returned ⟨s.mem, s.calls.set i c'⟩).Perm s.returned := hp
      refine ⟨by simpa using hlen, ?_, ?_⟩
      · rw [hp'.length_eq]; exact hmem
      · rw [hp'.length_eq]; exact (hp'.map _).trans hperm
    cases c with
    | start => exact same _ rfl rfl
    | done r =>
      show counted N ⟨s.mem, s.calls.set i (.done r)⟩
      rw [List.set_get?_same _ _ _ hget]
      exact ⟨hlen, hmem, hperm⟩
    | loop old_I =>
      by_cases hm : old_I = s.mem
      · subst hm
        simp only [detail.atomic_op_step, detail.atomicCAS, ne_eq, not_true_eq_false, if_false,
          if_true]
        have hp := List.filterMap_set_perm detail.Call.result s.calls i _
          (.done (ULL_as_Long s.mem)) hget rfl
        have hp' : (detail.System.returned
            ⟨Long_as_ULL (Plus (ULL_as_Long s.mem) 1),
              s.calls.set i (.done (ULL_as_Long s.mem))⟩).Perm
            (ULL_as_Long s.mem :: s.returned) := hp
        have hk : s.returned.length + 1 ≤ N := by
          have h1 := List.length_filterMap_le detail.Call.result
            (s.calls.set i (.done (ULL_as_Long s.mem)))
          have h2 := hp.length_eq
          simp only [Option.toList, List.singleton_append, List.length_cons, List.length_set,
            detail.Call.result] at h1 h2
          have h3 : (List.filterMap detail.Call.result s.calls).length = s.returned.length := rfl
          omega
        refine ⟨by simpa using hlen, ?_, ?_⟩
        · rw [hp'.length_eq, List.length_cons]
          show (s.mem.val + (1 : Long).bits) % 2 ^ 64 = _
          rw [Long_one_bits, hmem]
          exact Nat.mod_eq_of_lt (by omega)
        · rw [hp'.length_eq, List.length_cons, List.range_succ]
          refine (hp'.map _).trans ?_
          rw [List.map_cons]
          have hb : (ULL_as_Long s.mem).bits = s.returned.length := hmem
          rw [hb]
          exact ((hperm.cons _).trans (List.perm_append_singleton _ _).symm)
      · have hm' : ¬ s.mem = old_I := fun hc => hm hc.symm
        simp only [detail.atomic_op_step, detail.atomicCAS, ne_eq, hm, hm', not_false_eq_true,
          if_true, if_false]
        exact same _ rfl rfl

theorem Gpu.Atomic.counted_foldl (N : Nat) (hN : N < 2 ^ 64) (schedule : List Nat)
    (s : detail.System Long UnsignedLongLong) (h : counted N s) :
    counted N (schedule.foldl (detail.System.step Long_as_ULL ULL_as_Long Plus 1) s) := by
  induction schedule generalizing s with
  | nil => exact h
  | cons i is ih => exact ih _ (counted_step N hN s i h)

theorem Gpu.Atomic.counted_run (N : Nat) (hN : N < 2 ^ 64) (schedule : List Nat) :
    counted N (Add_device_run N 0 1 schedule) :=
  counted_foldl N hN schedule _ (counted_start N)

theorem Gpu.Atomic.detail.System.returned_length_of_allDone {R I : Type} (s : System R I)
    (h : s.allDone) : s.returned.length = s.calls.length := by
  obtain ⟨mem, calls⟩ := s
  unfold System.allDone at h
  unfold System.returned
  simp only at h ⊢
  induction calls with
  | nil => rfl
  | cons c cs ih =>
    have hc := h c (List.mem_cons_self _ _)
    have ih' := ih (fun c' hc' => h c' (List.mem_cons_of_mem _ hc'))
    cases hr : c.result with
    | none => rw [hr] at hc; simp at hc
    | some r => rw [List.filterMap_cons, hr, List.length_cons, List.length_cons, ih']

theorem Gpu.Atomic.detail.System.step_load {R I : Type} [DecidableEq I] (asI : R → I)
    (asR : I → R) (f : R → R → R) (val : R) (mem : I) (ds rest : List (Call R I)) :
    System.step asI asR f val ⟨mem, ds ++ .start :: rest⟩ ds.length
      = ⟨mem, ds ++ .loop mem :: rest⟩ := by
  simp only [System.step, List.get?_append_length, atomic_op_step, List.set_append_length]

theorem Gpu.Atomic.detail.System.step_swap {R I : Type} [DecidableEq I] (asI : R → I)
    (asR : I → R) (f : R → R → R) (val : R) (mem : I) (ds rest : List (Call R I)) :
    System.step asI asR f val ⟨mem, ds ++ .loop mem :: rest⟩ ds.length
      = ⟨asI (f (asR mem) val), ds ++ .done (asR mem) :: rest⟩ := by
  simp only [System.step, List.get?_append_length, atomic_op_step, atomicCAS,
    List.set_append_length, ne_eq, not_true_eq_false, if_false, if_true]

/-- Without contention every call returns: after the first `n` units have run in turn, they
have returned and the others have not started. -/
theorem Gpu.Atomic.in_turn_calls (N n : Nat) (hn : n ≤ N) :
    ∃ ds, (Add_device_run N 0 1 (Add_device_in_turn n)).calls
        = ds ++ List.replicate (N - n) .start ∧
      ds.length = n ∧ ∀ c ∈ ds, c.result.isSome = true := by
  induction n with
  | zero => exact ⟨[], rfl, rfl, fun _ hc => absurd hc (List.not_mem_nil _)⟩
  | succ n ih =>
    obtain ⟨ds, hcalls, hlen, hdone⟩ := ih (by omega)
    have hrep : N - n = (N - (n + 1)) + 1 := by omega
    rw [hrep, List.replicate_succ] at hcalls
    unfold Add_device_run detail.System.run at hcalls ⊢
    rw [Add_device_in_turn, List.foldl_append]
    generalize List.foldl (detail.System.step Long_as_ULL ULL_as_Long Plus 1)
      (Add_device_start N 0) (Add_device_in_turn n) = s at hcalls
    obtain ⟨mem, calls⟩ := s
    simp only at hcalls
    subst hcalls
    subst hlen
    rw [List.foldl_cons, List.foldl_cons, List.foldl_nil, detail.System.step_load,
      detail.System.step_swap]
    refine ⟨ds ++ [.done (ULL_as_Long mem)], by simp, by simp, ?_⟩
    intro c hc
    rcases List.mem_append.1 hc with hc | hc
    · exact hdone c hc
    · rw [List.mem_singleton.1 hc]; rfl

theorem Gpu.Atomic.in_turn_allDone (N : Nat) :
    (Add_device_run N 0 1 (Add_device_in_turn N)).allDone := by
  obtain ⟨ds, hcalls, _, hdone⟩ := in_turn_calls N N (le_refl N)
  unfold detail.System.allDone
  rw [hcalls, Nat.sub_self, List.replicate_zero, List.append_nil]
  exact hdone

/-- Claim C5, as amended. For every `N < 2 ^ 63`, when `N` units each run the emulated
`Add_device(sum, 1)` on a `Long` target that holds 0, then under every interleaving of their
loads and compare-and-swaps in which all `N` calls return, the target ends holding `N` and the
values returned are `0, 1, .., N-1`, each exactly once. -/
theorem Gpu.Atomic.Add_device_counts_every_call (N : Nat) (hN : N < 2 ^ 63)
    (schedule : List Nat) (hdone : (Add_device_run N 0 1 schedule).allDone) :
    (ULL_as_Long (Add_device_run N 0 1 schedule).mem).toInt = (N : Int) ∧
    (Add_device_run N 0 1 schedule).returned.length = N ∧
    ((Add_device_run N 0 1 schedule).returned.map Signed.toInt).Perm
      ((List.range N).map Int.ofNat) ∧
    ((Add_device_run N 0 1 schedule).returned.map Signed.toInt).Nodup := by
  obtain ⟨hlen, hmem, hperm⟩ := counted_run N (by omega) schedule
  have hk : (Add_device_run N 0 1 schedule).returned.length = N := by
    rw [detail.System.returned_length_of_allDone _ hdone, hlen]
  rw [hk] at hmem hperm
  have hsmall : ∀ r ∈ (Add_device_run N 0 1 schedule).returned, r.toInt = Int.ofNat r.bits := by
    intro r hr
    have h1 : r.bits ∈ List.range N := hperm.mem_iff.1 (List.mem_map_of_mem _ hr)
    have h2 : r.bits < N := List.mem_range.1 h1
    exact Signed.toInt_of_small r (by omega)
  have hmap : (Add_device_run N 0 1 schedule).returned.map Signed.toInt
      = ((Add_device_run N 0 1 schedule).returned.map Signed.bits).map Int.ofNat := by
    rw [List.map_map]
    exact List.map_congr_left hsmall
  have hp : ((Add_device_run N 0 1 schedule).returned.map Signed.toInt).Perm
      ((List.range N).map Int.ofNat) := by
    rw [hmap]; exact hperm.map _
  refine ⟨?_, hk, hp, ?_⟩
  · rw [Signed.toInt_of_small _ (by show _ < 2 ^ 63; rw [show (ULL_as_Long _).bits = _ from hmem]; exact hN)]
    exact congrArg Int.ofNat hmem
  · rw [hp.nodup_iff]
    exact (List.nodup_range N).map (fun a b h => Int.ofNat.inj h)

/-- Three units under contention: all load 0; unit 0 swaps first, units 1 and 2 fail and retry,
unit 2 failing twice. The target ends at 3 and the values returned are 0, 1, 2. -/
theorem Gpu.Atomic.Add_device_counts_every_call_witness :
    (Add_device_run 3 0 1 [0, 1, 2, 0, 1, 2, 1, 2, 2]).allDone ∧
    (ULL_as_Long (Add_device_run 3 0 1 [0, 1, 2, 0, 1, 2, 1, 2, 2]).mem).toInt = ((3 : Nat) : Int) ∧
    (Add_device_run 3 0 1 [0, 1, 2, 0, 1, 2, 1, 2, 2]).returned.length = 3 ∧
    ((Add_device_run 3 0 1 [0, 1, 2, 0, 1, 2, 1, 2, 2]).returned.map Signed.toInt).Perm
      ((List.range 3).map Int.ofNat) ∧
    ((Add_device_run 3 0 1 [0, 1, 2, 0, 1, 2, 1, 2, 2]).returned.map Signed.toInt).Nodup :=
  ⟨by decide,
    Gpu.Atomic.Add_device_counts_every_call 3 (by norm_num) [0, 1, 2, 0, 1, 2, 1, 2, 2]
      (by decide)⟩

/-- Claim C5 fails as stated at `N = 2 ^ 63`: when the `2 ^ 63` units run in turn, every call
returns, and the `Long` target ends holding `-2 ^ 63`, not `2 ^ 63` (no `Long` is `2 ^ 63`). -/
theorem Gpu.Atomic.Add_device_count_exceeds_Long :
    (Add_device_run (2 ^ 63) 0 1 (Add_device_in_turn (2 ^ 63))).allDone ∧
    (ULL_as_Long (Add_device_run (2 ^ 63) 0 1 (Add_device_in_turn (2 ^ 63))).mem).toInt
      = -(2 ^ 63) ∧
    (ULL_as_Long (Add_device_run (2 ^ 63) 0 1 (Add_device_in_turn (2 ^ 63))).mem).toInt
      ≠ ((2 ^ 63 : Nat) : Int) := by
  have hdone := in_turn_allDone (2 ^ 63)
  obtain ⟨hlen, hmem, _⟩ := counted_run (2 ^ 63) (by norm_num) (Add_device_in_turn (2 ^ 63))
  rw [detail.System.returned_length_of_allDone _ hdone, hlen] at hmem
  have hv := toInt_of_min (Add_device_run (2 ^ 63) 0 1 (Add_device_in_turn (2 ^ 63))).mem hmem
  exact ⟨hdone, hv, by rw [hv]; norm_num⟩

/-! ### `LogicalOr` and `LogicalAnd` on the host and on the device -/

theorem Signed.eq_iff_bits {w : Nat} (a b : Signed w) : a = b ↔ a.bits = b.bits := by
  constructor
  · intro h; rw [h]
  · intro h; cases a; cases b; simp_all

theorem Gpu.Atomic.CInt_eq_zero_iff (a : CInt) : a = 0 ↔ a.bits = 0 := by
  rw [Signed.eq_iff_bits]; rfl

theorem Gpu.Atomic.CInt_eq_one_iff (a : CInt) : a = 1 ↔ a.bits = 1 := by
  rw [Signed.eq_iff_bits]; rfl

theorem Gpu.Atomic.not_zero_bits : not_zero.bits = 2 ^ 32 - 1 := rfl

theorem Nat.left_le_lor (a b : Nat) : a ≤ a ||| b :=
  Nat.le_of_testBit (fun i h => by rw [Nat.testBit_or, h]; rfl)

theorem Nat.right_le_lor (a b : Nat) : b ≤ a ||| b :=
  Nat.le_of_testBit (fun i h => by rw [Nat.testBit_or, h, Bool.or_true])

theorem Nat.lor_eq_zero (a b : Nat) : a ||| b = 0 ↔ a = 0 ∧ b = 0 := by
  constructor
  · intro h
    have h1 := Nat.left_le_lor a b
    have h2 := Nat.right_le_lor a b
    omega
  · rintro ⟨rfl, rfl⟩; rfl

theorem Nat.lor_le_one (a b : Nat) : a ||| b ≤ 1 ↔ a ≤ 1 ∧ b ≤ 1 := by
  constructor
  · intro h
    have h1 := Nat.left_le_lor a b
    have h2 := Nat.right_le_lor a b
    omega
  · rintro ⟨ha, hb⟩
    have ha' : a = 0 ∨ a = 1 := by omega
    have hb' : b = 0 ∨ b = 1 := by omega
    rcases ha' with rfl | rfl <;> rcases hb' with rfl | rfl <;> decide

theorem Gpu.Atomic.LogicalOr_cell_bits (old value : CInt) :
    (LogicalOr old value).cell.bits = if old.bits ≠ 0 ∨ value.bits ≠ 0 then 1 else 0 := by
  unfold LogicalOr
  simp only [ne_eq, CInt_eq_zero_iff]
  split_ifs <;> rfl

theorem Gpu.Atomic.LogicalAnd_cell_bits (old value : CInt) :
    (LogicalAnd old value).cell.bits = if old.bits ≠ 0 ∧ value.bits ≠ 0 then 1 else 0 := by
  unfold LogicalAnd
  simp only [ne_eq, CInt_eq_zero_iff]
  split_ifs <;> rfl

theorem Gpu.Atomic.LogicalOr_device_cell_bits (old value : CInt) :
    (LogicalOr_device old value).cell.bits = old.bits ||| value.bits := rfl

theorem Gpu.Atomic.LogicalAnd_device_cell_bits (old value : CInt) :
    (LogicalAnd_device old value).cell.bits = if value.bits ≠ 0 then old.bits else 0 := by
  unfold LogicalAnd_device atomicAnd
  simp only [ne_eq, CInt_eq_zero_iff]
  split_ifs with h
  · show old.bits &&& (0 : CInt).bits = 0
    exact Nat.and_zero _
  · show old.bits &&& not_zero.bits = old.bits
    rw [not_zero_bits, Nat.and_pow_two_sub_one_eq_mod, Nat.mod_eq_of_lt old.isLt]

/-- Claim C11 fails as stated: on a target holding 2 the host `LogicalOr` with operand 0 stores 1
and the device branch stores 2; the host `LogicalAnd` with operand 1 stores 1 and the device
branch stores 2. -/
theorem Gpu.Atomic.Logical_device_differs_from_host :
    (LogicalOr 2 0).cell = 1 ∧ (LogicalOr_device 2 0).cell = 2 ∧
    (LogicalOr 2 0).cell ≠ (LogicalOr_device 2 0).cell ∧
    (LogicalAnd 2 1).cell = 1 ∧ (LogicalAnd_device 2 1).cell = 2 ∧
    (LogicalAnd 2 1).cell ≠ (LogicalAnd_device 2 1).cell := by
  decide

/-- Claim C11, as amended. For every `int` content `old` and operand `value`, the host branch and
the CUDA/HIP branch of `LogicalOr`, and of `LogicalAnd`, return the same value; they leave the
same value in the target exactly when the booleans are held as 0 or 1: for `LogicalOr` when
`old` and `value` are each 0 or 1, for `LogicalAnd` when `value` is 0 or `old` is 0 or 1. -/
theorem Gpu.Atomic.Logical_device_agrees_on_booleans (old value : CInt) :
    (LogicalOr_device old value).ret = (LogicalOr old value).ret ∧
    (LogicalAnd_device old value).ret = (LogicalAnd old value).ret ∧
    ((LogicalOr_device old value).cell = (LogicalOr old value).cell ↔
      (old = 0 ∨ old = 1) ∧ (value = 0 ∨ value = 1)) ∧
    ((LogicalAnd_device old value).cell = (LogicalAnd old value).cell ↔
      value = 0 ∨ old = 0 ∨ old = 1) := by
  refine ⟨rfl, rfl, ?_, ?_⟩
  · rw [Signed.eq_iff_bits, LogicalOr_device_cell_bits, LogicalOr_cell_bits]
    simp only [CInt_eq_zero_iff, CInt_eq_one_iff]
    have h0 := Nat.lor_eq_zero old.bits value.bits
    have h1 := Nat.lor_le_one old.bits value.bits
    split_ifs with h <;> constructor <;> intro hc <;> omega
  · rw [Signed.eq_iff_bits, LogicalAnd_device_cell_bits, LogicalAnd_cell_bits]
    simp only [CInt_eq_zero_iff, CInt_eq_one_iff]
    split_ifs with h1 h2 h2 <;> constructor <;> intro hc <;> omega

/-- Claim C12. `LogicalOr` and `LogicalAnd` treat the `int` target and operand as booleans: after
`LogicalOr` the target is non-zero exactly when `old != 0` or `value != 0`, after `LogicalAnd`
exactly when `old != 0` and `value != 0`, on the host branch and on the CUDA/HIP branch alike;
on the host branch the value stored is 1 or 0. -/
theorem Gpu.Atomic.Logical_ops_are_boolean (old value : CInt) :
    ((LogicalOr old value).cell ≠ 0 ↔ old ≠ 0 ∨ value ≠ 0) ∧
    ((LogicalOr_device old value).cell ≠ 0 ↔ old ≠ 0 ∨ value ≠ 0) ∧
    ((LogicalAnd old value).cell ≠ 0 ↔ old ≠ 0 ∧ value ≠ 0) ∧
    ((LogicalAnd_device old value).cell ≠ 0 ↔ old ≠ 0 ∧ value ≠ 0) ∧
    ((LogicalOr old value).cell = 1 ∨ (LogicalOr old value).cell = 0) ∧
    ((LogicalAnd old value).cell = 1 ∨ (LogicalAnd old value).cell = 0) := by
  simp only [ne_eq, CInt_eq_zero_iff, CInt_eq_one_iff, LogicalOr_cell_bits,
    LogicalAnd_cell_bits, LogicalOr_device_cell_bits, LogicalAnd_device_cell_bits]
  have h0 := Nat.lor_eq_zero old.bits value.bits
  refine ⟨?_, ?_, ?_, ?_, ?_, ?_⟩
  · split_ifs with h <;> simp_all
  · rw [h0]; tauto
  · split_ifs with h <;> simp_all
  · split_ifs with h <;> simp_all
  · split_ifs with h <;> omega
  · split_ifs with h <;> omega

/-! ### The explicit host-atomic `Add` -/

/-- Claim C13. The explicit host-atomic variant performs the same update as the default one:
for every content `old` and every `value`, the target after host-path
`HostDevice::Atomic::Add(sum, value)` holds what it holds after host-path
`Gpu::Atomic::Add(sum, value)`, which is `old + value` (modulo `2 ^ w` on the unsigned
integers of `w` bits). -/
theorem HostDevice.Atomic.Add_updates_as_Gpu_Add :
    (∀ (T : Type) [HAdd T T T] (old value : T),
      (HostDevice.Atomic.Add old value).2 = (Gpu.Atomic.Add old value).cell ∧
      (HostDevice.Atomic.Add old value).2 = old + value) ∧
    (∀ (w : Nat) (old value : Unsigned w),
      (HostDevice.Atomic.Add old value).2.val = (old.val + value.val) % 2 ^ w) :=
  ⟨fun _ _ _ _ => ⟨rfl, rfl⟩, fun _ _ _ => rfl⟩

/-- Claim C14 fails as stated: `HostDevice::Atomic::Add` is a `void` function. What it returns is
the same on a target holding 1 and on a target holding 2, so the previous content cannot be read
from it in any way. -/
theorem HostDevice.Atomic.Add_returns_nothing :
    (HostDevice.Atomic.Add (1 : CInt) 5).1 = (HostDevice.Atomic.Add (2 : CInt) 5).1 ∧
    ¬ ∃ previous : Unit → CInt, ∀ old value : CInt,
      previous (HostDevice.Atomic.Add old value).1 = old := by
  refine ⟨rfl, ?_⟩
  rintro ⟨previous, h⟩
  have h1 := h 1 5
  have h2 := h 2 5
  have h3 : (1 : CInt) = 2 := h1.symm.trans h2
  exact absurd h3 (by decide)

/-- Claim C14, as amended. The explicit host-atomic variant of `Add` has the call contract
(address of `T`, value of `T`) -> nothing: for every content `old` of `*sum` and every `value`
it returns no value and leaves `old + value` in `*sum`. -/
theorem HostDevice.Atomic.Add_is_void_and_adds (T : Type) [HAdd T T T] (old value : T) :
    (HostDevice.Atomic.Add old value).1 = () ∧ (HostDevice.Atomic.Add old value).2 = old + value :=
  ⟨rfl, rfl⟩

/-! ### The range of `Inc` and `Dec` -/

/-- Claim C20. `Inc` and `Dec` establish and keep `0 <= *m <= bound`: for every content `old`,
also one above `bound`, and every `bound`, the value stored by host-path `Inc(m, bound)` and
the value stored by host-path `Dec(m, bound)` are at most `bound`. -/
theorem Gpu.Atomic.Inc_Dec_stay_within_bound (old bound : UnsignedInt) :
    0 ≤ (Inc old bound).cell.val ∧ (Inc old bound).cell ≤ bound ∧
    0 ≤ (Dec old bound).cell.val ∧ (Dec old bound).cell ≤ bound := by
  have one : (1 : UnsignedInt).val = 1 := rfl
  have zero : (0 : UnsignedInt).val = 0 := rfl
  have hb := bound.isLt
  have ho := old.isLt
  refine ⟨Nat.zero_le _, ?_, Nat.zero_le _, ?_⟩
  · rw [Unsigned.le_iff]
    unfold Inc
    by_cases h : old ≥ bound
    · simp only [if_pos h, zero]; exact Nat.zero_le _
    · have h' : old.val < bound.val := by
        have := (Unsigned.le_iff bound old).not.1 h
        omega
      simp only [if_neg h, Unsigned.val_add, one]
      rw [Nat.mod_eq_of_lt (by omega)]
      omega
  · rw [Unsigned.le_iff]
    unfold Dec
    by_cases h : old = 0 ∨ old > bound
    · simp only [if_pos h]; exact le_refl _
    · have h1 : ¬ old.val = 0 := fun hc => h (Or.inl ((Unsigned.eq_iff old 0).2 (hc.trans zero.symm)))
      have h2 : ¬ bound.val < old.val := fun hc => h (Or.inr ((Unsigned.lt_iff bound old).2 hc))
      simp only [if_neg h, Unsigned.val_sub, one]
      have e : old.val + 2 ^ 32 - 1 = (old.val - 1) + 2 ^ 32 := by omega
      rw [e, Nat.add_mod_right, Nat.mod_eq_of_lt (by omega)]
      omega


/-! ### The two CAS-loop emulators and the host branch -/

theorem Gpu.Atomic.detail.Run.event_eq_eventWith {R I : Type} [DecidableEq I] (asI : R → I)
    (asR : I → R) (f : R → R → R) (val : R) :
    Run.event asI asR f val = Run.eventWith (atomic_op_step asI asR f val) := by
  funext s e
  cases e <;> rfl

theorem Gpu.Atomic.detail.Run.exec_eq_execWith {R I : Type} [DecidableEq I] (asI : R → I)
    (asR : I → R) (f : R → R → R) (val : R) (mem : I) (events : List (Event I)) :
    Run.exec asI asR f val mem events = Run.execWith (atomic_op_step asI asR f val) mem events := by
  unfold Run.exec Run.execWith
  rw [Run.event_eq_eventWith]

/-- The SYCL loop and the CUDA/HIP loop take the same step from every position and content. -/
theorem Gpu.Atomic.detail.atomic_op_step_sycl_eq {R I : Type} [DecidableEq I] (asI : R → I)
    (asR : I → R) (f : R → R → R) (val : R) :
    atomic_op_step_sycl asI asR f val = atomic_op_step asI asR f val := by
  funext c mem
  cases c with
  | start => rfl
  | done r => rfl
  | loop old_I =>
    by_cases h : mem = old_I
    · subst h
      simp [atomic_op_step_sycl, atomic_op_step, compare_exchange_strong, atomicCAS]
    · have h' : ¬ old_I = mem := fun hc => h hc.symm
      simp [atomic_op_step_sycl, atomic_op_step, compare_exchange_strong, atomicCAS, h, h']

theorem Gpu.Atomic.detail.Run.foldl_writes {R I : Type} [DecidableEq I] (asI : R → I)
    (asR : I → R) (f : R → R → R) (val : R) (writes : List I) (s : Run R I) :
    (writes.map Event.write).foldl (Run.event asI asR f val) s
      = ⟨s.call, writes.foldl (fun _ x => x) s.mem, s.log⟩ := by
  induction writes generalizing s with
  | nil => rfl
  | cons x xs ih => rw [List.map_cons, List.foldl_cons, ih]; rfl

/-- Claim C15. When no other unit writes the target between the load and the compare-and-swap
of `atomic_op(address, val, f)` (other units may write before the load: `writes`), the call makes
exactly one compare-and-swap, returns the content `old` it loaded and leaves the bits of
`f(old, val)`, for every combining function `f`: the value returned and the value left are those
of the unsynchronized host branch on a target holding `old`. -/
theorem Gpu.Atomic.detail.atomic_op_uncontended_is_host_update {R I : Type} [DecidableEq I]
    (asI : R → I) (asR : I → R) (f : R → R → R) (val : R) (mem : I) (writes : List I) :
    (Run.exec asI asR f val mem (writes.map Event.write ++ [.own, .own])).log.length = 1 ∧
    (Run.exec asI asR f val mem (writes.map Event.write ++ [.own, .own])).log
      = [⟨writes.foldl (fun _ x => x) mem, writes.foldl (fun _ x => x) mem,
          asI (f (asR (writes.foldl (fun _ x => x) mem)) val)⟩] ∧
    (Run.exec asI asR f val mem (writes.map Event.write ++ [.own, .own])).call
      = .done (atomic_op_host f (asR (writes.foldl (fun _ x => x) mem)) val).ret ∧
    (Run.exec asI asR f val mem (writes.map Event.write ++ [.own, .own])).mem
      = asI (atomic_op_host f (asR (writes.foldl (fun _ x => x) mem)) val).cell ∧
    (atomic_op_host f (asR (writes.foldl (fun _ x => x) mem)) val).ret
      = asR (writes.foldl (fun _ x => x) mem) ∧
    (atomic_op_host f (asR (writes.foldl (fun _ x => x) mem)) val).cell
      = f (asR (writes.foldl (fun _ x => x) mem)) val := by
  have h : Run.exec asI asR f val mem (writes.map Event.write ++ [.own, .own])
      = ⟨.done (asR (writes.foldl (fun _ x => x) mem)),
          asI (f (asR (writes.foldl (fun _ x => x) mem)) val),
          [⟨writes.foldl (fun _ x => x) mem, writes.foldl (fun _ x => x) mem,
            asI (f (asR (writes.foldl (fun _ x => x) mem)) val)⟩]⟩ := by
    unfold Run.exec
    rw [List.foldl_append, Run.foldl_writes]
    simp [Run.init, Run.event, atomic_op_step, atomicCAS]
  rw [h]
  exact ⟨rfl, rfl, rfl, rfl, rfl, rfl⟩

/-- Claim C16. The two CAS-loop emulators are equivalent: for every first content, operand,
combining function `f` and every sequence of writes by other units between the steps, the SYCL
version (retry on `compare_exchange_strong`) and the CUDA/HIP version (retry on `atomicCAS`)
make the same compare-and-swaps, each with the same content before and after, leave the same
content and return the same value. -/
theorem Gpu.Atomic.detail.atomic_op_sycl_same_as_cuda {R I : Type} [DecidableEq I]
    (asI : R → I) (asR : I → R) (f : R → R → R) (val : R) (mem : I) (events : List (Event I)) :
    (Run.execWith (atomic_op_step_sycl asI asR f val) mem events).log
      = (Run.exec asI asR f val mem events).log ∧
    (Run.execWith (atomic_op_step_sycl asI asR f val) mem events).log.length
      = (Run.exec asI asR f val mem events).log.length ∧
    (Run.execWith (atomic_op_step_sycl asI asR f val) mem events).mem
      = (Run.exec asI asR f val mem events).mem ∧
    (Run.execWith (atomic_op_step_sycl asI asR f val) mem events).call
      = (Run.exec asI asR f val mem events).call := by
  rw [Run.exec_eq_execWith, atomic_op_step_sycl_eq]
  exact ⟨rfl, rfl, rfl, rfl⟩

/-! ### The number of attempts -/

theorem Gpu.Atomic.detail.Run.foldl_done {R I : Type} [DecidableEq I] (asI : R → I)
    (asR : I → R) (f : R → R → R) (val : R) (events : List (Event I)) (r : R) (m : I)
    (log : List (Attempt I)) :
    (events.foldl (Run.event asI asR f val) ⟨.done r, m, log⟩).call = .done r ∧
    (events.foldl (Run.event asI asR f val) ⟨.done r, m, log⟩).log = log := by
  induction events generalizing m with
  | nil => exact ⟨rfl, rfl⟩
  | cons e es ih =>
    cases e with
    | write x => exact ih x
    | own => exact ih m

theorem Gpu.Atomic.detail.Run.foldl_attempts {R I : Type} [DecidableEq I] (asI : R → I)
    (asR : I → R) (f : R → R → R) (val : R) (seen : List I) (o m : I)
    (log : List (Attempt I)) :
    ((Event.attempts seen).foldl (Run.event asI asR f val) ⟨.loop o, m, log⟩).log.length
      = log.length + min (leadingFailures o seen + 1) seen.length ∧
    (((Event.attempts seen).foldl (Run.event asI asR f val) ⟨.loop o, m, log⟩).call.result.isSome
      = true ↔ leadingFailures o seen < seen.length) := by
  induction seen generalizing o m log with
  | nil => exact ⟨by simp [Event.attempts], by simp [Event.attempts, Call.result]⟩
  | cons c cs ih =>
    rw [Event.attempts, List.foldl_cons, List.foldl_cons]
    by_cases h : c = o
    · subst h
      have e : Run.event asI asR f val (Run.event asI asR f val ⟨.loop c, m, log⟩ (.write c)) .own
          = ⟨.done (asR c), asI (f (asR c) val), log ++ [⟨c, c, asI (f (asR c) val)⟩]⟩ := by
        simp [Run.event, atomic_op_step, atomicCAS]
      rw [e]
      obtain ⟨h1, h2⟩ := Run.foldl_done asI asR f val (Event.attempts cs) (asR c)
        (asI (f (asR c) val)) (log ++ [⟨c, c, asI (f (asR c) val)⟩])
      rw [h1, h2]
      simp [leadingFailures, Call.result]
    · have h' : ¬ o = c := fun hc => h hc.symm
      have e : Run.event asI asR f val (Run.event asI asR f val ⟨.loop o, m, log⟩ (.write c)) .own
          = ⟨.loop c, c, log ++ [⟨o, c, c⟩]⟩ := by
        simp [Run.event, atomic_op_step, atomicCAS, h, h']
      rw [e]
      obtain ⟨h1, h2⟩ := ih c c (log ++ [⟨o, c, c⟩])
      have hl : (log ++ [(⟨o, c, c⟩ : Attempt I)]).length = log.length + 1 := by simp
      rw [h1, h2, hl]
      simp only [leadingFailures, if_neg h, List.length_cons]
      constructor
      · omega
      · omega

theorem Gpu.Atomic.detail.stall_spec {I : Type} [DecidableEq I] (x y : I) (hxy : x ≠ y)
    (o : I) (n : Nat) :
    leadingFailures o (stall x y o n) = n ∧ (stall x y o n).length = n + 1 := by
  induction n generalizing o with
  | zero => simp [stall, leadingFailures]
  | succ n ih =>
    have hc : ¬ (if o = x then y else x) = o := by
      by_cases h : o = x
      · rw [if_pos h, h]; exact fun hc => hxy hc.symm
      · rw [if_neg h]; exact fun hc => h hc.symm
    obtain ⟨h1, h2⟩ := ih (if o = x then y else x)
    simp only [stall, leadingFailures, if_neg hc, h1, h2, List.length_cons]
    exact ⟨trivial, trivial⟩

/-- Claim C17. The retry loop of `atomic_op` exits at the first attempt that finds the target
unchanged and has no bound on its attempts. For every content `mem` loaded and every sequence
`seen` of contents found at the successive compare-and-swaps, with `k` the number of leading
attempts that find a content other than the one last observed: the call returns exactly when
`k < seen.length`, and it has then made `k + 1` attempts (it has made all `seen.length` attempts
and still loops otherwise). For every `n` some interference makes exactly `n` attempts fail
before the one that succeeds, as soon as the target can hold two different values. -/
theorem Gpu.Atomic.detail.atomic_op_attempts_until_unchanged {R I : Type} [DecidableEq I]
    (asI : R → I) (asR : I → R) (f : R → R → R) (val : R) :
    (∀ (mem : I) (seen : List I),
      ((Run.exec asI asR f val mem (.own :: Event.attempts seen)).call.result.isSome = true ↔
        leadingFailures mem seen < seen.length) ∧
      (Run.exec asI asR f val mem (.own :: Event.attempts seen)).log.length
        = min (leadingFailures mem seen + 1) seen.length ∧
      (leadingFailures mem seen < seen.length →
        (Run.exec asI asR f val mem (.own :: Event.attempts seen)).log.length
          = leadingFailures mem seen + 1)) ∧
    (∀ x y : I, x ≠ y → ∀ (mem : I) (n : Nat),
      ∃ seen : List I, leadingFailures mem seen = n ∧
        (Run.exec asI asR f val mem (.own :: Event.attempts seen)).call.result.isSome = true ∧
        ∃ earlier last,
          (Run.exec asI asR f val mem (.own :: Event.attempts seen)).log = earlier ++ [last] ∧
          earlier.length = n ∧
          (∀ a ∈ earlier, a.before ≠ a.assumed ∧ a.after = a.before) ∧
          last.before = last.assumed) := by
  have key : ∀ (mem : I) (seen : List I),
      (Run.exec asI asR f val mem (.own :: Event.attempts seen)).log.length
        = min (leadingFailures mem seen + 1) seen.length ∧
      ((Run.exec asI asR f val mem (.own :: Event.attempts seen)).call.result.isSome = true ↔
        leadingFailures mem seen < seen.length) := by
    intro mem seen
    have h := Run.foldl_attempts asI asR f val seen mem mem []
    rw [List.length_nil, Nat.zero_add] at h
    exact h
  refine ⟨fun mem seen => ⟨(key mem seen).2, (key mem seen).1, fun hlt => ?_⟩, ?_⟩
  · rw [(key mem seen).1]; omega
  · intro x y hxy mem n
    obtain ⟨hk, hlen⟩ := stall_spec x y hxy mem n
    obtain ⟨hcount, hdone⟩ := key mem (stall x y mem n)
    rw [hk, hlen] at hcount hdone
    have hsome := hdone.2 (by omega)
    refine ⟨stall x y mem n, hk, hsome, ?_⟩
    have hc := Run.consistent_foldl asI asR f val (.own :: Event.attempts (stall x y mem n))
      (Run.init mem) rfl
    change (Run.exec asI asR f val mem (.own :: Event.attempts (stall x y mem n))).consistent
      asI asR f val at hc
    unfold Run.consistent at hc
    cases hcall : (Run.exec asI asR f val mem (.own :: Event.attempts (stall x y mem n))).call with
    | start => rw [hcall] at hsome; simp [Call.result] at hsome
    | loop o => rw [hcall] at hsome; simp [Call.result] at hsome
    | done r =>
      rw [hcall] at hc
      obtain ⟨earlier, last, hlog, hfail, hobs, _, _⟩ := hc
      refine ⟨earlier, last, hlog, ?_, hfail, hobs⟩
      rw [hlog, List.length_append, List.length_singleton] at hcount
      omega

/-! ### The SYCL loops of `Inc` and `Dec` -/

/-- The SYCL loop of `Inc` is the CAS loop whose combining function is the host update. -/
theorem Gpu.Atomic.Inc_step_sycl_eq (value : UnsignedInt) :
    Inc_step_sycl value
      = detail.atomic_op_step id id (fun o v => (Inc o v).cell) value := by
  funext c mem
  cases c with
  | start => rfl
  | done r => rfl
  | loop oldi =>
    by_cases h : mem = oldi
    · subst h
      simp [Inc_step_sycl, detail.atomic_op_step, detail.compare_exchange_strong,
        detail.atomicCAS, Inc]
    · have h' : ¬ oldi = mem := fun hc => h hc.symm
      simp [Inc_step_sycl, detail.atomic_op_step, detail.compare_exchange_strong,
        detail.atomicCAS, h, h']

/-- The SYCL loop of `Dec` is the CAS loop whose combining function is the host update. -/
theorem Gpu.Atomic.Dec_step_sycl_eq (value : UnsignedInt) :
    Dec_step_sycl value
      = detail.atomic_op_step id id (fun o v => (Dec o v).cell) value := by
  funext c mem
  cases c with
  | start => rfl
  | done r => rfl
  | loop oldi =>
    by_cases h : mem = oldi
    · subst h
      simp [Dec_step_sycl, detail.atomic_op_step, detail.compare_exchange_strong,
        detail.atomicCAS, Dec]
    · have h' : ¬ oldi = mem := fun hc => h hc.symm
      simp [Dec_step_sycl, detail.atomic_op_step, detail.compare_exchange_strong,
        detail.atomicCAS, h, h']

/-- A loop over `unsigned int` whose step is the CAS loop of a combining function `g`: when it
has returned `c`, its last compare-and-swap found `c` and stored `g c value`, and the earlier
ones left the target as it was. -/
theorem Gpu.Atomic.detail.Run.execWith_returned
    (step : Call UnsignedInt UnsignedInt → UnsignedInt → Call UnsignedInt UnsignedInt × UnsignedInt)
    (g : UnsignedInt → UnsignedInt → UnsignedInt) (value : UnsignedInt)
    (hstep : step = atomic_op_step id id g value) (mem : UnsignedInt)
    (events : List (Event UnsignedInt)) (c : UnsignedInt)
    (h : (Run.execWith step mem events).call = .done c) :
    ∃ earlier last, (Run.execWith step mem events).log = earlier ++ [last] ∧
      (∀ a ∈ earlier, a.after = a.before) ∧ last.before = c ∧ last.after = g c value := by
  subst hstep
  rw [← Run.exec_eq_execWith] at h ⊢
  have hc := Run.consistent_foldl id id g value events (Run.init mem) rfl
  change (Run.exec id id g value mem events).consistent id id g value at hc
  unfold Run.consistent at hc
  rw [h] at hc
  obtain ⟨earlier, last, hlog, hfail, _, hret, hafter⟩ := hc
  exact ⟨earlier, last, hlog, fun a ha => (hfail a ha).2, hret.symm, hafter⟩

/-- Claim C18. The SYCL compare-exchange loops of `Inc` and `Dec` compute the host update on the
content present at the successful swap: for every sequence of events, when the loop has returned
`c`, the content right before its last, successful swap was `c`, the swap stored
`(c >= bound ? 0 : c+1)` for `Inc` and `((c == 0 || c > bound) ? bound : c-1)` for `Dec`, which
is what the host branch stores on `c`, and the earlier swaps changed nothing. Without writes of
other units the value returned and the content left are those of the host branch. -/
theorem Gpu.Atomic.Inc_Dec_sycl_loops_apply_host_update :
    (∀ (bound mem : UnsignedInt) (events : List (detail.Event UnsignedInt)) (c : UnsignedInt),
      (detail.Run.execWith (Inc_step_sycl bound) mem events).call = .done c →
      ∃ earlier last,
        (detail.Run.execWith (Inc_step_sycl bound) mem events).log = earlier ++ [last] ∧
        (∀ a ∈ earlier, a.after = a.before) ∧ last.before = c ∧ c = (Inc c bound).ret ∧
        last.after = (if c ≥ bound then 0 else c + 1) ∧ last.after = (Inc c bound).cell) ∧
    (∀ (bound mem : UnsignedInt) (events : List (detail.Event UnsignedInt)) (c : UnsignedInt),
      (detail.Run.execWith (Dec_step_sycl bound) mem events).call = .done c →
      ∃ earlier last,
        (detail.Run.execWith (Dec_step_sycl bound) mem events).log = earlier ++ [last] ∧
        (∀ a ∈ earlier, a.after = a.before) ∧ last.before = c ∧ c = (Dec c bound).ret ∧
        last.after = (if c = 0 ∨ c > bound then bound else c - 1) ∧
        last.after = (Dec c bound).cell) ∧
    (∀ bound mem : UnsignedInt,
      (detail.Run.execWith (Inc_step_sycl bound) mem [.own, .own]).call
        = .done (Inc mem bound).ret ∧
      (detail.Run.execWith (Inc_step_sycl bound) mem [.own, .own]).mem = (Inc mem bound).cell) ∧
    (∀ bound mem : UnsignedInt,
      (detail.Run.execWith (Dec_step_sycl bound) mem [.own, .own]).call
        = .done (Dec mem bound).ret ∧
      (detail.Run.execWith (Dec_step_sycl bound) mem [.own, .own]).mem = (Dec mem bound).cell) ∧
    (detail.Run.execWith (Inc_step_sycl 3) 0 [.own, .write 3, .own, .write 1, .own, .own]).call
      = .done 1 ∧
    (detail.Run.execWith (Inc_step_sycl 3) 0 [.own, .write 3, .own, .write 1, .own, .own]).mem
      = 2 ∧
    (detail.Run.execWith (Dec_step_sycl 3) 2 [.own, .write 0, .own, .own]).call = .done 0 ∧
    (detail.Run.execWith (Dec_step_sycl 3) 2 [.own, .write 0, .own, .own]).mem = 3 := by
  refine ⟨?_, ?_, ?_, ?_, by decide, by decide, by decide, by decide⟩
  · intro bound mem events c h
    obtain ⟨earlier, last, hlog, hfail, hbefore, hafter⟩ :=
      detail.Run.execWith_returned _ _ bound (Inc_step_sycl_eq bound) mem events c h
    exact ⟨earlier, last, hlog, hfail, hbefore, rfl, hafter, hafter⟩
  · intro bound mem events c h
    obtain ⟨earlier, last, hlog, hfail, hbefore, hafter⟩ :=
      detail.Run.execWith_returned _ _ bound (Dec_step_sycl_eq bound) mem events c h
    exact ⟨earlier, last, hlog, hfail, hbefore, rfl, hafter, hafter⟩
  · intro bound mem
    simp [detail.Run.execWith, detail.Run.eventWith, detail.Run.init, Inc_step_sycl,
      detail.compare_exchange_strong, Inc]
  · intro bound mem
    simp [detail.Run.execWith, detail.Run.eventWith, detail.Run.init, Dec_step_sycl,
      detail.compare_exchange_strong, Dec]

/-! ### Build-time selection -/

/-- Without the condition on `AMREX_DEVICE_COMPILE` the placeholder is selected: a device pass
in which none of the three device macros is defined. -/
theorem Gpu.Atomic.placeholder_selected_without_device_macro :
    Add_branch ⟨true, false, true, false, true, false, false, false⟩ .int = .placeholder ∧
    Min_branch ⟨true, false, true, false, true, false, false, false⟩ .int = .placeholder ∧
    Max_branch ⟨true, false, true, false, true, false, false, false⟩ .int = .placeholder := by
  decide

/-- Claim C19. In every configuration in which `AMREX_DEVICE_COMPILE` holds only if one of
`__CUDA_ARCH__`, `__HIP_DEVICE_COMPILE__`, `__SYCL_DEVICE_ONLY__` is defined, a call of `Add`,
`Min` or `Max` on any operand type never compiles to the placeholder `return T();`: it is a
device atomic or compare-and-swap loop, or a load-combine-store (of the host branch or of the
emulator), or the configuration declares no such function and nothing is built. -/
theorem Gpu.Atomic.placeholder_never_selected (c : Config) (T : Operand)
    (h : c.AMREX_DEVICE_COMPILE = true →
      c.__CUDA_ARCH__ = true ∨ c.__HIP_DEVICE_COMPILE__ = true ∨ c.__SYCL_DEVICE_ONLY__ = true) :
    (Add_branch c T ≠ .placeholder ∧ Min_branch c T ≠ .placeholder ∧
      Max_branch c T ≠ .placeholder) ∧
    ((Add_branch c T).updates = true ∨ Add_branch c T = .undeclared) ∧
    ((Min_branch c T).updates = true ∨ Min_branch c T = .undeclared) ∧
    ((Max_branch c T).updates = true ∨ Max_branch c T = .undeclared) := by
  obtain ⟨gpu, dpcpp, cuda, hip, dev, a, b, d⟩ := c
  simp only at h
  cases dev
  · simp [Add_branch, Min_branch, Max_branch, Branch.updates]
  · have h' := h rfl
    cases gpu <;> cases dpcpp <;> cases cuda <;> cases hip <;> cases a <;> cases b <;> cases d <;>
      cases T <;> first | (exfalso; simp at h'; done) | decide

/-- A CUDA device pass (`AMREX_USE_GPU`, `AMREX_USE_CUDA`, `AMREX_DEVICE_COMPILE` and
`__CUDA_ARCH__`): `Add` on `Long` is the compare-and-swap loop, `Min` on `int` a device atomic. -/
theorem Gpu.Atomic.placeholder_never_selected_witness :
    Add_branch ⟨true, false, true, false, true, true, false, false⟩ .Long = .cas_loop ∧
    Min_branch ⟨true, false, true, false, true, true, false, false⟩ .Long = .cas_loop ∧
    (Add_branch ⟨true, false, true, false, true, true, false, false⟩ .Long ≠ .placeholder ∧
      Min_branch ⟨true, false, true, false, true, true, false, false⟩ .Long ≠ .placeholder ∧
      Max_branch ⟨true, false, true, false, true, true, false, false⟩ .Long ≠ .placeholder) ∧
    ((Add_branch ⟨true, false, true, false, true, true, false, false⟩ .Long).updates = true ∨
      Add_branch ⟨true, false, true, false, true, true, false, false⟩ .Long = .undeclared) ∧
    ((Min_branch ⟨true, false, true, false, true, true, false, false⟩ .Long).updates = true ∨
      Min_branch ⟨true, false, true, false, true, true, false, false⟩ .Long = .undeclared) ∧
    ((Max_branch ⟨true, false, true, false, true, true, false, false⟩ .Long).updates = true ∨
      Max_branch ⟨true, false, true, false, true, true, false, false⟩ .Long = .undeclared) :=
  ⟨by decide, by decide,
    Gpu.Atomic.placeholder_never_selected ⟨true, false, true, false, true, true, false, false⟩
      .Long (fun _ => Or.inl rfl)⟩

/-! ### `Inc` and `Dec` as inverse of each other; `Min` and `Max` as closure operations -/

theorem Gpu.Atomic.Inc_cell_val (old bound : UnsignedInt) :
    (Inc old bound).cell.val = if old.val ≥ bound.val then 0 else old.val + 1 := by
  have one : (1 : UnsignedInt).val = 1 := rfl
  have zero : (0 : UnsignedInt).val = 0 := rfl
  have hb := bound.isLt
  unfold Inc
  by_cases h : old ≥ bound
  · have h' : old.val ≥ bound.val := (Unsigned.le_iff bound old).1 h
    simp only [if_pos h, if_pos h', zero]
  · have h' : ¬ old.val ≥ bound.val := fun hc => h ((Unsigned.le_iff bound old).2 hc)
    simp only [if_neg h, if_neg h', Unsigned.val_add, one]
    exact Nat.mod_eq_of_lt (by omega)

theorem Gpu.Atomic.Dec_cell_val (old bound : UnsignedInt) :
    (Dec old bound).cell.val
      = if old.val = 0 ∨ old.val > bound.val then bound.val else old.val - 1 := by
  have one : (1 : UnsignedInt).val = 1 := rfl
  have zero : (0 : UnsignedInt).val = 0 := rfl
  have ho := old.isLt
  have h0 : old = 0 ↔ old.val = 0 := by rw [Unsigned.eq_iff, zero]
  unfold Dec
  by_cases h : old = 0 ∨ old > bound
  · have h' : old.val = 0 ∨ old.val > bound.val := h.imp h0.1 (Unsigned.lt_iff bound old).1
    simp only [if_pos h, if_pos h']
  · have h' : ¬ (old.val = 0 ∨ old.val > bound.val) :=
      fun hc => h (hc.imp h0.2 (Unsigned.lt_iff bound old).2)
    simp only [if_neg h, if_neg h', Unsigned.val_sub, one]
    have e : old.val + 2 ^ 32 - 1 = (old.val - 1) + 2 ^ 32 := by omega
    rw [e, Nat.add_mod_right, Nat.mod_eq_of_lt (by omega)]

/-- Successive `Inc` calls count modulo `bound + 1` from a content within the bound. -/
theorem Gpu.Atomic.Inc_iterate_val (old bound : UnsignedInt) (h : old.val ≤ bound.val) (k : Nat) :
    ((fun c => (Inc c bound).cell)^[k] old).val = (old.val + k) % (bound.val + 1) := by
  induction k with
  | zero => rw [Function.iterate_zero, id, Nat.add_zero, Nat.mod_eq_of_lt (by omega)]
  | succ n ih =>
    have hlt : (old.val + n) % (bound.val + 1) < bound.val + 1 := Nat.mod_lt _ (by omega)
    have e : (old.val + (n + 1)) % (bound.val + 1)
        = ((old.val + n) % (bound.val + 1) + 1) % (bound.val + 1) := by
      rw [Nat.mod_add_mod, Nat.add_assoc]
    rw [Function.iterate_succ_apply', Inc_cell_val, ih, e]
    generalize (old.val + n) % (bound.val + 1) = r at hlt
    by_cases hc : r ≥ bound.val
    · have hq : r = bound.val := by omega
      subst hq
      rw [if_pos (le_refl _), Nat.mod_self]
    · rw [if_neg hc, Nat.mod_eq_of_lt (by omega)]

/-- Claim C21. On contents within the bound `Inc` and `Dec` undo each other: for every `bound`
and every content `old <= bound`, host-path `Inc(m, bound)` followed by `Dec(m, bound)` leaves
`old`, and `Dec(m, bound)` followed by `Inc(m, bound)` leaves `old`; and `bound + 1` successive
`Inc` calls bring the target back to `old`. -/
theorem Gpu.Atomic.Inc_Dec_are_inverse (old bound : UnsignedInt) (h : old ≤ bound) :
    (Dec (Inc old bound).cell bound).cell = old ∧
    (Inc (Dec old bound).cell bound).cell = old ∧
    (fun c => (Inc c bound).cell)^[bound.val + 1] old = old := by
  have h' : old.val ≤ bound.val := (Unsigned.le_iff old bound).1 h
  refine ⟨?_, ?_, ?_⟩
  · rw [Unsigned.eq_iff, Dec_cell_val, Inc_cell_val]
    by_cases hc : old.val ≥ bound.val
    · have hq : old.val = bound.val := by omega
      simp [hq]
    · have h1 : ¬ (old.val + 1 = 0 ∨ old.val + 1 > bound.val) := by omega
      simp only [if_neg hc, if_neg h1]
      omega
  · rw [Unsigned.eq_iff, Inc_cell_val, Dec_cell_val]
    by_cases hc : old.val = 0 ∨ old.val > bound.val
    · have hq : old.val = 0 := by omega
      simp [hq]
    · have h1 : ¬ (old.val - 1 ≥ bound.val) := by omega
      simp only [if_neg hc, if_neg h1]
      omega
  · rw [Unsigned.eq_iff, Inc_iterate_val old bound h', Nat.add_mod_right,
      Nat.mod_eq_of_lt (by omega)]

/-- With bound 3, from content 1: `Inc` then `Dec`, `Dec` then `Inc`, and four `Inc` calls
(1, 2, 3, 0, 1) all end at 1. -/
theorem Gpu.Atomic.Inc_Dec_are_inverse_witness :
    (1 : UnsignedInt) ≤ 3 ∧
    (Inc (1 : UnsignedInt) 3).cell = 2 ∧
    (Dec (1 : UnsignedInt) 3).cell = 0 ∧
    (Dec (Inc (1 : UnsignedInt) 3).cell 3).cell = 1 ∧
    (Inc (Dec (1 : UnsignedInt) 3).cell 3).cell = 1 ∧
    (fun c => (Inc c (3 : UnsignedInt)).cell)^[(3 : UnsignedInt).val + 1] 1 = 1 :=
  ⟨by decide, by decide, by decide,
    Gpu.Atomic.Inc_Dec_are_inverse 1 3 (by decide)⟩

/-- Claim C22. Host-path `Min` never raises and `Max` never lowers the target, and both are
idempotent: over every linearly ordered operand type, after `Min(m, v)` the content is at most
`old`, at most `v`, and is `old` or `v`; after `Max(m, v)` it is at least `old`, at least `v`,
and is `old` or `v`; the same call issued a second time leaves the target as the first call left
it and returns the value the first call stored. -/
theorem Gpu.Atomic.Min_Max_monotone_idempotent (T : Type) [LinearOrder T] (old v : T) :
    ((Min old v).cell ≤ old ∧ (Min old v).cell ≤ v ∧
      ((Min old v).cell = old ∨ (Min old v).cell = v)) ∧
    (old ≤ (Max old v).cell ∧ v ≤ (Max old v).cell ∧
      ((Max old v).cell = old ∨ (Max old v).cell = v)) ∧
    ((Min (Min old v).cell v).cell = (Min old v).cell ∧
      (Min (Min old v).cell v).ret = (Min old v).cell) ∧
    ((Max (Max old v).cell v).cell = (Max old v).cell ∧
      (Max (Max old v).cell v).ret = (Max old v).cell) := by
  refine ⟨?_, ?_, ⟨?_, rfl⟩, ⟨?_, rfl⟩⟩
  · rw [Min_cell_eq_min]
    exact ⟨min_le_left _ _, min_le_right _ _, min_choice _ _⟩
  · rw [Max_cell_eq_max]
    exact ⟨le_max_left _ _, le_max_right _ _, max_choice _ _⟩
  · rw [Min_cell_eq_min, Min_cell_eq_min, min_assoc, min_self]
  · rw [Max_cell_eq_max, Max_cell_eq_max, max_assoc, max_self]

/-! ### Interpolation kernels: loops and index arithmetic -/

theorem assign_inside (a : Data) (lo hi : Dim3) (n : Int) (f : Int → Int → Real) (i j : Int)
    (h : lo.x ≤ i ∧ i ≤ hi.x ∧ lo.y ≤ j ∧ j ≤ hi.y) : assign a lo hi n f i j n = f i j := by
  unfold assign
  rw [if_pos ⟨h.1, h.2.1, h.2.2.1, h.2.2.2, rfl⟩]

theorem assign_other (a : Data) (lo hi : Dim3) (n : Int) (f : Int → Int → Real) (i j m : Int)
    (h : m ≠ n) : assign a lo hi n f i j m = a i j m := by
  unfold assign
  rw [if_neg (fun hc => h hc.2.2.2.2)]

theorem assign_outside (a : Data) (lo hi : Dim3) (n : Int) (f : Int → Int → Real) (i j m : Int)
    (h : ¬ (lo.x ≤ i ∧ i ≤ hi.x ∧ lo.y ≤ j ∧ j ≤ hi.y)) : assign a lo hi n f i j m = a i j m := by
  unfold assign
  rw [if_neg (fun hc => h ⟨hc.1, hc.2.1, hc.2.2.1, hc.2.2.2.1⟩)]

/-- The first `k` turns of a loop over the components. -/
theorem forComp_eq_foldl (ncomp : Int) (body : Int → Data → Data) (s : Data) :
    forComp ncomp body s = (List.range ncomp.toNat).foldl (fun s (n : Nat) => body (n : Int) s) s := rfl

theorem foldl_range_frame (body : Int → Data → Data) (i j m : Int) (k : Nat) (s : Data)
    (h : ∀ n : Nat, n < k → ∀ t, body (n : Int) t i j m = t i j m) :
    (List.range k).foldl (fun s (n : Nat) => body (n : Int) s) s i j m = s i j m := by
  induction k with
  | zero => rfl
  | succ k ih =>
    rw [List.range_succ, List.foldl_append, List.foldl_cons, List.foldl_nil,
      h k (Nat.lt_succ_self k)]
    exact ih (fun n hn t => h n (Nat.lt_succ_of_lt hn) t)

theorem foldl_range_entry (body : Int → Data → Data) (i j m : Int) (k K : Nat) (s : Data)
    (hk : k < K) (h : ∀ n : Nat, k < n → n < K → ∀ t, body (n : Int) t i j m = t i j m) :
    (List.range K).foldl (fun s (n : Nat) => body (n : Int) s) s i j m
      = body (k : Int) ((List.range k).foldl (fun s (n : Nat) => body (n : Int) s) s) i j m := by
  induction K with
  | zero => omega
  | succ K ih =>
    rw [List.range_succ, List.foldl_append, List.foldl_cons, List.foldl_nil]
    by_cases hkK : k = K
    · subst hkK; rfl
    · rw [h K (by omega) (Nat.lt_succ_self K)]
      exact ih (by omega) (fun n h1 h2 t => h n h1 (Nat.lt_succ_of_lt h2) t)

/-- An entry that only turn `n` of a loop over the components writes: after the loop it holds
what turn `n` wrote, from a state `t` that still holds the first state `s` wherever the earlier
turns write nothing. -/
theorem forComp_entry (ncomp : Int) (body : Int → Data → Data) (s : Data) (i j m n : Int)
    (hn0 : 0 ≤ n) (hn : n < ncomp)
    (h : ∀ n' : Int, 0 ≤ n' → n' < ncomp → n' ≠ n → ∀ t, body n' t i j m = t i j m) :
    ∃ t : Data,
      (∀ i' j' m' : Int,
        (∀ n' : Int, 0 ≤ n' → n' < n → ∀ t', body n' t' i' j' m' = t' i' j' m') →
        t i' j' m' = s i' j' m') ∧
      forComp ncomp body s i j m = body n t i j m := by
  refine ⟨(List.range n.toNat).foldl (fun s (k : Nat) => body (k : Int) s) s, ?_, ?_⟩
  · intro i' j' m' hf
    exact foldl_range_frame body i' j' m' n.toNat s
      (fun k hk t => hf k (by omega) (by omega) t)
  · rw [forComp_eq_foldl, foldl_range_entry body i j m n.toNat ncomp.toNat s (by omega)
      (fun k h1 h2 t => h k (by omega) (by omega) (by omega) t)]
    rw [Int.toNat_of_nonneg hn0]

/-- The value of an entry that only turn `n` writes, when that turn writes `v` from every state
that still holds the first state wherever the earlier turns write nothing. -/
theorem forComp_value (ncomp : Int) (body : Int → Data → Data) (s : Data) (i j m n : Int)
    (v : Real) (hn0 : 0 ≤ n) (hn : n < ncomp)
    (h : ∀ n' : Int, 0 ≤ n' → n' < ncomp → n' ≠ n → ∀ t, body n' t i j m = t i j m)
    (hv : ∀ t : Data,
      (∀ i' j' m' : Int,
        (∀ n' : Int, 0 ≤ n' → n' < n → ∀ t', body n' t' i' j' m' = t' i' j' m') →
        t i' j' m' = s i' j' m') →
      body n t i j m = v) :
    forComp ncomp body s i j m = v := by
  obtain ⟨t, ht, he⟩ := forComp_entry ncomp body s i j m n hn0 hn h
  rw [he]
  exact hv t ht

/-- An entry that no turn of a loop over the components writes keeps its value. -/
theorem forComp_frame (ncomp : Int) (body : Int → Data → Data) (s : Data) (i j m : Int)
    (h : ∀ n' : Int, 0 ≤ n' → n' < ncomp → ∀ t, body n' t i j m = t i j m) :
    forComp ncomp body s i j m = s i j m := by
  rw [forComp_eq_foldl]
  exact foldl_range_frame body i j m ncomp.toNat s (fun k hk t => h k (by omega) (by omega) t)

/-- For a positive ratio `coarsen` is the floor of the quotient. -/
theorem coarsen_eq_ediv (i r : Int) (hr : 0 < r) : coarsen i r = i / r := by
  unfold coarsen
  by_cases h : i < 0
  · rw [if_pos h]
    have ha : |i + 1| = -(i + 1) := abs_of_nonpos (by omega)
    rw [ha, neg_neg]
    by_cases h1 : i + 1 = 0
    · have hi : i = -1 := by omega
      subst hi
      simp only [Int.reduceNeg, neg_add_cancel, Int.zero_tdiv, zero_sub]
      have := Int.ediv_emod_unique (a := -1) (r := r - 1) (q := -1) hr
      exact (this.2 ⟨by ring, by omega, by omega⟩).1.symm
    · have hpos : 0 ≤ -(i + 1) := by omega
      have e1 : (i + 1).tdiv r = -((-(i + 1)).tdiv r) := by
        rw [Int.neg_tdiv, neg_neg]
      have e2 : (-(i + 1)).tdiv r = (-(i + 1)) / r := Int.tdiv_eq_ediv hpos hr.le
      rw [e1, e2]
      have hq := Int.emod_add_ediv (-(i + 1)) r
      have hm0 := Int.emod_nonneg (-(i + 1)) hr.ne'
      have hm1 := Int.emod_lt_of_pos (-(i + 1)) hr
      have := Int.ediv_emod_unique (a := i) (r := r - 1 - (-(i + 1)) % r)
        (q := -((-(i + 1)) / r) - 1) hr
      exact (this.2 ⟨by linear_combination -hq, by omega, by omega⟩).1.symm
  · rw [if_neg h]
    exact Int.tdiv_eq_ediv (by omega) hr.le

theorem coarsen_bounds (i r : Int) (hr : 0 < r) :
    coarsen i r * r ≤ i ∧ i < coarsen i r * r + r := by
  rw [coarsen_eq_ediv i r hr]
  have h1 := Int.ediv_mul_le i hr.ne'
  have h2 := Int.lt_ediv_add_one_mul_self i hr
  constructor
  · exact h1
  · linarith

theorem coarsen_eq_of_bounds (i r ic : Int) (hr : 0 < r) (h1 : ic * r ≤ i)
    (h2 : i < ic * r + r) : coarsen i r = ic := by
  obtain ⟨b1, b2⟩ := coarsen_bounds i r hr
  have hlt : ∀ a b : Int, a * r < b * r + r → a ≤ b := by
    intro a b hab
    by_contra hc
    have : b + 1 ≤ a := by omega
    have := Int.mul_le_mul_of_nonneg_right this hr.le
    linarith
  exact le_antisymm (hlt _ _ (by linarith)) (hlt _ _ (by linarith))

/-! ### The limiting step -/

theorem limited_slope_spec (cen forw back : Real) :
    |limited_slope cen forw back| ≤ |cen| ∧
    |limited_slope cen forw back| ≤ min |forw| |back| ∧
    0 ≤ limited_slope cen forw back * cen ∧
    (forw * back < 0 → limited_slope cen forw back = 0) ∧
    (cen = 0 → limited_slope cen forw back = 0) := by
  have hslp : ∀ slp : Real, slp = (if forw * back ≥ 0 then min |forw| |back| else 0) →
      0 ≤ slp ∧ slp ≤ min |forw| |back| := by
    intro slp hs
    have hmin : 0 ≤ min |forw| |back| := le_min (abs_nonneg _) (abs_nonneg _)
    split_ifs at hs <;> rw [hs]
    · exact ⟨hmin, le_refl _⟩
    · exact ⟨le_refl _, hmin⟩
  unfold limited_slope copysign
  simp only
  generalize hs : (if forw * back ≥ 0 then min |forw| |back| else 0) = slp
  obtain ⟨h0, h1⟩ := hslp slp hs.symm
  have hm0 : 0 ≤ min slp |cen| := le_min h0 (abs_nonneg _)
  have hm1 : min slp |cen| ≤ |cen| := min_le_right _ _
  have hm2 : min slp |cen| ≤ slp := min_le_left _ _
  have hzero : forw * back < 0 → slp = 0 := by
    intro hneg
    rw [← hs, if_neg (not_le.2 hneg)]
  by_cases hc : cen < 0
  · rw [if_pos hc, abs_one, neg_one_mul, abs_neg, abs_of_nonneg hm0]
    refine ⟨hm1, hm2.trans h1, ?_, ?_, ?_⟩
    · nlinarith
    · intro hneg
      rw [hzero hneg, min_eq_left (abs_nonneg cen), neg_zero]
    · intro h0c
      exact absurd h0c hc.ne
  · rw [if_neg hc, abs_one, one_mul, abs_of_nonneg hm0]
    refine ⟨hm1, hm2.trans h1, ?_, ?_, ?_⟩
    · exact mul_nonneg hm0 (not_lt.1 hc)
    · intro hneg
      rw [hzero hneg, min_eq_left (abs_nonneg cen)]
    · intro h0c
      rw [h0c, abs_zero, min_eq_right h0]

theorem nodebilin_slopes_entries (bx : Box) (slope : Array4) (u : Array4) (icomp ncomp : Int)
    (ratio : Nat → Int) (i j n : Int) (hb : bx.contains i j) (hn0 : 0 ≤ n) (hn : n < ncomp) :
    nodebilin_slopes bx slope u icomp ncomp ratio i j (n + ncomp * ix)
      = 1 / (ratio 0 : Real) * (u.data (i + 1) j (n + icomp) - u.data i j (n + icomp)) ∧
    nodebilin_slopes bx slope u icomp ncomp ratio i j (n + ncomp * iy)
      = 1 / (ratio 1 : Real) * (u.data i (j + 1) (n + icomp) - u.data i j (n + icomp)) ∧
    nodebilin_slopes bx slope u icomp ncomp ratio i j (n + ncomp * ixy)
      = 1 / (ratio 0 : Real) * (1 / (ratio 1 : Real))
        * ((u.data (i + 1) (j + 1) (n + icomp) - u.data i (j + 1) (n + icomp))
          - (u.data (i + 1) j (n + icomp) - u.data i j (n + icomp))) := by
  have hb' : bx.lbound.x ≤ i ∧ i ≤ bx.ubound.x ∧ bx.lbound.y ≤ j ∧ j ≤ bx.ubound.y := hb
  unfold nodebilin_slopes
  simp only [ix, iy, ixy]
  refine ⟨?_, ?_, ?_⟩
  · refine forComp_value ncomp _ _ i j _ n _ hn0 hn ?_ ?_
    · intro n' h0 h1 hne t
      rw [assign_other _ _ _ _ _ _ _ _ (by omega), assign_other _ _ _ _ _ _ _ _ (by omega),
        assign_other _ _ _ _ _ _ _ _ (by omega)]
    · intro t _
      rw [assign_other _ _ _ _ _ _ _ _ (by omega), assign_other _ _ _ _ _ _ _ _ (by omega),
        assign_inside _ _ _ _ _ _ _ hb']
  · refine forComp_value ncomp _ _ i j _ n _ hn0 hn ?_ ?_
    · intro n' h0 h1 hne t
      rw [assign_other _ _ _ _ _ _ _ _ (by omega), assign_other _ _ _ _ _ _ _ _ (by omega),
        assign_other _ _ _ _ _ _ _ _ (by omega)]
    · intro t _
      rw [assign_other _ _ _ _ _ _ _ _ (by omega), assign_inside _ _ _ _ _ _ _ hb']
  · refine forComp_value ncomp _ _ i j _ n _ hn0 hn ?_ ?_
    · intro n' h0 h1 hne t
      rw [assign_other _ _ _ _ _ _ _ _ (by omega), assign_other _ _ _ _ _ _ _ _ (by omega),
        assign_other _ _ _ _ _ _ _ _ (by omega)]
    · intro t _
      rw [assign_inside _ _ _ _ _ _ _ hb']

theorem nodebilin_interp_entry (bx : Box) (fine : Array4) (fcomp ncomp : Int) (slope : Array4)
    (crse : Array4) (ccomp : Int) (ratio : Nat → Int) (i j n : Int) (hb : bx.contains i j)
    (hn0 : 0 ≤ n) (hn : n < ncomp) :
    nodebilin_interp bx fine fcomp ncomp slope crse ccomp ratio i j (n + fcomp)
      = crse.data (min (coarsen i (ratio 0)) slope.box.ubound.x)
          (min (coarsen j (ratio 1)) slope.box.ubound.y) (n + ccomp)
        + ((i - min (coarsen i (ratio 0)) slope.box.ubound.x * ratio 0 : Int) : Real)
          * slope.data (min (coarsen i (ratio 0)) slope.box.ubound.x)
              (min (coarsen j (ratio 1)) slope.box.ubound.y) (n + ncomp * ix)
        + ((j - min (coarsen j (ratio 1)) slope.box.ubound.y * ratio 1 : Int) : Real)
          * slope.data (min (coarsen i (ratio 0)) slope.box.ubound.x)
              (min (coarsen j (ratio 1)) slope.box.ubound.y) (n + ncomp * iy)
        + ((i - min (coarsen i (ratio 0)) slope.box.ubound.x * ratio 0 : Int) : Real)
          * ((j - min (coarsen j (ratio 1)) slope.box.ubound.y * ratio 1 : Int) : Real)
          * slope.data (min (coarsen i (ratio 0)) slope.box.ubound.x)
              (min (coarsen j (ratio 1)) slope.box.ubound.y) (n + ncomp * ixy) := by
  have hb' : bx.lbound.x ≤ i ∧ i ≤ bx.ubound.x ∧ bx.lbound.y ≤ j ∧ j ≤ bx.ubound.y := hb
  unfold nodebilin_interp
  refine forComp_value ncomp _ _ i j _ n _ hn0 hn ?_ ?_
  · intro n' h0 h1 hne t
    rw [assign_other _ _ _ _ _ _ _ _ (by omega)]
  · intro t _
    rw [assign_inside _ _ _ _ _ _ _ hb']

/-- The coarse index used for the fine index `ic*r + fx` with `0 <= fx <= r`: `ic` itself, or
`ic + 1` when `fx = r` and `ic + 1` is still within the bound `chi`. -/
theorem clamp_coarsen (r chi ic fx : Int) (hr : 1 ≤ r) (hic : ic ≤ chi) (h0 : 0 ≤ fx)
    (h1 : fx ≤ r) :
    min (coarsen (ic * r + fx) r) chi = ic ∨
    (min (coarsen (ic * r + fx) r) chi = ic + 1 ∧ fx = r ∧ ic + 1 ≤ chi) := by
  by_cases hlt : fx < r
  · left
    rw [coarsen_eq_of_bounds (ic * r + fx) r ic (by omega) (by omega) (by omega)]
    exact min_eq_left hic
  · have hfx : fx = r := by omega
    have hc : coarsen (ic * r + fx) r = ic + 1 :=
      coarsen_eq_of_bounds (ic * r + fx) r (ic + 1) (by omega)
        (by rw [hfx, add_mul, one_mul]) (by rw [hfx, add_mul, one_mul]; omega)
    rw [hc]
    by_cases hle : ic + 1 ≤ chi
    · right
      exact ⟨min_eq_left hle, hfx, hle⟩
    · left
      have : chi = ic := by omega
      rw [this]
      exact min_eq_right (by omega)

/-- The value `nodebilin_interp` writes at the fine node `(ic*r0 + fx, jc*r1 + fy)` from the
slopes of `nodebilin_slopes` is the bilinear interpolant of the four corner values. -/
theorem nodebilin_value (sbox ibx : Box) (slope0 : Data) (fine crse : Array4)
    (fcomp ccomp ncomp : Int) (ratio : Nat → Int) (ic jc fx fy n : Int)
    (hr0 : 1 ≤ ratio 0) (hr1 : 1 ≤ ratio 1) (hc : sbox.contains ic jc)
    (hfx0 : 0 ≤ fx) (hfx1 : fx ≤ ratio 0) (hfy0 : 0 ≤ fy) (hfy1 : fy ≤ ratio 1)
    (hi : ibx.contains (ic * ratio 0 + fx) (jc * ratio 1 + fy)) (hn0 : 0 ≤ n) (hn : n < ncomp) :
    nodebilin_interp ibx fine fcomp ncomp
        ⟨nodebilin_slopes sbox ⟨slope0, sbox⟩ crse ccomp ncomp ratio, sbox⟩ crse ccomp ratio
        (ic * ratio 0 + fx) (jc * ratio 1 + fy) (n + fcomp)
      = (1 - (fx : Real) / ratio 0) * (1 - (fy : Real) / ratio 1) * crse.data ic jc (n + ccomp)
        + (fx : Real) / ratio 0 * (1 - (fy : Real) / ratio 1) * crse.data (ic + 1) jc (n + ccomp)
        + (1 - (fx : Real) / ratio 0) * ((fy : Real) / ratio 1)
          * crse.data ic (jc + 1) (n + ccomp)
        + (fx : Real) / ratio 0 * ((fy : Real) / ratio 1)
          * crse.data (ic + 1) (jc + 1) (n + ccomp) := by
  have hX : (ratio 0 : Real) ≠ 0 := by exact_mod_cast (by omega : ratio 0 ≠ 0)
  have hY : (ratio 1 : Real) ≠ 0 := by exact_mod_cast (by omega : ratio 1 ≠ 0)
  obtain ⟨hcx0, hcx1, hcy0, hcy1⟩ := hc
  rw [nodebilin_interp_entry ibx fine fcomp ncomp _ crse ccomp ratio _ _ n hi hn0 hn]
  simp only
  rcases clamp_coarsen (ratio 0) sbox.ubound.x ic fx hr0 hcx1 hfx0 hfx1 with
    hx | ⟨hx, hfxr, hxle⟩ <;>
  rcases clamp_coarsen (ratio 1) sbox.ubound.y jc fy hr1 hcy1 hfy0 hfy1 with
    hy | ⟨hy, hfyr, hyle⟩
  · rw [hx, hy]
    obtain ⟨e1, e2, e3⟩ := nodebilin_slopes_entries sbox ⟨slope0, sbox⟩ crse ccomp ncomp ratio
      ic jc n ⟨hcx0, hcx1, hcy0, hcy1⟩ hn0 hn
    rw [e1, e2, e3]
    have ex : ic * ratio 0 + fx - ic * ratio 0 = fx := by ring
    have ey : jc * ratio 1 + fy - jc * ratio 1 = fy := by ring
    rw [ex, ey]
    field_simp
    ring
  · rw [hx, hy]
    obtain ⟨e1, e2, e3⟩ := nodebilin_slopes_entries sbox ⟨slope0, sbox⟩ crse ccomp ncomp ratio
      ic (jc + 1) n ⟨hcx0, hcx1, by omega, hyle⟩ hn0 hn
    rw [e1, e2, e3]
    have ex : ic * ratio 0 + fx - ic * ratio 0 = fx := by ring
    have ey : jc * ratio 1 + fy - (jc + 1) * ratio 1 = 0 := by rw [hfyr]; ring
    rw [ex, ey, hfyr]
    field_simp
    ring
  · rw [hx, hy]
    obtain ⟨e1, e2, e3⟩ := nodebilin_slopes_entries sbox ⟨slope0, sbox⟩ crse ccomp ncomp ratio
      (ic + 1) jc n ⟨by omega, hxle, hcy0, hcy1⟩ hn0 hn
    rw [e1, e2, e3]
    have ex : ic * ratio 0 + fx - (ic + 1) * ratio 0 = 0 := by rw [hfxr]; ring
    have ey : jc * ratio 1 + fy - jc * ratio 1 = fy := by ring
    rw [ex, ey, hfxr]
    field_simp
    ring
  · rw [hx, hy]
    obtain ⟨e1, e2, e3⟩ := nodebilin_slopes_entries sbox ⟨slope0, sbox⟩ crse ccomp ncomp ratio
      (ic + 1) (jc + 1) n ⟨by omega, hxle, by omega, hyle⟩ hn0 hn
    rw [e1, e2, e3]
    have ex : ic * ratio 0 + fx - (ic + 1) * ratio 0 = 0 := by rw [hfxr]; ring
    have ey : jc * ratio 1 + fy - (jc + 1) * ratio 1 = 0 := by rw [hfyr]; ring
    rw [ex, ey, hfxr, hfyr]
    field_simp

/-- Claim C24. Node-centred bilinear prolongation reproduces the coarse nodal data, in exact
arithmetic and for ratios of at least 1, when the slopes of `nodebilin_slopes` on the slope box
and `nodebilin_interp` use the same component of the same coarse array: for every coarse node
`(ic, jc)` of the slope box and offsets `0 <= fx <= ratio[0]`, `0 <= fy <= ratio[1]`, the value
written at the fine node `(ic*ratio[0]+fx, jc*ratio[1]+fy)` is the bilinear interpolant of the
corner values `crse(ic,jc)`, `crse(ic+1,jc)`, `crse(ic,jc+1)`, `crse(ic+1,jc+1)` at
`(fx/ratio[0], fy/ratio[1])`; it is `crse(ic,jc)` at `fx = fy = 0` and `crse(ic+1,jc)` at
`fx = ratio[0]`, `fy = 0`, also when the coarse index is clamped to the upper bound of the
slope box. -/
theorem nodebilin_reproduces_coarse_nodes (sbox ibx : Box) (slope0 : Data) (fine crse : Array4)
    (fcomp ccomp ncomp : Int) (ratio : Nat → Int) (ic jc fx fy n : Int)
    (hr0 : 1 ≤ ratio 0) (hr1 : 1 ≤ ratio 1) (hc : sbox.contains ic jc)
    (hfx0 : 0 ≤ fx) (hfx1 : fx ≤ ratio 0) (hfy0 : 0 ≤ fy) (hfy1 : fy ≤ ratio 1)
    (hi : ibx.contains (ic * ratio 0 + fx) (jc * ratio 1 + fy)) (hn0 : 0 ≤ n) (hn : n < ncomp) :
    nodebilin_interp ibx fine fcomp ncomp
        ⟨nodebilin_slopes sbox ⟨slope0, sbox⟩ crse ccomp ncomp ratio, sbox⟩ crse ccomp ratio
        (ic * ratio 0 + fx) (jc * ratio 1 + fy) (n + fcomp)
      = (1 - (fx : Real) / ratio 0) * (1 - (fy : Real) / ratio 1) * crse.data ic jc (n + ccomp)
        + (fx : Real) / ratio 0 * (1 - (fy : Real) / ratio 1) * crse.data (ic + 1) jc (n + ccomp)
        + (1 - (fx : Real) / ratio 0) * ((fy : Real) / ratio 1)
          * crse.data ic (jc + 1) (n + ccomp)
        + (fx : Real) / ratio 0 * ((fy : Real) / ratio 1)
          * crse.data (ic + 1) (jc + 1) (n + ccomp) ∧
    (fx = 0 → fy = 0 →
      nodebilin_interp ibx fine fcomp ncomp
          ⟨nodebilin_slopes sbox ⟨slope0, sbox⟩ crse ccomp ncomp ratio, sbox⟩ crse ccomp ratio
          (ic * ratio 0 + fx) (jc * ratio 1 + fy) (n + fcomp)
        = crse.data ic jc (n + ccomp)) ∧
    (fx = ratio 0 → fy = 0 →
      nodebilin_interp ibx fine fcomp ncomp
          ⟨nodebilin_slopes sbox ⟨slope0, sbox⟩ crse ccomp ncomp ratio, sbox⟩ crse ccomp ratio
          (ic * ratio 0 + fx) (jc * ratio 1 + fy) (n + fcomp)
        = crse.data (ic + 1) jc (n + ccomp)) := by
  have hX : (ratio 0 : Real) ≠ 0 := by exact_mod_cast (by omega : ratio 0 ≠ 0)
  have hv := nodebilin_value sbox ibx slope0 fine crse fcomp ccomp ncomp ratio ic jc fx fy n
    hr0 hr1 hc hfx0 hfx1 hfy0 hfy1 hi hn0 hn
  refine ⟨hv, fun h1 h2 => ?_, fun h1 h2 => ?_⟩
  · rw [hv, h1, h2]
    simp
  · rw [hv, h1, h2]
    simp [hX]

/-- The slope box of the coarse nodes `(0,0)..(1,1)`, ratio 2, data `crse(i,j) = i + 10*j`: the
fine node `(4, 1)` has the coarse index 2 clamped to 1, so `ic = 1`, `fx = 2`, `fy = 1`; it lies
in the box `(0,0)..(4,4)` of `nodebilin_interp` and gets the mean 7 of `crse(2,0) = 2` and
`crse(2,1) = 12`. -/
theorem nodebilin_reproduces_coarse_nodes_witness :
    nodebilin_interp ⟨⟨0, 0⟩, ⟨4, 4⟩⟩ ⟨fun _ _ _ => 0, ⟨⟨0, 0⟩, ⟨4, 4⟩⟩⟩ 0 1
        ⟨nodebilin_slopes ⟨⟨0, 0⟩, ⟨1, 1⟩⟩ ⟨fun _ _ _ => 0, ⟨⟨0, 0⟩, ⟨1, 1⟩⟩⟩
            ⟨fun i j _ => (i : Real) + 10 * (j : Real), ⟨⟨0, 0⟩, ⟨2, 2⟩⟩⟩ 0 1 (fun _ => 2),
          ⟨⟨0, 0⟩, ⟨1, 1⟩⟩⟩
        ⟨fun i j _ => (i : Real) + 10 * (j : Real), ⟨⟨0, 0⟩, ⟨2, 2⟩⟩⟩ 0 (fun _ => 2)
        (1 * 2 + 2) (0 * 2 + 1) (0 + 0)
      = 7 :=
  (nodebilin_reproduces_coarse_nodes ⟨⟨0, 0⟩, ⟨1, 1⟩⟩ ⟨⟨0, 0⟩, ⟨4, 4⟩⟩ (fun _ _ _ => 0)
    ⟨fun _ _ _ => 0, ⟨⟨0, 0⟩, ⟨4, 4⟩⟩⟩
    ⟨fun i j _ => (i : Real) + 10 * (j : Real), ⟨⟨0, 0⟩, ⟨2, 2⟩⟩⟩ 0 0 1 (fun _ => 2) 1 0 2 1 0
    (by decide) (by decide) (by decide) (by decide) (by decide) (by decide) (by decide)
    (by decide) (by decide) (by decide)).1.trans (by norm_num)

/-! ### The slope factor of `cellconslin_slopes_linlim` -/

theorem assign_congr (a b : Data) (lo hi : Dim3) (n : Int) (f : Int → Int → Real) (i j m : Int)
    (h : a i j m = b i j m) : assign a lo hi n f i j m = assign b lo hi n f i j m := by
  unfold assign
  rw [h]

theorem boundary_congr (c d : Prop) [Decidable c] [Decidable d] (a b : Data)
    (lo hi lo' hi' : Dim3) (n : Int) (f g : Int → Int → Real) (i j m : Int)
    (h : a i j m = b i j m) :
    (if c then (if d then assign a lo hi n f else assign a lo' hi' n g) else a) i j m
      = (if c then (if d then assign b lo hi n f else assign b lo' hi' n g) else b) i j m := by
  split_ifs
  · exact assign_congr a b lo hi n f i j m h
  · exact assign_congr a b lo' hi' n g i j m h
  · exact h

theorem boundary_other (c d : Prop) [Decidable c] [Decidable d] (a : Data)
    (lo hi lo' hi' : Dim3) (n : Int) (f g : Int → Int → Real) (i j m : Int) (h : m ≠ n) :
    (if c then (if d then assign a lo hi n f else assign a lo' hi' n g) else a) i j m
      = a i j m := by
  split_ifs
  · exact assign_other a lo hi n f i j m h
  · exact assign_other a lo' hi' n g i j m h
  · rfl

/-- The routine `compute_slopes` writes no component but `ns` and `ns + ncomp`. -/
theorem compute_slopes_other {B : Type} [DecidableEq B] (ext_dir hoextrap : B) (lo hi : Dim3)
    (slopes : Data) (slo shi : Dim3) (ns : Int) (u : Data) (nu : Int) (bc : BCRec B)
    (ncomp : Int) (i j m : Int) (h1 : m ≠ ns) (h2 : m ≠ ns + ncomp) :
    compute_slopes ext_dir hoextrap lo hi slopes slo shi ns u nu bc ncomp i j m
      = slopes i j m := by
  unfold compute_slopes
  rw [boundary_other _ _ _ _ _ _ _ _ _ _ _ _ _ h2, boundary_other _ _ _ _ _ _ _ _ _ _ _ _ _ h2,
    boundary_other _ _ _ _ _ _ _ _ _ _ _ _ _ h1, boundary_other _ _ _ _ _ _ _ _ _ _ _ _ _ h1,
    assign_other _ _ _ _ _ _ _ _ h2, assign_other _ _ _ _ _ _ _ _ h1]

/-- In the cells of the box, the slopes that `compute_slopes` stores do not depend on what the
array of the slopes held before. -/
theorem compute_slopes_congr {B : Type} [DecidableEq B] (ext_dir hoextrap : B) (lo hi : Dim3)
    (s t : Data) (slo shi : Dim3) (ns : Int) (u : Data) (nu : Int) (bc : BCRec B)
    (ncomp : Int) (i j m : Int) (hb : lo.x ≤ i ∧ i ≤ hi.x ∧ lo.y ≤ j ∧ j ≤ hi.y)
    (hm : m = ns ∨ m = ns + ncomp) :
    compute_slopes ext_dir hoextrap lo hi s slo shi ns u nu bc ncomp i j m
      = compute_slopes ext_dir hoextrap lo hi t slo shi ns u nu bc ncomp i j m := by
  unfold compute_slopes
  apply boundary_congr
  apply boundary_congr
  apply boundary_congr
  apply boundary_congr
  by_cases h2 : m = ns + ncomp
  · rw [h2, assign_inside _ _ _ _ _ _ _ hb, assign_inside _ _ _ _ _ _ _ hb]
  · have h1 : m = ns := hm.resolve_right h2
    rw [assign_other _ _ _ _ _ _ _ _ h2, assign_other _ _ _ _ _ _ _ _ h2, h1,
      assign_inside _ _ _ _ _ _ _ hb, assign_inside _ _ _ _ _ _ _ hb]

/-- What one turn of the first loop of `cellconslin_slopes_linlim` leaves in a cell of the
box. -/
theorem linlim_limit_entries {B : Type} [DecidableEq B] (ext_dir hoextrap : B)
    (lo hi slo shi : Dim3) (u : Data) (icomp ncomp : Int) (bcr : Int → BCRec B) (n : Int)
    (t : Data) (i j : Int) (hb : lo.x ≤ i ∧ i ≤ hi.x ∧ lo.y ≤ j ∧ j ≤ hi.y)
    (hn0 : 0 ≤ n) (hn : n < ncomp) (cx cy lx ly : Real)
    (hcx : cx = compute_slopes ext_dir hoextrap lo hi t slo shi n u (n + icomp) (bcr n) ncomp
      i j n)
    (hcy : cy = compute_slopes ext_dir hoextrap lo hi t slo shi n u (n + icomp) (bcr n) ncomp
      i j (n + ncomp))
    (hlx : lx = limited_slope cx (2 * (u (i + 1) j (n + icomp) - u i j (n + icomp)))
      (2 * (u i j (n + icomp) - u (i - 1) j (n + icomp))))
    (hly : ly = limited_slope cy (2 * (u i (j + 1) (n + icomp) - u i j (n + icomp)))
      (2 * (u i j (n + icomp) - u i (j - 1) (n + icomp)))) :
    linlim_limit ext_dir hoextrap lo hi slo shi u icomp ncomp bcr n t i j n = lx ∧
    linlim_limit ext_dir hoextrap lo hi slo shi u icomp ncomp bcr n t i j (n + ncomp) = ly ∧
    linlim_limit ext_dir hoextrap lo hi slo shi u icomp ncomp bcr n t i j (0 + ncomp * 2)
      = (if cx ≠ 0 then min (t i j (0 + ncomp * 2)) (lx / cx) else 0) ∧
    linlim_limit ext_dir hoextrap lo hi slo shi u icomp ncomp bcr n t i j (1 + ncomp * 2)
      = (if cy ≠ 0 then min (t i j (1 + ncomp * 2)) (ly / cy) else 0) ∧
    ∀ m : Int, m ≠ n → m ≠ n + ncomp → m ≠ 0 + ncomp * 2 → m ≠ 1 + ncomp * 2 →
      linlim_limit ext_dir hoextrap lo hi slo shi u icomp ncomp bcr n t i j m = t i j m := by
  have e1 : n ≠ 1 + ncomp * 2 := by omega
  have e2 : n ≠ n + ncomp := by omega
  have e3 : n ≠ 0 + ncomp * 2 := by omega
  have e4 : n + ncomp ≠ 1 + ncomp * 2 := by omega
  have e5 : n + ncomp ≠ 0 + ncomp * 2 := by omega
  have e6 : (0 : Int) + ncomp * 2 ≠ 1 + ncomp * 2 := by omega
  have e7 : (0 : Int) + ncomp * 2 ≠ n + ncomp := by omega
  have e8 : (1 : Int) + ncomp * 2 ≠ n + ncomp := by omega
  have e9 : (0 : Int) + ncomp * 2 ≠ n := by omega
  have e10 : (1 : Int) + ncomp * 2 ≠ n := by omega
  have e11 : (1 : Int) + ncomp * 2 ≠ 0 + ncomp * 2 := by omega
  unfold linlim_limit
  dsimp only
  refine ⟨?_, ?_, ?_, ?_, ?_⟩
  · rw [assign_other _ _ _ _ _ _ _ _ e1, assign_other _ _ _ _ _ _ _ _ e2,
      assign_other _ _ _ _ _ _ _ _ e3, assign_inside _ _ _ _ _ _ _ hb, hlx, hcx]
  · rw [assign_other _ _ _ _ _ _ _ _ e4, assign_inside _ _ _ _ _ _ _ hb,
      assign_other _ _ _ _ _ _ _ _ e5, assign_other _ _ _ _ _ _ _ _ e2.symm, hly, hcy]
  · rw [assign_other _ _ _ _ _ _ _ _ e6, assign_other _ _ _ _ _ _ _ _ e7,
      assign_inside _ _ _ _ _ _ _ hb, assign_other _ _ _ _ _ _ _ _ e9,
      assign_inside _ _ _ _ _ _ _ hb,
      compute_slopes_other _ _ _ _ _ _ _ _ _ _ _ _ _ _ _ e9 e7, hlx, hcx]
  · simp only [assign_inside _ _ _ _ _ _ _ hb, assign_other _ _ _ _ _ _ _ _ e5,
      assign_other _ _ _ _ _ _ _ _ e2.symm, assign_other _ _ _ _ _ _ _ _ e8,
      assign_other _ _ _ _ _ _ _ _ e11, assign_other _ _ _ _ _ _ _ _ e10,
      compute_slopes_other _ _ _ _ _ _ _ _ _ _ _ _ _ _ _ e10 e8, hly, hcy]
  · intro m h1 h2 h3 h4
    rw [assign_other _ _ _ _ _ _ _ _ h4, assign_other _ _ _ _ _ _ _ _ h2,
      assign_other _ _ _ _ _ _ _ _ h3, assign_other _ _ _ _ _ _ _ _ h1,
      compute_slopes_other _ _ _ _ _ _ _ _ _ _ _ _ _ _ _ h1 h2]

theorem slope_factor_succ (cen lim : Int → Real) (k : Nat) :
    slope_factor cen lim (k + 1)
      = if cen k ≠ 0 then min (slope_factor cen lim k) (lim k / cen k) else 0 := by
  unfold slope_factor
  rw [List.range_succ, List.foldl_append, List.foldl_cons, List.foldl_nil]

theorem slope_factor_le_one (cen lim : Int → Real) (k : Nat) : slope_factor cen lim k ≤ 1 := by
  induction k with
  | zero => exact le_refl _
  | succ k ih =>
    rw [slope_factor_succ]
    split_ifs
    · exact (min_le_left _ _).trans ih
    · exact zero_le_one

theorem slope_factor_nonneg (cen lim : Int → Real) (k : Nat)
    (hr : ∀ n : Nat, n < k → 0 ≤ lim n / cen n) : 0 ≤ slope_factor cen lim k := by
  induction k with
  | zero => exact zero_le_one
  | succ k ih =>
    rw [slope_factor_succ]
    split_ifs
    · exact le_min (ih (fun n hn => hr n (Nat.lt_succ_of_lt hn))) (hr k (Nat.lt_succ_self k))
    · exact le_refl _

theorem slope_factor_eq_zero (cen lim : Int → Real) (k : Nat)
    (hr : ∀ n : Nat, n < k → 0 ≤ lim n / cen n) (n : Nat) (hn : n < k) (hc : cen n = 0) :
    slope_factor cen lim k = 0 := by
  induction k with
  | zero => omega
  | succ k ih =>
    rw [slope_factor_succ]
    by_cases hk : n = k
    · subst hk
      rw [if_neg (not_not.2 hc)]
    · have h0 := ih (fun n hn => hr n (Nat.lt_succ_of_lt hn)) (by omega)
      split_ifs
      · rw [h0]
        exact min_eq_left (hr k (Nat.lt_succ_self k))
      · rfl

theorem slope_factor_le (cen lim : Int → Real) (k : Nat)
    (hc : ∀ n : Nat, n < k → cen n ≠ 0) (n : Nat) (hn : n < k) :
    slope_factor cen lim k ≤ lim n / cen n := by
  induction k with
  | zero => omega
  | succ k ih =>
    rw [slope_factor_succ, if_pos (hc k (Nat.lt_succ_self k))]
    by_cases hk : n = k
    · subst hk
      exact min_le_right _ _
    · exact (min_le_left _ _).trans (ih (fun n hn => hc n (Nat.lt_succ_of_lt hn)) (by omega))

theorem slope_factor_attained (cen lim : Int → Real) (k : Nat)
    (hc : ∀ n : Nat, n < k → cen n ≠ 0) (hr : ∀ n : Nat, n < k → lim n / cen n ≤ 1)
    (hk : 0 < k) : ∃ n : Nat, n < k ∧ slope_factor cen lim k = lim n / cen n := by
  induction k with
  | zero => omega
  | succ k ih =>
    rw [slope_factor_succ, if_pos (hc k (Nat.lt_succ_self k))]
    by_cases hle : slope_factor cen lim k ≤ lim k / cen k
    · rw [min_eq_left hle]
      by_cases hk0 : k = 0
      · subst hk0
        refine ⟨0, Nat.lt_succ_self 0, ?_⟩
        exact le_antisymm hle (hr 0 (Nat.lt_succ_self 0))
      · obtain ⟨n, hn, he⟩ := ih (fun n hn => hc n (Nat.lt_succ_of_lt hn))
          (fun n hn => hr n (Nat.lt_succ_of_lt hn)) (by omega)
        exact ⟨n, Nat.lt_succ_of_lt hn, he⟩
    · rw [min_eq_right (le_of_not_le hle)]
      exact ⟨k, Nat.lt_succ_self k, rfl⟩

/-- The ratio of a limited slope to its central slope lies in [0, 1]. -/
theorem limited_slope_ratio (cen forw back : Real) :
    0 ≤ limited_slope cen forw back / cen ∧ limited_slope cen forw back / cen ≤ 1 := by
  obtain ⟨h1, _, h3, _, _⟩ := limited_slope_spec cen forw back
  refine ⟨div_nonneg_iff.2 (mul_nonneg_iff.1 h3), ?_⟩
  by_cases hc : cen = 0
  · rw [hc, div_zero]
    exact zero_le_one
  · refine (le_abs_self _).trans ?_
    rw [abs_div]
    exact (div_le_one (abs_pos.2 hc)).2 h1

/-- The state of a cell of the box after the first `k` turns of the first loop of
`cellconslin_slopes_linlim`. -/
theorem linlim_limit_foldl {B : Type} [DecidableEq B] (ext_dir hoextrap : B)
    (lo hi slo shi : Dim3) (u : Data) (icomp ncomp : Int) (bcr : Int → BCRec B)
    (s : Data) (i j : Int) (hb : lo.x ≤ i ∧ i ≤ hi.x ∧ lo.y ≤ j ∧ j ≤ hi.y)
    (cx cy lx ly : Int → Real)
    (hcx : ∀ (n : Int) (t : Data), cx n = compute_slopes ext_dir hoextrap lo hi t slo shi n u
      (n + icomp) (bcr n) ncomp i j n)
    (hcy : ∀ (n : Int) (t : Data), cy n = compute_slopes ext_dir hoextrap lo hi t slo shi n u
      (n + icomp) (bcr n) ncomp i j (n + ncomp))
    (hlx : ∀ n : Int, lx n = limited_slope (cx n)
      (2 * (u (i + 1) j (n + icomp) - u i j (n + icomp)))
      (2 * (u i j (n + icomp) - u (i - 1) j (n + icomp))))
    (hly : ∀ n : Int, ly n = limited_slope (cy n)
      (2 * (u i (j + 1) (n + icomp) - u i j (n + icomp)))
      (2 * (u i j (n + icomp) - u i (j - 1) (n + icomp))))
    (h0 : s i j (0 + ncomp * 2) = 1) (h1 : s i j (1 + ncomp * 2) = 1)
    (k : Nat) (hk : k ≤ ncomp.toNat) :
    (List.range k).foldl (fun s (n : Nat) =>
        linlim_limit ext_dir hoextrap lo hi slo shi u icomp ncomp bcr (n : Int) s) s
        i j (0 + ncomp * 2) = slope_factor cx lx k ∧
    (List.range k).foldl (fun s (n : Nat) =>
        linlim_limit ext_dir hoextrap lo hi slo shi u icomp ncomp bcr (n : Int) s) s
        i j (1 + ncomp * 2) = slope_factor cy ly k ∧
    ∀ n : Nat, n < k →
      (List.range k).foldl (fun s (n : Nat) =>
          linlim_limit ext_dir hoextrap lo hi slo shi u icomp ncomp bcr (n : Int) s) s
          i j n = lx n ∧
      (List.range k).foldl (fun s (n : Nat) =>
          linlim_limit ext_dir hoextrap lo hi slo shi u icomp ncomp bcr (n : Int) s) s
          i j (n + ncomp) = ly n := by
  induction k with
  | zero => exact ⟨h0, h1, fun n hn => absurd hn (Nat.not_lt_zero n)⟩
  | succ k ih =>
    obtain ⟨i0, i1, i2⟩ := ih (by omega)
    rw [List.range_succ, List.foldl_append, List.foldl_cons, List.foldl_nil]
    generalize (List.range k).foldl (fun s (n : Nat) =>
        linlim_limit ext_dir hoextrap lo hi slo shi u icomp ncomp bcr (n : Int) s) s = t
      at i0 i1 i2 ⊢
    obtain ⟨e1, e2, e3, e4, e5⟩ := linlim_limit_entries ext_dir hoextrap lo hi slo shi u icomp
      ncomp bcr (k : Int) t i j hb (by omega) (by omega) (cx k) (cy k) (lx k) (ly k)
      (hcx k t) (hcy k t) (hlx k) (hly k)
    refine ⟨?_, ?_, ?_⟩
    · rw [e3, i0, slope_factor_succ]
    · rw [e4, i1, slope_factor_succ]
    · intro n hn
      by_cases hnk : n = k
      · subst hnk
        exact ⟨e1, e2⟩
      · have hlt : n < k := by omega
        rw [e5 n (by omega) (by omega) (by omega) (by omega),
          e5 (n + ncomp) (by omega) (by omega) (by omega) (by omega)]
        exact i2 n hlt

/-- What the second loop of `cellconslin_slopes_linlim` leaves in a cell of the box: the
factors are kept and every slope is multiplied by the factor of its direction. -/
theorem linlim_scale_entries (lo hi : Dim3) (ncomp : Int) (s : Data) (i j : Int)
    (hb : lo.x ≤ i ∧ i ≤ hi.x ∧ lo.y ≤ j ∧ j ≤ hi.y) :
    forComp ncomp (linlim_scale lo hi ncomp) s i j (0 + ncomp * 2) = s i j (0 + ncomp * 2) ∧
    forComp ncomp (linlim_scale lo hi ncomp) s i j (1 + ncomp * 2) = s i j (1 + ncomp * 2) ∧
    ∀ n : Int, 0 ≤ n → n < ncomp →
      forComp ncomp (linlim_scale lo hi ncomp) s i j n = s i j n * s i j (0 + ncomp * 2) ∧
      forComp ncomp (linlim_scale lo hi ncomp) s i j (n + ncomp)
        = s i j (n + ncomp) * s i j (1 + ncomp * 2) := by
  have frame : ∀ n' m : Int, m ≠ n' → m ≠ n' + ncomp → ∀ t : Data,
      linlim_scale lo hi ncomp n' t i j m = t i j m := by
    intro n' m h1 h2 t
    unfold linlim_scale
    dsimp only
    rw [assign_other _ _ _ _ _ _ _ _ h2, assign_other _ _ _ _ _ _ _ _ h1]
  refine ⟨?_, ?_, ?_⟩
  · exact forComp_frame ncomp _ s i j _
      (fun n' h0 h1 t => frame n' _ (by omega) (by omega) t)
  · exact forComp_frame ncomp _ s i j _
      (fun n' h0 h1 t => frame n' _ (by omega) (by omega) t)
  · intro n hn0 hn
    constructor
    · refine forComp_value ncomp _ s i j n n _ hn0 hn
        (fun n' h0 h1 hne t => frame n' _ (by omega) (by omega) t) ?_
      intro t ht
      have a1 : t i j n = s i j n :=
        ht i j n (fun n' h0 h1 t' => frame n' _ (by omega) (by omega) t')
      have a2 : t i j (0 + ncomp * 2) = s i j (0 + ncomp * 2) :=
        ht i j _ (fun n' h0 h1 t' => frame n' _ (by omega) (by omega) t')
      unfold linlim_scale
      dsimp only
      rw [assign_other _ _ _ _ _ _ _ _ (by omega), assign_inside _ _ _ _ _ _ _ hb, a1, a2]
    · refine forComp_value ncomp _ s i j (n + ncomp) n _ hn0 hn
        (fun n' h0 h1 hne t => frame n' _ (by omega) (by omega) t) ?_
      intro t ht
      have a1 : t i j (n + ncomp) = s i j (n + ncomp) :=
        ht i j _ (fun n' h0 h1 t' => frame n' _ (by omega) (by omega) t')
      have a2 : t i j (1 + ncomp * 2) = s i j (1 + ncomp * 2) :=
        ht i j _ (fun n' h0 h1 t' => frame n' _ (by omega) (by omega) t')
      unfold linlim_scale
      dsimp only
      rw [assign_inside _ _ _ _ _ _ _ hb, assign_other _ _ _ _ _ _ _ _ (by omega),
        assign_other _ _ _ _ _ _ _ _ (by omega), a1, a2]

/-- The factor of one direction, as the first loop of `cellconslin_slopes_linlim` accumulates
it from ratios in [0, 1]: it lies in [0, 1], it is 0 if a central slope is 0, and otherwise it
is the least of the ratios. -/
theorem slope_factor_props (cen lim : Int → Real) (ncomp : Int) (sf : Real)
    (hsf : sf = slope_factor cen lim ncomp.toNat)
    (hr : ∀ n : Int, 0 ≤ lim n / cen n ∧ lim n / cen n ≤ 1) :
    (0 ≤ sf ∧ sf ≤ 1) ∧
    ((∃ n : Int, 0 ≤ n ∧ n < ncomp ∧ cen n = 0) → sf = 0) ∧
    ((∀ n : Int, 0 ≤ n → n < ncomp → cen n ≠ 0) →
      (∀ n : Int, 0 ≤ n → n < ncomp → sf ≤ lim n / cen n) ∧
      (0 < ncomp → ∃ n : Int, 0 ≤ n ∧ n < ncomp ∧ sf = lim n / cen n)) := by
  rw [hsf]
  refine ⟨⟨slope_factor_nonneg cen lim _ (fun n _ => (hr n).1), slope_factor_le_one cen lim _⟩,
    ?_, ?_⟩
  · rintro ⟨n, h0, h1, hc⟩
    refine slope_factor_eq_zero cen lim _ (fun n _ => (hr n).1) n.toNat (by omega) ?_
    rw [Int.toNat_of_nonneg h0]
    exact hc
  · intro hc
    have hc' : ∀ n : Nat, n < ncomp.toNat → cen n ≠ 0 :=
      fun n hn => hc n (by omega) (by omega)
    constructor
    · intro n h0 h1
      have h := slope_factor_le cen lim _ hc' n.toNat (by omega)
      rw [Int.toNat_of_nonneg h0] at h
      exact h
    · intro hpos
      obtain ⟨n, hn, he⟩ := slope_factor_attained cen lim _ hc' (fun n _ => (hr n).2)
        (by omega)
      exact ⟨n, by omega, by omega, he⟩

theorem scaled_slope_props (lim sf r : Real) (hr : r = lim * sf) (h0 : 0 ≤ sf) (h1 : sf ≤ 1) :
    r = lim * sf ∧ |r| ≤ |lim| ∧ 0 ≤ r * lim := by
  refine ⟨hr, ?_, ?_⟩
  · rw [hr, abs_mul, abs_of_nonneg h0]
    exact mul_le_of_le_one_right (abs_nonneg _) h1
  · rw [hr]
    nlinarith [mul_self_nonneg lim]

/-- What `cellconslin_slopes_linlim` leaves in a cell of the box. -/
theorem linlim_values {B : Type} [DecidableEq B] (ext_dir hoextrap : B) (bx : Box)
    (slopes : Array4) (u : Array4) (icomp ncomp : Int) (bcr : Int → BCRec B) (i j : Int)
    (hb : bx.contains i j) :
    cellconslin_slopes_linlim ext_dir hoextrap bx slopes u icomp ncomp bcr i j (0 + ncomp * 2)
      = slope_factor (cen_x ext_dir hoextrap bx slopes u icomp ncomp bcr i j)
          (limited_x ext_dir hoextrap bx slopes u icomp ncomp bcr i j) ncomp.toNat ∧
    cellconslin_slopes_linlim ext_dir hoextrap bx slopes u icomp ncomp bcr i j (1 + ncomp * 2)
      = slope_factor (cen_y ext_dir hoextrap bx slopes u icomp ncomp bcr i j)
          (limited_y ext_dir hoextrap bx slopes u icomp ncomp bcr i j) ncomp.toNat ∧
    ∀ n : Int, 0 ≤ n → n < ncomp →
      cellconslin_slopes_linlim ext_dir hoextrap bx slopes u icomp ncomp bcr i j n
        = limited_x ext_dir hoextrap bx slopes u icomp ncomp bcr i j n
          * cellconslin_slopes_linlim ext_dir hoextrap bx slopes u icomp ncomp bcr i j
              (0 + ncomp * 2) ∧
      cellconslin_slopes_linlim ext_dir hoextrap bx slopes u icomp ncomp bcr i j (n + ncomp)
        = limited_y ext_dir hoextrap bx slopes u icomp ncomp bcr i j n
          * cellconslin_slopes_linlim ext_dir hoextrap bx slopes u icomp ncomp bcr i j
              (1 + ncomp * 2) := by
  have hb' : bx.lbound.x ≤ i ∧ i ≤ bx.ubound.x ∧ bx.lbound.y ≤ j ∧ j ≤ bx.ubound.y := hb
  have e01 : (0 : Int) + ncomp * 2 ≠ 1 + ncomp * 2 := by omega
  obtain ⟨f0, f1, f2⟩ := linlim_limit_foldl ext_dir hoextrap bx.lbound bx.ubound
    slopes.box.lbound slopes.box.ubound u.data icomp ncomp bcr
    (assign (assign slopes.data bx.lbound bx.ubound (0 + ncomp * 2) (fun _ _ => 1))
      bx.lbound bx.ubound (1 + ncomp * 2) (fun _ _ => 1)) i j hb'
    (cen_x ext_dir hoextrap bx slopes u icomp ncomp bcr i j)
    (cen_y ext_dir hoextrap bx slopes u icomp ncomp bcr i j)
    (limited_x ext_dir hoextrap bx slopes u icomp ncomp bcr i j)
    (limited_y ext_dir hoextrap bx slopes u icomp ncomp bcr i j)
    (fun n t => compute_slopes_congr ext_dir hoextrap bx.lbound bx.ubound slopes.data t
      slopes.box.lbound slopes.box.ubound n u.data (n + icomp) (bcr n) ncomp i j n hb'
      (Or.inl rfl))
    (fun n t => compute_slopes_congr ext_dir hoextrap bx.lbound bx.ubound slopes.data t
      slopes.box.lbound slopes.box.ubound n u.data (n + icomp) (bcr n) ncomp i j (n + ncomp) hb'
      (Or.inr rfl))
    (fun n => rfl) (fun n => rfl)
    (by rw [assign_other _ _ _ _ _ _ _ _ e01, assign_inside _ _ _ _ _ _ _ hb'])
    (by rw [assign_inside _ _ _ _ _ _ _ hb'])
    ncomp.toNat (le_refl _)
  rw [← forComp_eq_foldl] at f0 f1 f2
  unfold cellconslin_slopes_linlim
  dsimp only
  obtain ⟨g0, g1, g2⟩ := linlim_scale_entries bx.lbound bx.ubound ncomp
    (forComp ncomp (linlim_limit ext_dir hoextrap bx.lbound bx.ubound slopes.box.lbound
      slopes.box.ubound u.data icomp ncomp bcr)
      (assign (assign slopes.data bx.lbound bx.ubound (0 + ncomp * 2) (fun _ _ => 1))
        bx.lbound bx.ubound (1 + ncomp * 2) (fun _ _ => 1))) i j hb'
  refine ⟨g0.trans f0, g1.trans f1, ?_⟩
  intro n hn0 hn
  obtain ⟨h1, h2⟩ := f2 n.toNat (by omega)
  rw [Int.toNat_of_nonneg hn0] at h1 h2
  rw [(g2 n hn0 hn).1, (g2 n hn0 hn).2, g0, g1, h1, h2]
  exact ⟨rfl, rfl⟩

/-- Claim C26. The slope factor of `cellconslin_slopes_linlim`, in exact arithmetic: for every
cell of `bx` and each direction, the factor `sf` ends in [0, 1]; it is 0 if a component has
`cen == 0`, and otherwise the least over the components of the ratio of the limited slope to
`cen`; every slope stored in the end is the limited slope multiplied by the factor of its
direction, so the limiting step's magnitude is not exceeded and its sign is not reversed. -/
theorem linlim_slope_factor_scales_limited_slopes {B : Type} [DecidableEq B]
    (ext_dir hoextrap : B) (bx : Box) (slopes : Array4) (u : Array4) (icomp ncomp : Int)
    (bcr : Int → BCRec B) (i j : Int) (hb : bx.contains i j) :
    ((0 ≤ cellconslin_slopes_linlim ext_dir hoextrap bx slopes u icomp ncomp bcr i j (ncomp * 2) ∧
        cellconslin_slopes_linlim ext_dir hoextrap bx slopes u icomp ncomp bcr i j (ncomp * 2)
          ≤ 1) ∧
      ((∃ n : Int, 0 ≤ n ∧ n < ncomp ∧
          cen_x ext_dir hoextrap bx slopes u icomp ncomp bcr i j n = 0) →
        cellconslin_slopes_linlim ext_dir hoextrap bx slopes u icomp ncomp bcr i j (ncomp * 2)
          = 0) ∧
      ((∀ n : Int, 0 ≤ n → n < ncomp →
          cen_x ext_dir hoextrap bx slopes u icomp ncomp bcr i j n ≠ 0) →
        (∀ n : Int, 0 ≤ n → n < ncomp →
          cellconslin_slopes_linlim ext_dir hoextrap bx slopes u icomp ncomp bcr i j (ncomp * 2)
            ≤ limited_x ext_dir hoextrap bx slopes u icomp ncomp bcr i j n
              / cen_x ext_dir hoextrap bx slopes u icomp ncomp bcr i j n) ∧
        (0 < ncomp → ∃ n : Int, 0 ≤ n ∧ n < ncomp ∧
          cellconslin_slopes_linlim ext_dir hoextrap bx slopes u icomp ncomp bcr i j (ncomp * 2)
            = limited_x ext_dir hoextrap bx slopes u icomp ncomp bcr i j n
              / cen_x ext_dir hoextrap bx slopes u icomp ncomp bcr i j n)) ∧
      (∀ n : Int, 0 ≤ n → n < ncomp →
        cellconslin_slopes_linlim ext_dir hoextrap bx slopes u icomp ncomp bcr i j n
          = limited_x ext_dir hoextrap bx slopes u icomp ncomp bcr i j n
            * cellconslin_slopes_linlim ext_dir hoextrap bx slopes u icomp ncomp bcr i j
                (ncomp * 2) ∧
        |cellconslin_slopes_linlim ext_dir hoextrap bx slopes u icomp ncomp bcr i j n|
          ≤ |limited_x ext_dir hoextrap bx slopes u icomp ncomp bcr i j n| ∧
        0 ≤ cellconslin_slopes_linlim ext_dir hoextrap bx slopes u icomp ncomp bcr i j n
          * limited_x ext_dir hoextrap bx slopes u icomp ncomp bcr i j n)) ∧
    ((0 ≤ cellconslin_slopes_linlim ext_dir hoextrap bx slopes u icomp ncomp bcr i j
          (ncomp * 2 + 1) ∧
        cellconslin_slopes_linlim ext_dir hoextrap bx slopes u icomp ncomp bcr i j
          (ncomp * 2 + 1) ≤ 1) ∧
      ((∃ n : Int, 0 ≤ n ∧ n < ncomp ∧
          cen_y ext_dir hoextrap bx slopes u icomp ncomp bcr i j n = 0) →
        cellconslin_slopes_linlim ext_dir hoextrap bx slopes u icomp ncomp bcr i j
          (ncomp * 2 + 1) = 0) ∧
      ((∀ n : Int, 0 ≤ n → n < ncomp →
          cen_y ext_dir hoextrap bx slopes u icomp ncomp bcr i j n ≠ 0) →
        (∀ n : Int, 0 ≤ n → n < ncomp →
          cellconslin_slopes_linlim ext_dir hoextrap bx slopes u icomp ncomp bcr i j
              (ncomp * 2 + 1)
            ≤ limited_y ext_dir hoextrap bx slopes u icomp ncomp bcr i j n
              / cen_y ext_dir hoextrap bx slopes u icomp ncomp bcr i j n) ∧
        (0 < ncomp → ∃ n : Int, 0 ≤ n ∧ n < ncomp ∧
          cellconslin_slopes_linlim ext_dir hoextrap bx slopes u icomp ncomp bcr i j
              (ncomp * 2 + 1)
            = limited_y ext_dir hoextrap bx slopes u icomp ncomp bcr i j n
              / cen_y ext_dir hoextrap bx slopes u icomp ncomp bcr i j n)) ∧
      (∀ n : Int, 0 ≤ n → n < ncomp →
        cellconslin_slopes_linlim ext_dir hoextrap bx slopes u icomp ncomp bcr i j (n + ncomp)
          = limited_y ext_dir hoextrap bx slopes u icomp ncomp bcr i j n
            * cellconslin_slopes_linlim ext_dir hoextrap bx slopes u icomp ncomp bcr i j
                (ncomp * 2 + 1) ∧
        |cellconslin_slopes_linlim ext_dir hoextrap bx slopes u icomp ncomp bcr i j (n + ncomp)|
          ≤ |limited_y ext_dir hoextrap bx slopes u icomp ncomp bcr i j n| ∧
        0 ≤ cellconslin_slopes_linlim ext_dir hoextrap bx slopes u icomp ncomp bcr i j
            (n + ncomp)
          * limited_y ext_dir hoextrap bx slopes u icomp ncomp bcr i j n)) := by
  obtain ⟨v0, v1, v2⟩ := linlim_values ext_dir hoextrap bx slopes u icomp ncomp bcr i j hb
  rw [zero_add] at v0
  rw [add_comm 1 (ncomp * 2)] at v1
  simp only [zero_add, add_comm 1 (ncomp * 2)] at v2
  obtain ⟨px, zx, mx⟩ := slope_factor_props _ _ ncomp _ v0
    (fun n => limited_slope_ratio _ _ _)
  obtain ⟨py, zy, my⟩ := slope_factor_props _ _ ncomp _ v1
    (fun n => limited_slope_ratio _ _ _)
  exact ⟨⟨px, zx, mx, fun n h0 h1 => scaled_slope_props _ _ _ (v2 n h0 h1).1 px.1 px.2⟩,
    ⟨py, zy, my, fun n h0 h1 => scaled_slope_props _ _ _ (v2 n h0 h1).2 py.1 py.2⟩⟩

theorem linlim_slope_factor_scales_limited_slopes_witness :
    0 ≤ cellconslin_slopes_linlim (3 : Int) 4 ⟨⟨0, 0⟩, ⟨1, 1⟩⟩
        ⟨fun _ _ _ => 0, ⟨⟨0, 0⟩, ⟨1, 1⟩⟩⟩
        ⟨fun i j _ => (i : Real) * (i : Real) + 10 * (j : Real), ⟨⟨-1, -1⟩, ⟨2, 2⟩⟩⟩ 0 1
        (fun _ => ⟨fun _ => 0, fun _ => 0⟩) 1 1 (1 * 2) ∧
      cellconslin_slopes_linlim (3 : Int) 4 ⟨⟨0, 0⟩, ⟨1, 1⟩⟩
        ⟨fun _ _ _ => 0, ⟨⟨0, 0⟩, ⟨1, 1⟩⟩⟩
        ⟨fun i j _ => (i : Real) * (i : Real) + 10 * (j : Real), ⟨⟨-1, -1⟩, ⟨2, 2⟩⟩⟩ 0 1
        (fun _ => ⟨fun _ => 0, fun _ => 0⟩) 1 1 (1 * 2) ≤ 1 :=
  (linlim_slope_factor_scales_limited_slopes (3 : Int) 4 ⟨⟨0, 0⟩, ⟨1, 1⟩⟩
    ⟨fun _ _ _ => 0, ⟨⟨0, 0⟩, ⟨1, 1⟩⟩⟩
    ⟨fun i j _ => (i : Real) * (i : Real) + 10 * (j : Real), ⟨⟨-1, -1⟩, ⟨2, 2⟩⟩⟩ 0 1
    (fun _ => ⟨fun _ => 0, fun _ => 0⟩) 1 1 (by decide)).1.1

/-! ### The min-max limiter -/

theorem foldl_min_le {α : Type} (f : α → Real) (l : List α) (a0 : Real) :
    l.foldl (fun a x => min a (f x)) a0 ≤ a0 ∧
    ∀ x ∈ l, l.foldl (fun a x => min a (f x)) a0 ≤ f x := by
  induction l generalizing a0 with
  | nil => exact ⟨le_refl _, fun x hx => absurd hx (List.not_mem_nil x)⟩
  | cons y l ih =>
    rw [List.foldl_cons]
    obtain ⟨h1, h2⟩ := ih (min a0 (f y))
    refine ⟨h1.trans (min_le_left _ _), ?_⟩
    intro x hx
    rcases List.mem_cons.1 hx with hxy | hxl
    · rw [hxy]
      exact h1.trans (min_le_right _ _)
    · exact h2 x hxl

theorem foldl_min_ge {α : Type} (f : α → Real) (l : List α) (a0 c : Real) (h0 : c ≤ a0)
    (h : ∀ x ∈ l, c ≤ f x) : c ≤ l.foldl (fun a x => min a (f x)) a0 := by
  induction l generalizing a0 with
  | nil => exact h0
  | cons y l ih =>
    rw [List.foldl_cons]
    exact ih (min a0 (f y)) (le_min h0 (h y (List.mem_cons_self y l)))
      (fun x hx => h x (List.mem_cons_of_mem y hx))

theorem foldl_min_mem {α : Type} (f : α → Real) (l : List α) (a0 : Real) :
    l.foldl (fun a x => min a (f x)) a0 = a0 ∨
    ∃ x ∈ l, l.foldl (fun a x => min a (f x)) a0 = f x := by
  induction l generalizing a0 with
  | nil => exact Or.inl rfl
  | cons y l ih =>
    rw [List.foldl_cons]
    rcases ih (min a0 (f y)) with h | ⟨x, hx, h⟩
    · rcases min_choice a0 (f y) with hm | hm
      · exact Or.inl (h.trans hm)
      · exact Or.inr ⟨y, List.mem_cons_self y l, h.trans hm⟩
    · exact Or.inr ⟨x, List.mem_cons_of_mem y hx, h⟩

/-- The two nested loops that lower a running minimum: the result is at most the first value
and at most every value met. -/
theorem foldl2_min_le {α β : Type} (f : β → α → Real) (ly : List β) (lx : List α) (a0 : Real) :
    ly.foldl (fun a y => lx.foldl (fun a x => min a (f y x)) a) a0 ≤ a0 ∧
    ∀ y ∈ ly, ∀ x ∈ lx,
      ly.foldl (fun a y => lx.foldl (fun a x => min a (f y x)) a) a0 ≤ f y x := by
  induction ly generalizing a0 with
  | nil => exact ⟨le_refl _, fun y hy => absurd hy (List.not_mem_nil y)⟩
  | cons z ly ih =>
    rw [List.foldl_cons]
    obtain ⟨h1, h2⟩ := ih (lx.foldl (fun a x => min a (f z x)) a0)
    obtain ⟨g1, g2⟩ := foldl_min_le (f z) lx a0
    refine ⟨h1.trans g1, ?_⟩
    intro y hy x hx
    rcases List.mem_cons.1 hy with hyz | hyl
    · rw [hyz]
      exact h1.trans (g2 x hx)
    · exact h2 y hyl x hx

theorem foldl2_min_ge {α β : Type} (f : β → α → Real) (ly : List β) (lx : List α) (a0 c : Real)
    (h0 : c ≤ a0) (h : ∀ y ∈ ly, ∀ x ∈ lx, c ≤ f y x) :
    c ≤ ly.foldl (fun a y => lx.foldl (fun a x => min a (f y x)) a) a0 := by
  induction ly generalizing a0 with
  | nil => exact h0
  | cons z ly ih =>
    rw [List.foldl_cons]
    exact ih _ (foldl_min_ge (f z) lx a0 c h0 (h z (List.mem_cons_self z ly)))
      (fun y hy => h y (List.mem_cons_of_mem z hy))

theorem foldl2_min_mem {α β : Type} (f : β → α → Real) (ly : List β) (lx : List α)
    (a0 : Real) :
    ly.foldl (fun a y => lx.foldl (fun a x => min a (f y x)) a) a0 = a0 ∨
    ∃ y ∈ ly, ∃ x ∈ lx,
      ly.foldl (fun a y => lx.foldl (fun a x => min a (f y x)) a) a0 = f y x := by
  induction ly generalizing a0 with
  | nil => exact Or.inl rfl
  | cons z ly ih =>
    rw [List.foldl_cons]
    rcases ih (lx.foldl (fun a x => min a (f z x)) a0) with h | ⟨y, hy, x, hx, h⟩
    · rcases foldl_min_mem (f z) lx a0 with hm | ⟨x, hx, hm⟩
      · exact Or.inl (h.trans hm)
      · exact Or.inr ⟨z, List.mem_cons_self z ly, x, hx, h.trans hm⟩
    · exact Or.inr ⟨y, List.mem_cons_of_mem z hy, x, hx, h⟩

theorem foldl_max_ge {α : Type} (f : α → Real) (l : List α) (a0 : Real) :
    a0 ≤ l.foldl (fun a x => max a (f x)) a0 ∧
    ∀ x ∈ l, f x ≤ l.foldl (fun a x => max a (f x)) a0 := by
  induction l generalizing a0 with
  | nil => exact ⟨le_refl _, fun x hx => absurd hx (List.not_mem_nil x)⟩
  | cons y l ih =>
    rw [List.foldl_cons]
    obtain ⟨h1, h2⟩ := ih (max a0 (f y))
    refine ⟨(le_max_left _ _).trans h1, ?_⟩
    intro x hx
    rcases List.mem_cons.1 hx with hxy | hxl
    · rw [hxy]
      exact (le_max_right _ _).trans h1
    · exact h2 x hxl

theorem foldl_max_mem {α : Type} (f : α → Real) (l : List α) (a0 : Real) :
    l.foldl (fun a x => max a (f x)) a0 = a0 ∨
    ∃ x ∈ l, l.foldl (fun a x => max a (f x)) a0 = f x := by
  induction l generalizing a0 with
  | nil => exact Or.inl rfl
  | cons y l ih =>
    rw [List.foldl_cons]
    rcases ih (max a0 (f y)) with h | ⟨x, hx, h⟩
    · rcases max_choice a0 (f y) with hm | hm
      · exact Or.inl (h.trans hm)
      · exact Or.inr ⟨y, List.mem_cons_self y l, h.trans hm⟩
    · exact Or.inr ⟨x, List.mem_cons_of_mem y hx, h⟩

/-- The two nested loops that raise a running maximum: the result is at least the first value
and at least every value met. -/
theorem foldl2_max_ge {α β : Type} (f : β → α → Real) (ly : List β) (lx : List α) (a0 : Real) :
    a0 ≤ ly.foldl (fun a y => lx.foldl (fun a x => max a (f y x)) a) a0 ∧
    ∀ y ∈ ly, ∀ x ∈ lx,
      f y x ≤ ly.foldl (fun a y => lx.foldl (fun a x => max a (f y x)) a) a0 := by
  induction ly generalizing a0 with
  | nil => exact ⟨le_refl _, fun y hy => absurd hy (List.not_mem_nil y)⟩
  | cons z ly ih =>
    rw [List.foldl_cons]
    obtain ⟨h1, h2⟩ := ih (lx.foldl (fun a x => max a (f z x)) a0)
    obtain ⟨g1, g2⟩ := foldl_max_ge (f z) lx a0
    refine ⟨g1.trans h1, ?_⟩
    intro y hy x hx
    rcases List.mem_cons.1 hy with hyz | hyl
    · rw [hyz]
      exact (g2 x hx).trans h1
    · exact h2 y hyl x hx

theorem foldl2_max_mem {α β : Type} (f : β → α → Real) (ly : List β) (lx : List α)
    (a0 : Real) :
    ly.foldl (fun a y => lx.foldl (fun a x => max a (f y x)) a) a0 = a0 ∨
    ∃ y ∈ ly, ∃ x ∈ lx,
      ly.foldl (fun a y => lx.foldl (fun a x => max a (f y x)) a) a0 = f y x := by
  induction ly generalizing a0 with
  | nil => exact Or.inl rfl
  | cons z ly ih =>
    rw [List.foldl_cons]
    rcases ih (lx.foldl (fun a x => max a (f z x)) a0) with h | ⟨y, hy, x, hx, h⟩
    · rcases foldl_max_mem (f z) lx a0 with hm | ⟨x, hx, hm⟩
      · exact Or.inl (h.trans hm)
      · exact Or.inr ⟨z, List.mem_cons_self z ly, x, hx, h.trans hm⟩
    · exact Or.inr ⟨y, List.mem_cons_of_mem z hy, x, hx, h⟩

/-- The local `cmn` of `cellconslin_slopes_mclim` is the least value of `u` over the 3x3 cells
around `(i, j)`. -/
theorem cmn_is_least (u : Data) (i j nu : Int) :
    (∀ ioff joff : Int, -1 ≤ ioff → ioff ≤ 1 → -1 ≤ joff → joff ≤ 1 →
      cmn u i j nu ≤ u (i + ioff) (j + joff) nu) ∧
    (∃ ioff joff : Int, -1 ≤ ioff ∧ ioff ≤ 1 ∧ -1 ≤ joff ∧ joff ≤ 1 ∧
      cmn u i j nu = u (i + ioff) (j + joff) nu) := by
  have hmem : ∀ k : Int, k ∈ ([-1, 0, 1] : List Int) ↔ -1 ≤ k ∧ k ≤ 1 := by
    intro k
    simp only [List.mem_cons, List.mem_singleton, List.not_mem_nil, or_false]
    omega
  constructor
  · intro ioff joff h1 h2 h3 h4
    exact (foldl2_min_le (fun joff ioff => u (i + ioff) (j + joff) nu) [-1, 0, 1] [-1, 0, 1]
      (u i j nu)).2 joff ((hmem joff).2 ⟨h3, h4⟩) ioff ((hmem ioff).2 ⟨h1, h2⟩)
  · rcases foldl2_min_mem (fun joff ioff => u (i + ioff) (j + joff) nu) [-1, 0, 1] [-1, 0, 1]
      (u i j nu) with h | ⟨joff, hj, ioff, hi, h⟩
    · refine ⟨0, 0, by omega, by omega, by omega, by omega, ?_⟩
      rw [add_zero, add_zero]
      exact h
    · exact ⟨ioff, joff, ((hmem ioff).1 hi).1, ((hmem ioff).1 hi).2, ((hmem joff).1 hj).1,
        ((hmem joff).1 hj).2, h⟩

/-- The local `cmx` of `cellconslin_slopes_mclim` is the greatest value of `u` over the 3x3
cells around `(i, j)`. -/
theorem cmx_is_greatest (u : Data) (i j nu : Int) :
    (∀ ioff joff : Int, -1 ≤ ioff → ioff ≤ 1 → -1 ≤ joff → joff ≤ 1 →
      u (i + ioff) (j + joff) nu ≤ cmx u i j nu) ∧
    (∃ ioff joff : Int, -1 ≤ ioff ∧ ioff ≤ 1 ∧ -1 ≤ joff ∧ joff ≤ 1 ∧
      cmx u i j nu = u (i + ioff) (j + joff) nu) := by
  have hmem : ∀ k : Int, k ∈ ([-1, 0, 1] : List Int) ↔ -1 ≤ k ∧ k ≤ 1 := by
    intro k
    simp only [List.mem_cons, List.mem_singleton, List.not_mem_nil, or_false]
    omega
  constructor
  · intro ioff joff h1 h2 h3 h4
    exact (foldl2_max_ge (fun joff ioff => u (i + ioff) (j + joff) nu) [-1, 0, 1] [-1, 0, 1]
      (u i j nu)).2 joff ((hmem joff).2 ⟨h3, h4⟩) ioff ((hmem ioff).2 ⟨h1, h2⟩)
  · rcases foldl2_max_mem (fun joff ioff => u (i + ioff) (j + joff) nu) [-1, 0, 1] [-1, 0, 1]
      (u i j nu) with h | ⟨joff, hj, ioff, hi, h⟩
    · refine ⟨0, 0, by omega, by omega, by omega, by omega, ?_⟩
      rw [add_zero, add_zero]
      exact h
    · exact ⟨ioff, joff, ((hmem ioff).1 hi).1, ((hmem ioff).1 hi).2, ((hmem joff).1 hj).1,
        ((hmem joff).1 hj).2, h⟩

/-- The distances `mm` that `cellconslin_slopes_mclim` leaves in a cell of its box. -/
theorem mclim_mm_entries {B : Type} [DecidableEq B] (ext_dir hoextrap : B) (bx : Box)
    (slopes : Array4) (u : Array4) (icomp ncomp : Int) (bcr : Int → BCRec B) (i j n : Int)
    (hb : bx.contains i j) (hn0 : 0 ≤ n) (hn : n < ncomp) :
    cellconslin_slopes_mclim ext_dir hoextrap bx slopes u icomp ncomp bcr i j (n + ncomp * 2)
      = cmn u.data i j (n + icomp) - u.data i j (n + icomp) ∧
    cellconslin_slopes_mclim ext_dir hoextrap bx slopes u icomp ncomp bcr i j
        (n + ncomp + ncomp * 2)
      = cmx u.data i j (n + icomp) - u.data i j (n + icomp) := by
  have hb' : bx.lbound.x ≤ i ∧ i ≤ bx.ubound.x ∧ bx.lbound.y ≤ j ∧ j ≤ bx.ubound.y := hb
  constructor
  · unfold cellconslin_slopes_mclim
    refine forComp_value ncomp _ _ i j _ n _ hn0 hn ?_ ?_
    · intro n' h0 h1 hne t
      dsimp only
      rw [assign_other _ _ _ _ _ _ _ _ (by omega), assign_other _ _ _ _ _ _ _ _ (by omega),
        compute_slopes_other _ _ _ _ _ _ _ _ _ _ _ _ _ _ _ (by omega) (by omega),
        assign_other _ _ _ _ _ _ _ _ (by omega), assign_other _ _ _ _ _ _ _ _ (by omega)]
    · intro t _
      dsimp only
      rw [assign_other _ _ _ _ _ _ _ _ (by omega), assign_other _ _ _ _ _ _ _ _ (by omega),
        compute_slopes_other _ _ _ _ _ _ _ _ _ _ _ _ _ _ _ (by omega) (by omega),
        assign_other _ _ _ _ _ _ _ _ (by omega), assign_inside _ _ _ _ _ _ _ hb']
  · unfold cellconslin_slopes_mclim
    refine forComp_value ncomp _ _ i j _ n _ hn0 hn ?_ ?_
    · intro n' h0 h1 hne t
      dsimp only
      rw [assign_other _ _ _ _ _ _ _ _ (by omega), assign_other _ _ _ _ _ _ _ _ (by omega),
        compute_slopes_other _ _ _ _ _ _ _ _ _ _ _ _ _ _ _ (by omega) (by omega),
        assign_other _ _ _ _ _ _ _ _ (by omega), assign_other _ _ _ _ _ _ _ _ (by omega)]
    · intro t _
      dsimp only
      rw [assign_other _ _ _ _ _ _ _ _ (by omega), assign_other _ _ _ _ _ _ _ _ (by omega),
        compute_slopes_other _ _ _ _ _ _ _ _ _ _ _ _ _ _ _ (by omega) (by omega),
        assign_inside _ _ _ _ _ _ _ hb']

/-- The factor that `cellconslin_fine_alpha` leaves in a cell of its box. -/
theorem fine_alpha_entry (bx : Box) (alpha : Array4) (slopes : Array4) (ncomp : Int)
    (voff : Int → Real) (ratio : Nat → Int) (i j n : Int)
    (hb : bx.contains i j) (hn0 : 0 ≤ n) (hn : n < ncomp) :
    cellconslin_fine_alpha bx alpha slopes ncomp voff ratio i j n
      = (if voff (i - alpha.box.lbound.x)
              * slopes.data (coarsen i (ratio 0)) (coarsen j (ratio 1)) n
            + voff (j - alpha.box.lbound.y + alpha.box.length.x)
              * slopes.data (coarsen i (ratio 0)) (coarsen j (ratio 1)) (n + ncomp)
            > slopes.data (coarsen i (ratio 0)) (coarsen j (ratio 1)) (n + ncomp + ncomp * 2) ∧
          voff (i - alpha.box.lbound.x)
              * slopes.data (coarsen i (ratio 0)) (coarsen j (ratio 1)) n
            + voff (j - alpha.box.lbound.y + alpha.box.length.x)
              * slopes.data (coarsen i (ratio 0)) (coarsen j (ratio 1)) (n + ncomp) ≠ 0 then
          slopes.data (coarsen i (ratio 0)) (coarsen j (ratio 1)) (n + ncomp + ncomp * 2)
            / (voff (i - alpha.box.lbound.x)
                * slopes.data (coarsen i (ratio 0)) (coarsen j (ratio 1)) n
              + voff (j - alpha.box.lbound.y + alpha.box.length.x)
                * slopes.data (coarsen i (ratio 0)) (coarsen j (ratio 1)) (n + ncomp))
        else if voff (i - alpha.box.lbound.x)
              * slopes.data (coarsen i (ratio 0)) (coarsen j (ratio 1)) n
            + voff (j - alpha.box.lbound.y + alpha.box.length.x)
              * slopes.data (coarsen i (ratio 0)) (coarsen j (ratio 1)) (n + ncomp)
            < slopes.data (coarsen i (ratio 0)) (coarsen j (ratio 1)) (n + ncomp * 2) ∧
          voff (i - alpha.box.lbound.x)
              * slopes.data (coarsen i (ratio 0)) (coarsen j (ratio 1)) n
            + voff (j - alpha.box.lbound.y + alpha.box.length.x)
              * slopes.data (coarsen i (ratio 0)) (coarsen j (ratio 1)) (n + ncomp) ≠ 0 then
          slopes.data (coarsen i (ratio 0)) (coarsen j (ratio 1)) (n + ncomp * 2)
            / (voff (i - alpha.box.lbound.x)
                * slopes.data (coarsen i (ratio 0)) (coarsen j (ratio 1)) n
              + voff (j - alpha.box.lbound.y + alpha.box.length.x)
                * slopes.data (coarsen i (ratio 0)) (coarsen j (ratio 1)) (n + ncomp))
        else 1) := by
  have hb' : bx.lbound.x ≤ i ∧ i ≤ bx.ubound.x ∧ bx.lbound.y ≤ j ∧ j ≤ bx.ubound.y := hb
  unfold cellconslin_fine_alpha
  refine forComp_value ncomp _ _ i j _ n _ hn0 hn ?_ ?_
  · intro n' h0 h1 hne t
    rw [assign_other _ _ _ _ _ _ _ _ (by omega)]
  · intro t _
    rw [assign_inside _ _ _ _ _ _ _ hb']

/-- What `cellconslin_slopes_mmlim` leaves in a cell of its box: both slopes are multiplied by
the local `a`, and the distances `mm` behind the slopes are kept. -/
theorem mmlim_entries (bx : Box) (slopes : Array4) (alpha : Array4) (ncomp : Int)
    (ratio : Nat → Int) (i j n : Int) (hb : bx.contains i j) (hn0 : 0 ≤ n) (hn : n < ncomp) :
    cellconslin_slopes_mmlim bx slopes alpha ncomp ratio i j n
      = slopes.data i j n * mmlim_factor alpha.data ratio i j n ∧
    cellconslin_slopes_mmlim bx slopes alpha ncomp ratio i j (n + ncomp)
      = slopes.data i j (n + ncomp) * mmlim_factor alpha.data ratio i j n ∧
    cellconslin_slopes_mmlim bx slopes alpha ncomp ratio i j (n + ncomp * 2)
      = slopes.data i j (n + ncomp * 2) ∧
    cellconslin_slopes_mmlim bx slopes alpha ncomp ratio i j (n + ncomp + ncomp * 2)
      = slopes.data i j (n + ncomp + ncomp * 2) := by
  have hb' : bx.lbound.x ≤ i ∧ i ≤ bx.ubound.x ∧ bx.lbound.y ≤ j ∧ j ≤ bx.ubound.y := hb
  refine ⟨?_, ?_, ?_, ?_⟩
  · unfold cellconslin_slopes_mmlim
    refine forComp_value ncomp _ _ i j _ n _ hn0 hn ?_ ?_
    · intro n' h0 h1 hne t
      dsimp only
      rw [assign_other _ _ _ _ _ _ _ _ (by omega), assign_other _ _ _ _ _ _ _ _ (by omega)]
    · intro t ht
      dsimp only
      rw [assign_other _ _ _ _ _ _ _ _ (by omega), assign_inside _ _ _ _ _ _ _ hb',
        ht i j n (fun n' h0 h1 t' => by
          rw [assign_other _ _ _ _ _ _ _ _ (by omega),
            assign_other _ _ _ _ _ _ _ _ (by omega)])]
  · unfold cellconslin_slopes_mmlim
    refine forComp_value ncomp _ _ i j _ n _ hn0 hn ?_ ?_
    · intro n' h0 h1 hne t
      dsimp only
      rw [assign_other _ _ _ _ _ _ _ _ (by omega), assign_other _ _ _ _ _ _ _ _ (by omega)]
    · intro t ht
      dsimp only
      rw [assign_inside _ _ _ _ _ _ _ hb', assign_other _ _ _ _ _ _ _ _ (by omega),
        ht i j (n + ncomp) (fun n' h0 h1 t' => by
          rw [assign_other _ _ _ _ _ _ _ _ (by omega),
            assign_other _ _ _ _ _ _ _ _ (by omega)])]
  · unfold cellconslin_slopes_mmlim
    refine forComp_frame ncomp _ _ i j _ ?_
    intro n' h0 h1 t
    dsimp only
    rw [assign_other _ _ _ _ _ _ _ _ (by omega), assign_other _ _ _ _ _ _ _ _ (by omega)]
  · unfold cellconslin_slopes_mmlim
    refine forComp_frame ncomp _ _ i j _ ?_
    intro n' h0 h1 t
    dsimp only
    rw [assign_other _ _ _ _ _ _ _ _ (by omega), assign_other _ _ _ _ _ _ _ _ (by omega)]

/-- The value that `cellconslin_interp` writes in a cell of its box. -/
theorem cellconslin_interp_entry (bx : Box) (fine : Array4) (fcomp ncomp : Int)
    (slopes : Array4) (crse : Array4) (ccomp : Int) (voff : Int → Real) (ratio : Nat → Int)
    (i j n : Int) (hb : bx.contains i j) (hn0 : 0 ≤ n) (hn : n < ncomp) :
    cellconslin_interp bx fine fcomp ncomp slopes crse ccomp voff ratio i j (n + fcomp)
      = crse.data (coarsen i (ratio 0)) (coarsen j (ratio 1)) (n + ccomp)
        + voff (i - (slopes.box.refine ratio).lbound.x)
          * slopes.data (coarsen i (ratio 0)) (coarsen j (ratio 1)) n
        + voff (j - (slopes.box.refine ratio).lbound.y + (slopes.box.refine ratio).length.x)
          * slopes.data (coarsen i (ratio 0)) (coarsen j (ratio 1)) (n + ncomp) := by
  have hb' : bx.lbound.x ≤ i ∧ i ≤ bx.ubound.x ∧ bx.lbound.y ≤ j ∧ j ≤ bx.ubound.y := hb
  unfold cellconslin_interp
  refine forComp_value ncomp _ _ i j _ n _ hn0 hn ?_ ?_
  · intro n' h0 h1 hne t
    rw [assign_other _ _ _ _ _ _ _ _ (by omega)]
  · intro t _
    rw [assign_inside _ _ _ _ _ _ _ hb']

/-- The bounds of `mmlim_factor`: at most 1, at most every `alpha` of the fine cells of the
coarse cell, and not negative when none of these is. -/
theorem mmlim_factor_bounds (alpha : Data) (ratio : Nat → Int) (i j n : Int) :
    mmlim_factor alpha ratio i j n ≤ 1 ∧
    (∀ fx fy : Int, 0 ≤ fx → fx < ratio 0 → 0 ≤ fy → fy < ratio 1 →
      mmlim_factor alpha ratio i j n ≤ alpha (i * ratio 0 + fx) (j * ratio 1 + fy) n) ∧
    ((∀ fx fy : Int, 0 ≤ fx → fx < ratio 0 → 0 ≤ fy → fy < ratio 1 →
        0 ≤ alpha (i * ratio 0 + fx) (j * ratio 1 + fy) n) →
      0 ≤ mmlim_factor alpha ratio i j n) := by
  refine ⟨?_, ?_, ?_⟩
  · exact (foldl2_min_le (fun (joff ioff : Nat) =>
      alpha (i * ratio 0 + (ioff : Int)) (j * ratio 1 + (joff : Int)) n) _ _ 1).1
  · intro fx fy h1 h2 h3 h4
    have h := (foldl2_min_le (fun (joff ioff : Nat) =>
      alpha (i * ratio 0 + (ioff : Int)) (j * ratio 1 + (joff : Int)) n)
      (List.range (ratio 1).toNat) (List.range (ratio 0).toNat) 1).2 fy.toNat
      (List.mem_range.2 (by omega)) fx.toNat (List.mem_range.2 (by omega))
    rw [Int.toNat_of_nonneg h1, Int.toNat_of_nonneg h3] at h
    exact h
  · intro h
    refine foldl2_min_ge (fun (joff ioff : Nat) =>
      alpha (i * ratio 0 + (ioff : Int)) (j * ratio 1 + (joff : Int)) n) _ _ 1 0 zero_le_one ?_
    intro y hy x hx
    have hy' := List.mem_range.1 hy
    have hx' := List.mem_range.1 hx
    exact h x y (by omega) (by omega) (by omega) (by omega)

/-- The arithmetic of the min-max limiter: with `mn <= 0 <= mx`, the factor that
`cellconslin_fine_alpha` computes from the increment `d` lies in [0, 1], and every factor
between 0 and it brings the increment into `[mn, mx]`. -/
theorem alpha_limits_increment (mn mx d al a : Real) (hmn : mn ≤ 0) (hmx : 0 ≤ mx)
    (hal : al = if d > mx ∧ d ≠ 0 then mx / d else if d < mn ∧ d ≠ 0 then mn / d else 1) :
    (0 ≤ al ∧ al ≤ 1) ∧ (0 ≤ a → a ≤ al → mn ≤ a * d ∧ a * d ≤ mx) := by
  by_cases h1 : d > mx ∧ d ≠ 0
  · rw [if_pos h1] at hal
    have hd : 0 < d := lt_of_le_of_lt hmx h1.1
    have e : al * d = mx := by rw [hal, div_mul_cancel₀ _ hd.ne']
    have hal0 : 0 ≤ al := by rw [hal]; exact div_nonneg hmx hd.le
    refine ⟨⟨hal0, ?_⟩, ?_⟩
    · rw [hal]
      exact (div_le_one hd).2 h1.1.le
    · intro ha0 ha1
      have := mul_le_mul_of_nonneg_right ha1 hd.le
      have := mul_nonneg ha0 hd.le
      constructor <;> linarith
  · rw [if_neg h1] at hal
    by_cases h2 : d < mn ∧ d ≠ 0
    · rw [if_pos h2] at hal
      have hd : d < 0 := lt_of_lt_of_le h2.1 hmn
      have e : al * d = mn := by rw [hal, div_mul_cancel₀ _ hd.ne]
      have hal0 : 0 ≤ al := by rw [hal]; exact div_nonneg_of_nonpos hmn hd.le
      refine ⟨⟨hal0, ?_⟩, ?_⟩
      · rw [hal]
        exact (div_le_one_of_neg hd).2 h2.1.le
      · intro ha0 ha1
        have := mul_le_mul_of_nonpos_right ha1 hd.le
        have := mul_nonpos_of_nonneg_of_nonpos ha0 hd.le
        constructor <;> linarith
    · rw [if_neg h2] at hal
      refine ⟨⟨by rw [hal]; exact zero_le_one, by rw [hal]⟩, ?_⟩
      intro ha0 ha1
      rw [hal] at ha1
      by_cases hd0 : d = 0
      · rw [hd0, mul_zero]
        exact ⟨hmn, hmx⟩
      · have b1 : d ≤ mx := not_lt.1 (fun hc => h1 ⟨hc, hd0⟩)
        have b2 : mn ≤ d := not_lt.1 (fun hc => h2 ⟨hc, hd0⟩)
        constructor <;> nlinarith

/-- Claim C23. The min-max limiter creates no new extrema, in exact arithmetic. The slopes are
produced by `cellconslin_slopes_mclim`, `alpha` by `cellconslin_fine_alpha` on the refined box of
the slopes, the slopes are scaled by `cellconslin_slopes_mmlim`, and `cellconslin_interp` reads
the same coarse data with the same offsets. For a coarse cell `(ic, jc)` of the box of the
limiters whose fine cells all lie in the box of `cellconslin_fine_alpha`, and a component `n`:
the distances `mm` are `cmn - u <= 0 <= cmx - u`; every `alpha` of its fine cells lies in
[0, 1]; for every fine cell `(i, j)` of it the increment `xoff*slope_x + yoff*slope_y` of the
scaled slopes lies between the two distances; the value that `cellconslin_interp` writes there
lies between `cmn` and `cmx`, which are the least and the greatest value of the coarse data
over the 3x3 cells around `(ic, jc)`. -/
theorem minmax_limiter_creates_no_new_extrema {B : Type} [DecidableEq B]
    (ext_dir hoextrap : B) (cbx sbox fabx fbx : Box) (slopes0 alpha0 : Data) (u fine : Array4)
    (icomp ncomp fcomp : Int) (bcr : Int → BCRec B) (voff : Int → Real) (ratio : Nat → Int)
    (ic jc fx fy n : Int)
    (hr0 : 1 ≤ ratio 0) (hr1 : 1 ≤ ratio 1) (hc : cbx.contains ic jc)
    (hfa : ∀ gx gy : Int, 0 ≤ gx → gx < ratio 0 → 0 ≤ gy → gy < ratio 1 →
      fabx.contains (ic * ratio 0 + gx) (jc * ratio 1 + gy))
    (hfx0 : 0 ≤ fx) (hfx1 : fx < ratio 0) (hfy0 : 0 ≤ fy) (hfy1 : fy < ratio 1)
    (hf : fbx.contains (ic * ratio 0 + fx) (jc * ratio 1 + fy))
    (hn0 : 0 ≤ n) (hn : n < ncomp) :
    ((cellconslin_slopes_mclim ext_dir hoextrap cbx ⟨slopes0, sbox⟩ u icomp ncomp bcr) ic jc (n + ncomp * 2)
        = cmn u.data ic jc (n + icomp) - u.data ic jc (n + icomp) ∧
      (cellconslin_slopes_mclim ext_dir hoextrap cbx ⟨slopes0, sbox⟩ u icomp ncomp bcr) ic jc (n + ncomp + ncomp * 2)
        = cmx u.data ic jc (n + icomp) - u.data ic jc (n + icomp) ∧
      (cellconslin_slopes_mclim ext_dir hoextrap cbx ⟨slopes0, sbox⟩ u icomp ncomp bcr) ic jc (n + ncomp * 2) ≤ 0 ∧
      0 ≤ (cellconslin_slopes_mclim ext_dir hoextrap cbx ⟨slopes0, sbox⟩ u icomp ncomp bcr) ic jc (n + ncomp + ncomp * 2)) ∧
    (∀ gx gy : Int, 0 ≤ gx → gx < ratio 0 → 0 ≤ gy → gy < ratio 1 →
      0 ≤ (cellconslin_fine_alpha fabx ⟨alpha0, sbox.refine ratio⟩
          ⟨(cellconslin_slopes_mclim ext_dir hoextrap cbx ⟨slopes0, sbox⟩ u icomp ncomp bcr), sbox⟩
          ncomp voff ratio) (ic * ratio 0 + gx) (jc * ratio 1 + gy) n ∧
      (cellconslin_fine_alpha fabx ⟨alpha0, sbox.refine ratio⟩
          ⟨(cellconslin_slopes_mclim ext_dir hoextrap cbx ⟨slopes0, sbox⟩ u icomp ncomp bcr), sbox⟩
          ncomp voff ratio) (ic * ratio 0 + gx) (jc * ratio 1 + gy) n ≤ 1) ∧
    ((cellconslin_slopes_mclim ext_dir hoextrap cbx ⟨slopes0, sbox⟩ u icomp ncomp bcr) ic jc (n + ncomp * 2)
        ≤ voff ((ic * ratio 0 + fx) - (sbox.refine ratio).lbound.x) * (cellconslin_slopes_mmlim cbx
          ⟨(cellconslin_slopes_mclim ext_dir hoextrap cbx ⟨slopes0, sbox⟩ u icomp ncomp bcr), sbox⟩
          ⟨(cellconslin_fine_alpha fabx ⟨alpha0, sbox.refine ratio⟩
          ⟨(cellconslin_slopes_mclim ext_dir hoextrap cbx ⟨slopes0, sbox⟩ u icomp ncomp bcr), sbox⟩
          ncomp voff ratio), sbox.refine ratio⟩ ncomp ratio) ic jc n
        + voff ((jc * ratio 1 + fy) - (sbox.refine ratio).lbound.y + (sbox.refine ratio).length.x) * (cellconslin_slopes_mmlim cbx
          ⟨(cellconslin_slopes_mclim ext_dir hoextrap cbx ⟨slopes0, sbox⟩ u icomp ncomp bcr), sbox⟩
          ⟨(cellconslin_fine_alpha fabx ⟨alpha0, sbox.refine ratio⟩
          ⟨(cellconslin_slopes_mclim ext_dir hoextrap cbx ⟨slopes0, sbox⟩ u icomp ncomp bcr), sbox⟩
          ncomp voff ratio), sbox.refine ratio⟩ ncomp ratio) ic jc (n + ncomp) ∧
      voff ((ic * ratio 0 + fx) - (sbox.refine ratio).lbound.x) * (cellconslin_slopes_mmlim cbx
          ⟨(cellconslin_slopes_mclim ext_dir hoextrap cbx ⟨slopes0, sbox⟩ u icomp ncomp bcr), sbox⟩
          ⟨(cellconslin_fine_alpha fabx ⟨alpha0, sbox.refine ratio⟩
          ⟨(cellconslin_slopes_mclim ext_dir hoextrap cbx ⟨slopes0, sbox⟩ u icomp ncomp bcr), sbox⟩
          ncomp voff ratio), sbox.refine ratio⟩ ncomp ratio) ic jc n
        + voff ((jc * ratio 1 + fy) - (sbox.refine ratio).lbound.y + (sbox.refine ratio).length.x) * (cellconslin_slopes_mmlim cbx
          ⟨(cellconslin_slopes_mclim ext_dir hoextrap cbx ⟨slopes0, sbox⟩ u icomp ncomp bcr), sbox⟩
          ⟨(cellconslin_fine_alpha fabx ⟨alpha0, sbox.refine ratio⟩
          ⟨(cellconslin_slopes_mclim ext_dir hoextrap cbx ⟨slopes0, sbox⟩ u icomp ncomp bcr), sbox⟩
          ncomp voff ratio), sbox.refine ratio⟩ ncomp ratio) ic jc (n + ncomp)
        ≤ (cellconslin_slopes_mclim ext_dir hoextrap cbx ⟨slopes0, sbox⟩ u icomp ncomp bcr) ic jc (n + ncomp + ncomp * 2)) ∧
    (cmn u.data ic jc (n + icomp)
        ≤ (cellconslin_interp fbx fine fcomp ncomp
          ⟨(cellconslin_slopes_mmlim cbx
          ⟨(cellconslin_slopes_mclim ext_dir hoextrap cbx ⟨slopes0, sbox⟩ u icomp ncomp bcr), sbox⟩
          ⟨(cellconslin_fine_alpha fabx ⟨alpha0, sbox.refine ratio⟩
          ⟨(cellconslin_slopes_mclim ext_dir hoextrap cbx ⟨slopes0, sbox⟩ u icomp ncomp bcr), sbox⟩
          ncomp voff ratio), sbox.refine ratio⟩ ncomp ratio), sbox⟩ u icomp voff ratio) (ic * ratio 0 + fx) (jc * ratio 1 + fy) (n + fcomp) ∧
      (cellconslin_interp fbx fine fcomp ncomp
          ⟨(cellconslin_slopes_mmlim cbx
          ⟨(cellconslin_slopes_mclim ext_dir hoextrap cbx ⟨slopes0, sbox⟩ u icomp ncomp bcr), sbox⟩
          ⟨(cellconslin_fine_alpha fabx ⟨alpha0, sbox.refine ratio⟩
          ⟨(cellconslin_slopes_mclim ext_dir hoextrap cbx ⟨slopes0, sbox⟩ u icomp ncomp bcr), sbox⟩
          ncomp voff ratio), sbox.refine ratio⟩ ncomp ratio), sbox⟩ u icomp voff ratio) (ic * ratio 0 + fx) (jc * ratio 1 + fy) (n + fcomp)
        ≤ cmx u.data ic jc (n + icomp)) ∧
    ((∀ ioff joff : Int, -1 ≤ ioff → ioff ≤ 1 → -1 ≤ joff → joff ≤ 1 →
        cmn u.data ic jc (n + icomp) ≤ u.data (ic + ioff) (jc + joff) (n + icomp)) ∧
      (∃ ioff joff : Int, -1 ≤ ioff ∧ ioff ≤ 1 ∧ -1 ≤ joff ∧ joff ≤ 1 ∧
        cmn u.data ic jc (n + icomp) = u.data (ic + ioff) (jc + joff) (n + icomp))) ∧
    ((∀ ioff joff : Int, -1 ≤ ioff → ioff ≤ 1 → -1 ≤ joff → joff ≤ 1 →
        u.data (ic + ioff) (jc + joff) (n + icomp) ≤ cmx u.data ic jc (n + icomp)) ∧
      (∃ ioff joff : Int, -1 ≤ ioff ∧ ioff ≤ 1 ∧ -1 ≤ joff ∧ joff ≤ 1 ∧
        cmx u.data ic jc (n + icomp) = u.data (ic + ioff) (jc + joff) (n + icomp))) := by
  have hcoarsen : ∀ (r c g : Int), 1 ≤ r → 0 ≤ g → g < r → coarsen (c * r + g) r = c :=
    fun r c g h1 h2 h3 => coarsen_eq_of_bounds _ r c (by omega) (by omega) (by omega)
  obtain ⟨m1, m2⟩ := mclim_mm_entries ext_dir hoextrap cbx ⟨slopes0, sbox⟩ u icomp ncomp bcr
    ic jc n hc hn0 hn
  have c1 := (cmn_is_least u.data ic jc (n + icomp)).1 0 0 (by omega) (by omega) (by omega)
    (by omega)
  have c2 := (cmx_is_greatest u.data ic jc (n + icomp)).1 0 0 (by omega) (by omega) (by omega)
    (by omega)
  rw [add_zero, add_zero] at c1 c2
  have hmn : (cellconslin_slopes_mclim ext_dir hoextrap cbx ⟨slopes0, sbox⟩ u icomp ncomp bcr) ic jc (n + ncomp * 2) ≤ 0 := by
    rw [m1]
    linarith
  have hmx : 0 ≤ (cellconslin_slopes_mclim ext_dir hoextrap cbx ⟨slopes0, sbox⟩ u icomp ncomp bcr) ic jc (n + ncomp + ncomp * 2) := by
    rw [m2]
    linarith
  have hal : ∀ gx gy : Int, 0 ≤ gx → gx < ratio 0 → 0 ≤ gy → gy < ratio 1 → ∀ a : Real,
      (0 ≤ (cellconslin_fine_alpha fabx ⟨alpha0, sbox.refine ratio⟩
          ⟨(cellconslin_slopes_mclim ext_dir hoextrap cbx ⟨slopes0, sbox⟩ u icomp ncomp bcr), sbox⟩
          ncomp voff ratio) (ic * ratio 0 + gx) (jc * ratio 1 + gy) n ∧
        (cellconslin_fine_alpha fabx ⟨alpha0, sbox.refine ratio⟩
          ⟨(cellconslin_slopes_mclim ext_dir hoextrap cbx ⟨slopes0, sbox⟩ u icomp ncomp bcr), sbox⟩
          ncomp voff ratio) (ic * ratio 0 + gx) (jc * ratio 1 + gy) n ≤ 1) ∧
      (0 ≤ a → a ≤ (cellconslin_fine_alpha fabx ⟨alpha0, sbox.refine ratio⟩
          ⟨(cellconslin_slopes_mclim ext_dir hoextrap cbx ⟨slopes0, sbox⟩ u icomp ncomp bcr), sbox⟩
          ncomp voff ratio) (ic * ratio 0 + gx) (jc * ratio 1 + gy) n →
        (cellconslin_slopes_mclim ext_dir hoextrap cbx ⟨slopes0, sbox⟩ u icomp ncomp bcr) ic jc (n + ncomp * 2)
          ≤ a * (voff ((ic * ratio 0 + gx) - (sbox.refine ratio).lbound.x)
              * (cellconslin_slopes_mclim ext_dir hoextrap cbx ⟨slopes0, sbox⟩ u icomp ncomp bcr) ic jc n
            + voff ((jc * ratio 1 + gy) - (sbox.refine ratio).lbound.y
                + (sbox.refine ratio).length.x)
              * (cellconslin_slopes_mclim ext_dir hoextrap cbx ⟨slopes0, sbox⟩ u icomp ncomp bcr) ic jc (n + ncomp)) ∧
        a * (voff ((ic * ratio 0 + gx) - (sbox.refine ratio).lbound.x)
              * (cellconslin_slopes_mclim ext_dir hoextrap cbx ⟨slopes0, sbox⟩ u icomp ncomp bcr) ic jc n
            + voff ((jc * ratio 1 + gy) - (sbox.refine ratio).lbound.y
                + (sbox.refine ratio).length.x)
              * (cellconslin_slopes_mclim ext_dir hoextrap cbx ⟨slopes0, sbox⟩ u icomp ncomp bcr) ic jc (n + ncomp))
          ≤ (cellconslin_slopes_mclim ext_dir hoextrap cbx ⟨slopes0, sbox⟩ u icomp ncomp bcr) ic jc (n + ncomp + ncomp * 2)) := by
    intro gx gy g1 g2 g3 g4 a
    have e := fine_alpha_entry fabx ⟨alpha0, sbox.refine ratio⟩
      ⟨(cellconslin_slopes_mclim ext_dir hoextrap cbx ⟨slopes0, sbox⟩ u icomp ncomp bcr), sbox⟩ ncomp voff ratio
      (ic * ratio 0 + gx) (jc * ratio 1 + gy) n (hfa gx gy g1 g2 g3 g4) hn0 hn
    rw [hcoarsen (ratio 0) ic gx hr0 g1 g2, hcoarsen (ratio 1) jc gy hr1 g3 g4] at e
    exact alpha_limits_increment _ _ _ _ a hmn hmx e
  obtain ⟨a1, a2, a3⟩ := mmlim_factor_bounds
    (cellconslin_fine_alpha fabx ⟨alpha0, sbox.refine ratio⟩
          ⟨(cellconslin_slopes_mclim ext_dir hoextrap cbx ⟨slopes0, sbox⟩ u icomp ncomp bcr), sbox⟩
          ncomp voff ratio) ratio ic jc n
  have a0 := a3 (fun gx gy g1 g2 g3 g4 => (hal gx gy g1 g2 g3 g4 0).1.1)
  obtain ⟨s1, s2, _, _⟩ := mmlim_entries cbx ⟨(cellconslin_slopes_mclim ext_dir hoextrap cbx ⟨slopes0, sbox⟩ u icomp ncomp bcr), sbox⟩
    ⟨(cellconslin_fine_alpha fabx ⟨alpha0, sbox.refine ratio⟩
          ⟨(cellconslin_slopes_mclim ext_dir hoextrap cbx ⟨slopes0, sbox⟩ u icomp ncomp bcr), sbox⟩
          ncomp voff ratio), sbox.refine ratio⟩ ncomp ratio ic jc n hc hn0 hn
  have hinc := (hal fx fy hfx0 hfx1 hfy0 hfy1 _).2 a0 (a2 fx fy hfx0 hfx1 hfy0 hfy1)
  have einc : voff ((ic * ratio 0 + fx) - (sbox.refine ratio).lbound.x) * (cellconslin_slopes_mmlim cbx
          ⟨(cellconslin_slopes_mclim ext_dir hoextrap cbx ⟨slopes0, sbox⟩ u icomp ncomp bcr), sbox⟩
          ⟨(cellconslin_fine_alpha fabx ⟨alpha0, sbox.refine ratio⟩
          ⟨(cellconslin_slopes_mclim ext_dir hoextrap cbx ⟨slopes0, sbox⟩ u icomp ncomp bcr), sbox⟩
          ncomp voff ratio), sbox.refine ratio⟩ ncomp ratio) ic jc n
        + voff ((jc * ratio 1 + fy) - (sbox.refine ratio).lbound.y + (sbox.refine ratio).length.x) * (cellconslin_slopes_mmlim cbx
          ⟨(cellconslin_slopes_mclim ext_dir hoextrap cbx ⟨slopes0, sbox⟩ u icomp ncomp bcr), sbox⟩
          ⟨(cellconslin_fine_alpha fabx ⟨alpha0, sbox.refine ratio⟩
          ⟨(cellconslin_slopes_mclim ext_dir hoextrap cbx ⟨slopes0, sbox⟩ u icomp ncomp bcr), sbox⟩
          ncomp voff ratio), sbox.refine ratio⟩ ncomp ratio) ic jc (n + ncomp)
      = mmlim_factor (cellconslin_fine_alpha fabx ⟨alpha0, sbox.refine ratio⟩
          ⟨(cellconslin_slopes_mclim ext_dir hoextrap cbx ⟨slopes0, sbox⟩ u icomp ncomp bcr), sbox⟩
          ncomp voff ratio) ratio ic jc n
        * (voff ((ic * ratio 0 + fx) - (sbox.refine ratio).lbound.x) * (cellconslin_slopes_mclim ext_dir hoextrap cbx ⟨slopes0, sbox⟩ u icomp ncomp bcr) ic jc n
          + voff ((jc * ratio 1 + fy) - (sbox.refine ratio).lbound.y + (sbox.refine ratio).length.x) * (cellconslin_slopes_mclim ext_dir hoextrap cbx ⟨slopes0, sbox⟩ u icomp ncomp bcr) ic jc (n + ncomp)) := by
    rw [s1, s2]
    ring
  have ef := cellconslin_interp_entry fbx fine fcomp ncomp ⟨(cellconslin_slopes_mmlim cbx
          ⟨(cellconslin_slopes_mclim ext_dir hoextrap cbx ⟨slopes0, sbox⟩ u icomp ncomp bcr), sbox⟩
          ⟨(cellconslin_fine_alpha fabx ⟨alpha0, sbox.refine ratio⟩
          ⟨(cellconslin_slopes_mclim ext_dir hoextrap cbx ⟨slopes0, sbox⟩ u icomp ncomp bcr), sbox⟩
          ncomp voff ratio), sbox.refine ratio⟩ ncomp ratio), sbox⟩ u icomp voff ratio
    (ic * ratio 0 + fx) (jc * ratio 1 + fy) n hf hn0 hn
  rw [hcoarsen (ratio 0) ic fx hr0 hfx0 hfx1, hcoarsen (ratio 1) jc fy hr1 hfy0 hfy1] at ef
  have hinc' : (cellconslin_slopes_mclim ext_dir hoextrap cbx ⟨slopes0, sbox⟩ u icomp ncomp bcr) ic jc (n + ncomp * 2) ≤ voff ((ic * ratio 0 + fx) - (sbox.refine ratio).lbound.x) * (cellconslin_slopes_mmlim cbx
          ⟨(cellconslin_slopes_mclim ext_dir hoextrap cbx ⟨slopes0, sbox⟩ u icomp ncomp bcr), sbox⟩
          ⟨(cellconslin_fine_alpha fabx ⟨alpha0, sbox.refine ratio⟩
          ⟨(cellconslin_slopes_mclim ext_dir hoextrap cbx ⟨slopes0, sbox⟩ u icomp ncomp bcr), sbox⟩
          ncomp voff ratio), sbox.refine ratio⟩ ncomp ratio) ic jc n
        + voff ((jc * ratio 1 + fy) - (sbox.refine ratio).lbound.y + (sbox.refine ratio).length.x) * (cellconslin_slopes_mmlim cbx
          ⟨(cellconslin_slopes_mclim ext_dir hoextrap cbx ⟨slopes0, sbox⟩ u icomp ncomp bcr), sbox⟩
          ⟨(cellconslin_fine_alpha fabx ⟨alpha0, sbox.refine ratio⟩
          ⟨(cellconslin_slopes_mclim ext_dir hoextrap cbx ⟨slopes0, sbox⟩ u icomp ncomp bcr), sbox⟩
          ncomp voff ratio), sbox.refine ratio⟩ ncomp ratio) ic jc (n + ncomp) ∧
      voff ((ic * ratio 0 + fx) - (sbox.refine ratio).lbound.x) * (cellconslin_slopes_mmlim cbx
          ⟨(cellconslin_slopes_mclim ext_dir hoextrap cbx ⟨slopes0, sbox⟩ u icomp ncomp bcr), sbox⟩
          ⟨(cellconslin_fine_alpha fabx ⟨alpha0, sbox.refine ratio⟩
          ⟨(cellconslin_slopes_mclim ext_dir hoextrap cbx ⟨slopes0, sbox⟩ u icomp ncomp bcr), sbox⟩
          ncomp voff ratio), sbox.refine ratio⟩ ncomp ratio) ic jc n
        + voff ((jc * ratio 1 + fy) - (sbox.refine ratio).lbound.y + (sbox.refine ratio).length.x) * (cellconslin_slopes_mmlim cbx
          ⟨(cellconslin_slopes_mclim ext_dir hoextrap cbx ⟨slopes0, sbox⟩ u icomp ncomp bcr), sbox⟩
          ⟨(cellconslin_fine_alpha fabx ⟨alpha0, sbox.refine ratio⟩
          ⟨(cellconslin_slopes_mclim ext_dir hoextrap cbx ⟨slopes0, sbox⟩ u icomp ncomp bcr), sbox⟩
          ncomp voff ratio), sbox.refine ratio⟩ ncomp ratio) ic jc (n + ncomp) ≤ (cellconslin_slopes_mclim ext_dir hoextrap cbx ⟨slopes0, sbox⟩ u icomp ncomp bcr) ic jc (n + ncomp + ncomp * 2) := by
    rw [einc]
    exact hinc
  refine ⟨⟨m1, m2, hmn, hmx⟩, fun gx gy g1 g2 g3 g4 => (hal gx gy g1 g2 g3 g4 0).1, hinc', ?_,
    cmn_is_least u.data ic jc (n + icomp), cmx_is_greatest u.data ic jc (n + icomp)⟩
  rw [ef]
  rw [m1, m2] at hinc'
  constructor
  · have := hinc'.1
    simp only at this ⊢
    linarith
  · have := hinc'.2
    simp only at this ⊢
    linarith

theorem minmax_limiter_creates_no_new_extrema_witness :
    cmn (fun i j _ => (i : Real) + 10 * (j : Real)) 0 0 (0 + 0)
        ≤ (cellconslin_interp ⟨⟨0, 0⟩, ⟨1, 1⟩⟩ ⟨(fun _ _ _ => 0), ⟨⟨0, 0⟩, ⟨1, 1⟩⟩⟩ 0 1
          ⟨(cellconslin_slopes_mmlim ⟨⟨0, 0⟩, ⟨0, 0⟩⟩
          ⟨(cellconslin_slopes_mclim (3 : Int) 4 ⟨⟨0, 0⟩, ⟨0, 0⟩⟩ ⟨(fun _ _ _ => 0), ⟨⟨0, 0⟩, ⟨0, 0⟩⟩⟩
          ⟨fun i j _ => (i : Real) + 10 * (j : Real), ⟨⟨-1, -1⟩, ⟨1, 1⟩⟩⟩ 0 1
          (fun _ => ⟨fun _ => 0, fun _ => 0⟩)), ⟨⟨0, 0⟩, ⟨0, 0⟩⟩⟩
          ⟨(cellconslin_fine_alpha ⟨⟨0, 0⟩, ⟨1, 1⟩⟩ ⟨(fun _ _ _ => 0), Box.refine ⟨⟨0, 0⟩, ⟨0, 0⟩⟩ (fun _ => 2)⟩
          ⟨(cellconslin_slopes_mclim (3 : Int) 4 ⟨⟨0, 0⟩, ⟨0, 0⟩⟩ ⟨(fun _ _ _ => 0), ⟨⟨0, 0⟩, ⟨0, 0⟩⟩⟩
          ⟨fun i j _ => (i : Real) + 10 * (j : Real), ⟨⟨-1, -1⟩, ⟨1, 1⟩⟩⟩ 0 1
          (fun _ => ⟨fun _ => 0, fun _ => 0⟩)), ⟨⟨0, 0⟩, ⟨0, 0⟩⟩⟩
          1 (fun k => if k % 2 = 0 then -(1 / 4) else 1 / 4) (fun _ => 2)), Box.refine ⟨⟨0, 0⟩, ⟨0, 0⟩⟩ (fun _ => 2)⟩ 1 (fun _ => 2)), ⟨⟨0, 0⟩, ⟨0, 0⟩⟩⟩ ⟨fun i j _ => (i : Real) + 10 * (j : Real), ⟨⟨-1, -1⟩, ⟨1, 1⟩⟩⟩ 0 (fun k => if k % 2 = 0 then -(1 / 4) else 1 / 4) (fun _ => 2)) (0 * (fun _ => 2 : Nat → Int) 0 + 1) (0 * (fun _ => 2 : Nat → Int) 1 + 0) (0 + 0) ∧
      (cellconslin_interp ⟨⟨0, 0⟩, ⟨1, 1⟩⟩ ⟨(fun _ _ _ => 0), ⟨⟨0, 0⟩, ⟨1, 1⟩⟩⟩ 0 1
          ⟨(cellconslin_slopes_mmlim ⟨⟨0, 0⟩, ⟨0, 0⟩⟩
          ⟨(cellconslin_slopes_mclim (3 : Int) 4 ⟨⟨0, 0⟩, ⟨0, 0⟩⟩ ⟨(fun _ _ _ => 0), ⟨⟨0, 0⟩, ⟨0, 0⟩⟩⟩
          ⟨fun i j _ => (i : Real) + 10 * (j : Real), ⟨⟨-1, -1⟩, ⟨1, 1⟩⟩⟩ 0 1
          (fun _ => ⟨fun _ => 0, fun _ => 0⟩)), ⟨⟨0, 0⟩, ⟨0, 0⟩⟩⟩
          ⟨(cellconslin_fine_alpha ⟨⟨0, 0⟩, ⟨1, 1⟩⟩ ⟨(fun _ _ _ => 0), Box.refine ⟨⟨0, 0⟩, ⟨0, 0⟩⟩ (fun _ => 2)⟩
          ⟨(cellconslin_slopes_mclim (3 : Int) 4 ⟨⟨0, 0⟩, ⟨0, 0⟩⟩ ⟨(fun _ _ _ => 0), ⟨⟨0, 0⟩, ⟨0, 0⟩⟩⟩
          ⟨fun i j _ => (i : Real) + 10 * (j : Real), ⟨⟨-1, -1⟩, ⟨1, 1⟩⟩⟩ 0 1
          (fun _ => ⟨fun _ => 0, fun _ => 0⟩)), ⟨⟨0, 0⟩, ⟨0, 0⟩⟩⟩
          1 (fun k => if k % 2 = 0 then -(1 / 4) else 1 / 4) (fun _ => 2)), Box.refine ⟨⟨0, 0⟩, ⟨0, 0⟩⟩ (fun _ => 2)⟩ 1 (fun _ => 2)), ⟨⟨0, 0⟩, ⟨0, 0⟩⟩⟩ ⟨fun i j _ => (i : Real) + 10 * (j : Real), ⟨⟨-1, -1⟩, ⟨1, 1⟩⟩⟩ 0 (fun k => if k % 2 = 0 then -(1 / 4) else 1 / 4) (fun _ => 2)) (0 * (fun _ => 2 : Nat → Int) 0 + 1) (0 * (fun _ => 2 : Nat → Int) 1 + 0) (0 + 0)
        ≤ cmx (fun i j _ => (i : Real) + 10 * (j : Real)) 0 0 (0 + 0) :=
  (minmax_limiter_creates_no_new_extrema (3 : Int) 4 ⟨⟨0, 0⟩, ⟨0, 0⟩⟩ ⟨⟨0, 0⟩, ⟨0, 0⟩⟩ ⟨⟨0, 0⟩, ⟨1, 1⟩⟩ ⟨⟨0, 0⟩, ⟨1, 1⟩⟩ (fun _ _ _ => 0) (fun _ _ _ => 0)
    ⟨fun i j _ => (i : Real) + 10 * (j : Real), ⟨⟨-1, -1⟩, ⟨1, 1⟩⟩⟩ ⟨(fun _ _ _ => 0), ⟨⟨0, 0⟩, ⟨1, 1⟩⟩⟩ 0 1 0
    (fun _ => ⟨fun _ => 0, fun _ => 0⟩) (fun k => if k % 2 = 0 then -(1 / 4) else 1 / 4) (fun _ => 2) 0 0 1 0 0
    (by decide) (by decide) (by decide)
    (fun gx gy h1 h2 h3 h4 => by
      have h2' : gx < 2 := h2
      have h4' : gy < 2 := h4
      show (0 : Int) ≤ 0 * 2 + gx ∧ 0 * 2 + gx ≤ 1 ∧ (0 : Int) ≤ 0 * 2 + gy ∧ 0 * 2 + gy ≤ 1
      omega)
    (by decide) (by decide) (by decide) (by decide) (by decide) (by decide)
    (by decide)).2.2.2.1

end amrex
